import Mathlib

/-!
# sequelize-modeler: the query compiler of `lib/utils/dequerylize.js`

A shallow embedding of `genSequelizeQuery` (filter compiler) and `genFields`
(projection expander), followed by theorems about them.

Conventions of the embedding

* A JavaScript string is the list of its characters (`Str`).
* A parameter map (`req.query`) is the list of its `(key, value)` pairs in
  `for ... in` order; values are strings.
* A thrown exception is `Except.error`: a `TypeError` (reading a property of
  `undefined`) or a `ReferenceError` (evaluating an identifier that is not
  bound).
* The module binds `Op` only (line 1). The identifiers `Sequelize` (lines
  325-350 and 421-422) and `moment` (line 310) are bound nowhere in it, and
  there is no global of that name: evaluating one of them throws a
  `ReferenceError`. `Op.*` are kept as constructors (`Op`).
* A template literal such as `%${value}%` is kept as `Rhs.tmpl "%" value "%"`.
-/

namespace Dequerylize

/-- A JavaScript string, as the list of its characters. -/
abbrev Str := List Char

/-- The exception a JavaScript run can end with in this module. -/
inductive JsError
  | typeError
  | referenceError
  deriving DecidableEq

/-! ## Values and coercion (`dequerylize.js` 291-312) -/

/-- A filter value after the coercion block of `genSequelizeQuery`.
`num i` is the number `i`, an integer of absolute value at most `2^53`, which
a double holds exactly (`-0` is not told from `0`); `float lit` is the
double nearest to the number the decimal literal `lit` denotes, kept as the
text of the literal. -/
inductive Value
  | str (s : Str)
  | bool (b : Bool)
  | null
  | nan
  | num (i : Int)
  | float (lit : Str)
  deriving DecidableEq

/-- `StrWhiteSpaceChar` of ECMAScript: what `parseInt` / `parseFloat` skip first. -/
def isStrWhiteSpace (c : Char) : Bool :=
  let n := c.toNat
  n == 0x09 || n == 0x0A || n == 0x0B || n == 0x0C || n == 0x0D || n == 0x20 ||
  n == 0xA0 || n == 0x1680 || (0x2000 ≤ n && n ≤ 0x200A) || n == 0x2028 ||
  n == 0x2029 || n == 0x202F || n == 0x205F || n == 0x3000 || n == 0xFEFF

/-- The value of a run of decimal digits. -/
def digitsVal (ds : Str) : Nat :=
  ds.foldl (fun acc c => 10 * acc + (c.toNat - 48)) 0

/-- Is the first character a minus sign. -/
def startsNeg : Str → Bool
  | [] => false
  | c :: _ => c == '-'

/-- Drops one leading `+` or `-`. -/
def dropSign : Str → Str
  | [] => []
  | c :: cs => if c == '-' || c == '+' then cs else c :: cs

/-- The digits `parseInt(s, 10)` reads: after leading white space and one sign. -/
def leadingDigits (s : Str) : Str :=
  (dropSign (s.dropWhile isStrWhiteSpace)).takeWhile Char.isDigit

/-- Embedding of `parseInt(s, 10)` on a string: `NaN` when no digit follows
the white space and the sign, else the number the digits denote, with the
sign. Up to `2^53` that number is held exactly; a longer run of digits is
read as the nearest double and is kept as the text of the literal. -/
def parseInt (s : Str) : Value :=
  let ds := leadingDigits s
  if ds.isEmpty then .nan
  else if digitsVal ds ≤ 9007199254740992 then
    if startsNeg (s.dropWhile isStrWhiteSpace) then .num (-(digitsVal ds : Int))
    else .num (digitsVal ds)
  else if startsNeg (s.dropWhile isStrWhiteSpace) then .float ('-' :: ds)
  else .float ds

/-- Does `s` start with `p`. -/
def startsWith : Str → Str → Bool
  | _, [] => true
  | [], _ :: _ => false
  | c :: cs, d :: ds => c == d && startsWith cs ds

/-- The sign character of a decimal literal, as text. -/
def signText : Str → Str
  | [] => []
  | c :: _ => if c == '-' || c == '+' then [c] else []

/-- The exponent part `e[+-]digits` at the head of `r`, or nothing. -/
def exponentText : Str → Str
  | [] => []
  | e :: r =>
    if e == 'e' || e == 'E' then
      let ds := (dropSign r).takeWhile Char.isDigit
      if ds.isEmpty then [] else e :: (signText r ++ ds)
    else []

/-- The longest prefix of `r` (sign already removed) that is a
`StrUnsignedDecimalLiteral`, if there is one. -/
def unsignedDecimalText (r : Str) : Option Str :=
  if startsWith r "Infinity".toList then some "Infinity".toList
  else
    let intDs := r.takeWhile Char.isDigit
    match r.dropWhile Char.isDigit with
    | [] => if intDs.isEmpty then none else some intDs
    | c :: r1 =>
      if c == '.' then
        let fd := r1.takeWhile Char.isDigit
        if intDs.isEmpty && fd.isEmpty then none
        else some (intDs ++ '.' :: fd ++ exponentText (r1.dropWhile Char.isDigit))
      else if intDs.isEmpty then none
      else some (intDs ++ exponentText (c :: r1))

/-- Embedding of `parseFloat(s)` on a string: `NaN` when no prefix of the
trimmed string is a decimal literal, else the number that literal denotes. -/
def parseFloat (s : Str) : Value :=
  let t := s.dropWhile isStrWhiteSpace
  match unsignedDecimalText (dropSign t) with
  | none => .nan
  | some lit => .float (signText t ++ lit)

/-- `ToString` of the values the coercion block can hand to `parseInt`,
`parseFloat`: the raw string or a boolean. -/
def argText : Value → Str
  | .str s => s
  | .bool true => "true".toList
  | .bool false => "false".toList
  | _ => []

def numerics : List Str :=
  ["integer", "decimal", "bigint", "float", "real", "double"].map String.toList

def momentables : List Str := ["date", "dateonly"].map String.toList

def banned : List Str :=
  ["fields", "limit", "offset", "order_by", "exclusive"].map String.toList

/-- Lines 292-300: the three literal replacements, one after the other. -/
def literalValue (raw : Str) : Value :=
  if raw = "true".toList then .bool true
  else if raw = "false".toList then .bool false
  else if raw = "null".toList then .null
  else .str raw

/-- Lines 291-312: the value a raw parameter string becomes for a field of
the given `dataType`. For a `date` / `dateonly` field and a value other than
`null`, line 310 evaluates `moment`, which is not bound: a `ReferenceError`. -/
def coerce (raw : Str) (dataType : Str) : Except JsError Value :=
  match literalValue raw with
  | .null => .ok .null
  | v =>
    if numerics.contains dataType then
      if dataType = "integer".toList then .ok (parseInt (argText v))
      else .ok (parseFloat (argText v))
    else if momentables.contains dataType then .error .referenceError
    else .ok v

/-! ## The field catalog -/

/-- A field descriptor of the catalog (`fieldmap`): `key`, `as` (the alias),
`dataType`, the optional `getter` and the optional list `fields` of nested
descriptors. An entry of a nested list can be `undefined` (`none`): `genFields`
can push one. -/
inductive Field
  | mk (key : Str) (as : Str) (dataType : Str) (getter : Option Str)
      (fields : Option (List (Option Field)))

def Field.key : Field → Str
  | .mk k _ _ _ _ => k

def Field.as : Field → Str
  | .mk _ a _ _ _ => a

def Field.dataType : Field → Str
  | .mk _ _ d _ _ => d

def Field.getter : Field → Option Str
  | .mk _ _ _ g _ => g

def Field.fields : Field → Option (List (Option Field))
  | .mk _ _ _ _ fs => fs

/-- Embedding of `fields.find(f => f.as === alias)` on the top-level catalog. -/
def findAs (al : Str) : List Field → Option Field
  | [] => none
  | f :: fs => if f.as = al then some f else findAs al fs

/-- Is the field neither numeric nor temporal: its `dataType` is in neither
of the lists `numerics` and `momentables` of `genSequelizeQuery`. -/
def Field.plain (f : Field) : Bool :=
  !numerics.contains f.dataType && !momentables.contains f.dataType

/-- Does grouped mode evaluate an unbound identifier on this field and raw
value: `Sequelize` on a numeric field, `moment` on a temporal field whose
value is not `null`. -/
def Field.unbound (f : Field) (raw : Str) : Bool :=
  numerics.contains f.dataType || (momentables.contains f.dataType && raw != "null".toList)

/-- Does the alias resolve, to a field that is neither numeric nor temporal. -/
def plainAs (al : Str) (fields : List Field) : Bool :=
  match findAs al fields with
  | some f => f.plain
  | none => false

/-- Embedding of `fields.find(x => x.key === key)`. -/
def findKey (key : Str) : List Field → Option Field
  | [] => none
  | f :: fs => if f.key = key then some f else findKey key fs

/-- Is the first field of the catalog with that storage key not numeric. -/
def plainKey (key : Str) (fields : List Field) : Bool :=
  match findKey key fields with
  | some g => !numerics.contains g.dataType
  | none => false

/-- Does the alias resolve to a field that is neither numeric nor temporal,
the first field with the same storage key being not numeric either. -/
def plainColumn (al : Str) (fields : List Field) : Bool :=
  match findAs al fields with
  | some f => f.plain && plainKey f.key fields
  | none => false

/-! ## Deconstruction of a parameter key (`dequerylize.js` 284-287) -/

/-- Embedding of `s.split(sep)` for a one-character separator. -/
def splitOn (sep : Char) : Str → List Str
  | [] => [[]]
  | c :: cs =>
    if c = sep then [] :: splitOn sep cs
    else
      match splitOn sep cs with
      | [] => [[c]]
      | p :: ps => (c :: p) :: ps

/-- Embedding of `s.replace(c, '')`: the first occurrence of `c` is removed. -/
def removeFirst (c : Char) : Str → Str
  | [] => []
  | d :: ds => if d = c then ds else d :: removeFirst c ds

/-- The three parts of a parameter key: `column` (the alias), `condition`
and `op`, the last two `undefined` (`none`) when absent. -/
structure KeyParts where
  column : Str
  condition : Option Str
  op : Option Str
  deriving DecidableEq

/-- Lines 285-287: `[column, bundle] = alias.split('(')` and
`[condition, op] = bundle ? bundle.replace(')','').split(',') : []`. -/
def deconstruct (name : Str) : KeyParts :=
  match splitOn '(' name with
  | [] => ⟨[], none, none⟩
  | column :: rest =>
    match rest with
    | [] => ⟨column, none, none⟩
    | bundle :: _ =>
      if bundle.isEmpty then ⟨column, none, none⟩
      else
        match splitOn ',' (removeFirst ')' bundle) with
        | [] => ⟨column, none, none⟩
        | condition :: more => ⟨column, some condition, more.head?⟩

/-! ## Filter expressions -/

/-- The operator symbols of `Sequelize.Op` the module uses. -/
inductive Op
  | eq | lt | gt | lte | gte | ne | like | notLike
  deriving DecidableEq

/-- The right-hand side of an operator: a value, or a template literal
`pre${value}post`. -/
inductive Rhs
  | val (v : Value)
  | tmpl (pre : Str) (v : Value) (post : Str)
  deriving DecidableEq

/-- What a key is mapped to inside a comparison: `{[Op.o]: rhs}`. The other
form of the source, `Sequelize.where(Sequelize.cast(Sequelize.col(key),
'varchar'), ...)`, is never built: its evaluation throws. -/
inductive Cond
  | op (o : Op) (rhs : Rhs)
  deriving DecidableEq

/-- What `genSequelizeQuery` builds and returns.
`cmp key c` is `{[key]: c}`; `and l` is `{[Op.and]: l}`; `or l` is
`{[Op.or]: l}`; `obj props` is a plain object `{key: value, ...}` (`obj []` is
`{}`); `undefined` and `inherited name` are what `opMap[op]` is for an `op`
that is no key of `opMap`: `undefined`, or the member `name` that every object
inherits from `Object.prototype`. -/
inductive Node
  | undefined
  | inherited (name : Str)
  | obj (props : List (Str × Value))
  | cmp (key : Str) (c : Cond)
  | and (l : List Node)
  | or (l : List Node)

/-- The property names every object inherits from `Object.prototype`. -/
def objectPrototypeNames : List Str :=
  ["constructor", "__defineGetter__", "__defineSetter__", "hasOwnProperty",
   "__lookupGetter__", "__lookupSetter__", "isPrototypeOf", "propertyIsEnumerable",
   "toString", "valueOf", "__proto__", "toLocaleString"].map String.toList

/-- One of the six pattern entries of `opMap` (lines 323-352): on a numeric
`dataType` the conditional evaluates `Sequelize.where(...)`, and `Sequelize`
is not bound: a `ReferenceError`. -/
def patternCond (dataType : Str) (o : Op) (pre : Str) (value : Value) (post : Str) :
    Except JsError Cond :=
  if numerics.contains dataType then .error .referenceError
  else .ok (.op o (.tmpl pre value post))

/-- The lookup `opMap[op]` of lines 361 / 376 in the literal of lines 316-353,
the six pattern entries being given. -/
def opEntry (key : Str) (value : Value) (c0 c1 c2 c3 c4 c5 : Cond) (op : Option Str) :
    Node :=
  match op with
  | none => .undefined
  | some o =>
    if o = "eq".toList then .cmp key (.op .eq (.val value))
    else if o = "<".toList then .cmp key (.op .lt (.val value))
    else if o = ">".toList then .cmp key (.op .gt (.val value))
    else if o = "<eq".toList then .cmp key (.op .lte (.val value))
    else if o = ">eq".toList then .cmp key (.op .gte (.val value))
    else if o = "<>".toList then .cmp key (.op .ne (.val value))
    else if o = "contains".toList then .cmp key c0
    else if o = "!contains".toList then .cmp key c1
    else if o = "startsWith".toList then .cmp key c2
    else if o = "!startsWith".toList then .cmp key c3
    else if o = "endWith".toList then .cmp key c4
    else if o = "!endWith".toList then .cmp key c5
    else if objectPrototypeNames.contains o then .inherited o
    else .undefined

/-- Lines 316-353 with the lookup `opMap[op]` of lines 361 / 376: the object
literal is built in full, the six pattern entries in the order written, then
it is looked up. -/
def opMap (key dataType : Str) (value : Value) (op : Option Str) : Except JsError Node :=
  match patternCond dataType .like "%".toList value "%".toList with
  | .error e => .error e
  | .ok c0 =>
  match patternCond dataType .notLike "%".toList value "%".toList with
  | .error e => .error e
  | .ok c1 =>
  match patternCond dataType .like [] value "%".toList with
  | .error e => .error e
  | .ok c2 =>
  match patternCond dataType .notLike [] value "%".toList with
  | .error e => .error e
  | .ok c3 =>
  match patternCond dataType .like "%".toList value [] with
  | .error e => .error e
  | .ok c4 =>
  match patternCond dataType .notLike "%".toList value [] with
  | .error e => .error e
  | .ok c5 => .ok (opEntry key value c0 c1 c2 c3 c4 c5 op)

/-- JavaScript truthiness of what `opMap[op]` gives: only `undefined` is falsy. -/
def Node.truthy : Node → Bool
  | .undefined => false
  | _ => true

/-! ## The object `where` of simple mode (line 381) -/

/-- The array index a property name denotes, if it is one: a canonical
decimal numeral below `2^32 - 1`. Such properties are enumerated first. -/
def arrayIndex (k : Str) : Option Nat :=
  if k.isEmpty || !k.all Char.isDigit then none
  else if k.head? = some '0' && k.length != 1 then none
  else if digitsVal k < 4294967295 then some (digitsVal k) else none

/-- Replaces the value of an existing property. -/
def replaceProp (k : Str) (v : Value) : List (Str × Value) → List (Str × Value)
  | [] => []
  | (k1, v1) :: ps => if k1 = k then (k1, v) :: ps else (k1, v1) :: replaceProp k v ps

/-- Adds a new array-index property at its place in enumeration order. -/
def insertIndexProp (n : Nat) (k : Str) (v : Value) :
    List (Str × Value) → List (Str × Value)
  | [] => [(k, v)]
  | (k1, v1) :: ps =>
    match arrayIndex k1 with
    | some m => if m < n then (k1, v1) :: insertIndexProp n k v ps else (k, v) :: (k1, v1) :: ps
    | none => (k, v) :: (k1, v1) :: ps

/-- Embedding of `where[key] = value`, the object being the list of its
properties in `for ... in` order: an existing property keeps its place,
array-index names come first in ascending order, other names follow in
creation order. An assignment to `__proto__` creates no property. -/
def setProp (o : List (Str × Value)) (k : Str) (v : Value) : List (Str × Value) :=
  if k = "__proto__".toList then o
  else if o.any (fun p => p.1 = k) then replaceProp k v o
  else
    match arrayIndex k with
    | some n => insertIndexProp n k v o
    | none => o ++ [(k, v)]

/-! ## `genSequelizeQuery` (`dequerylize.js` 263-436) -/

/-- The accumulators of the loop: the object `where`, `pendent` (`none` when
it is `undefined` or `null`, which the code only tests for truthiness),
`orList` and `andList`. -/
structure QState where
  whereObj : List (Str × Value)
  pendent : Option Node
  orList : List Node
  andList : List Node

def QState.init : QState := ⟨[], none, [], []⟩

/-- Lines 363-366 and 357-360: `if(pendent){ list.push(pendent); pendent = null }`. -/
def pushPendent (list : List Node) : Option Node → List Node
  | some p => list ++ [p]
  | none => list

/-- Lines 367-374: the two tests on `andList` of the `or` branch, in order;
gives the new `orList` and `andList`. -/
def flushAnd (orList andList : List Node) : List Node × List Node :=
  let s1 : List Node × List Node :=
    if 1 < andList.length then (orList ++ [.and andList], []) else (orList, andList)
  match s1.2 with
  | [x] => (s1.1 ++ [x], [])
  | _ => s1

/-- Lines 355-377: what a term does to the accumulators, `entry` being
`opMap[op]`. -/
def groupStep (st : QState) (condition : Option Str) (entry : Node) : QState :=
  if condition = some "and".toList then
    { st with pendent := none, andList := pushPendent st.andList st.pendent ++ [entry] }
  else if condition = some "or".toList then
    let flushed := flushAnd (pushPendent st.orList st.pendent) st.andList
    { st with
      pendent := if entry.truthy then some entry else none
      orList := flushed.1
      andList := flushed.2 }
  else st

/-- Lines 282-383: the body of the loop for one column and its value. -/
def queryStep (fields : List Field) (powerMode : Bool) (st : QState) (column value : Str) :
    Except JsError QState :=
  let parts := deconstruct column
  match findAs parts.column fields with
  | none => .error .typeError
  | some field =>
    let key := field.key
    match coerce value field.dataType with
    | .error e => .error e
    | .ok v =>
      if powerMode then
        match opMap key field.dataType v parts.op with
        | .error e => .error e
        | .ok entry => .ok (groupStep st parts.condition entry)
      else
        .ok { st with whereObj := setProp st.whereObj key v }

/-- Lines 281-383: the loop over the columns. -/
def queryLoop (fields : List Field) (powerMode : Bool) :
    List (Str × Str) → QState → Except JsError QState
  | [], st => .ok st
  | (column, value) :: rest, st =>
    match queryStep fields powerMode st column value with
    | .error e => .error e
    | .ok st1 => queryLoop fields powerMode rest st1

/-- Lines 388-413: the post-processing of grouped mode. -/
def groupFinish (st : QState) : Node :=
  let lists : List Node × List Node :=
    match st.pendent with
    | some p =>
      if st.andList.length = 0 then (st.orList ++ [p], st.andList)
      else (st.orList ++ [.and (st.andList ++ [p])], [])
    | none =>
      if 0 < st.andList.length then (st.orList ++ [.and st.andList], [])
      else (st.orList, st.andList)
  if 0 < lists.1.length then .or lists.1
  else
    match lists.2 with
    | [] => .obj st.whereObj
    | [x] => x
    | _ => .and lists.2

/-- Lines 416-431: one `like` condition per property of `where`. On a
numeric field lines 421-422 evaluate `Sequelize`, which is not bound: a
`ReferenceError`. -/
def likeConditions (fields : List Field) : List (Str × Value) → Except JsError (List Node)
  | [] => .ok []
  | (key, v) :: ps =>
    match findKey key fields with
    | none => .error .typeError
    | some modelField =>
      if numerics.contains modelField.dataType then .error .referenceError
      else
        match likeConditions fields ps with
        | .error e => .error e
        | .ok cs => .ok (.cmp key (.op .like (.val v)) :: cs)

/-- Lines 269-276: the parameters whose key is not banned, `columns` and
`values` side by side. -/
def columnsOf (query : List (Str × Str)) : List (Str × Str) :=
  query.filter (fun p => !banned.contains p.1)

/-- Line 277: does some column contain `(`. -/
def powerMode (query : List (Str × Str)) : Bool :=
  (columnsOf query).any (fun p => p.1.contains '(')

/-- Embedding of `genSequelizeQuery(query, fields, exclusive)`. -/
def genSequelizeQuery (query : List (Str × Str)) (fields : List Field) (exclusive : Bool) :
    Except JsError Node :=
  match queryLoop fields (powerMode query) (columnsOf query) QState.init with
  | .error e => .error e
  | .ok st =>
    if powerMode query then .ok (groupFinish st)
    else if !exclusive then
      match likeConditions fields st.whereObj with
      | .error e => .error e
      | .ok cs => .ok (.and cs)
    else .ok (.obj st.whereObj)

/-! ## `genFields` (`dequerylize.js` 183-253)

`genFields` keeps references into the catalog: `out.fields` holds catalog
objects, and after a `*` the variable `objfield` is the array
`fields[i].fields` of the catalog itself, so that a later `objfield.push`
writes into the catalog. The embedding therefore threads the catalog through
the scan and returns it next to the result. -/

/-- What the variable `objfield` refers to. -/
inductive ObjRef
  | fresh (l : List (Option Field))
  | shared (i : Nat)
  | undef

/-- An entry of `out.fields` during the scan: the catalog object `fields[i]`,
or an object the scan created for a parent. -/
inductive OutRef
  | top (i : Nat)
  | obj (key : Str) (as : Str) (getter : Option Str) (fields : ObjRef)

/-- An entry of the returned `fields`, read when the call returns. -/
inductive OutNode
  | field (f : Field)
  | obj (key : Str) (as : Str) (getter : Option Str) (fields : Option (List (Option Field)))

/-- The value `genFields` returns. -/
structure FieldsOut where
  fields : List OutNode
  expand : Bool

/-- The outcome of a call of `genFields`: the returned value or the exception,
and the catalog as the call leaves it. -/
structure FieldsResult where
  out : Except JsError FieldsOut
  catalog : List Field

/-- The variables of the scan, and the catalog. -/
structure GState where
  cat : List Field
  outFields : List OutRef
  expand : Bool
  field : Str
  objfield : ObjRef
  parent : Str
  subprop : Bool

/-- Embedding of `fields.find(x => x.as === al)`, giving the position of the
object found as well. -/
def findAsAt (al : Str) : List Field → Option (Nat × Field)
  | [] => none
  | f :: fs =>
    if f.as = al then some (0, f)
    else
      match findAsAt al fs with
      | some (i, g) => some (i + 1, g)
      | none => none

/-- Embedding of `children.find(x => x.as === al)` on a nested list: reading
`x.as` of an `undefined` entry throws. -/
def findChild (al : Str) : List (Option Field) → Except JsError (Option Field)
  | [] => .ok none
  | none :: _ => .error .typeError
  | some f :: fs => if f.as = al then .ok (some f) else findChild al fs

/-- The catalog after `fields[i].fields.push(x)`. -/
def appendChildAt : Nat → Option Field → List Field → List Field
  | _, _, [] => []
  | 0, x, f :: fs =>
    (match f with
     | .mk k a d g (some l) => Field.mk k a d g (some (l ++ [x]))
     | .mk k a d g none => Field.mk k a d g none) :: fs
  | n + 1, x, f :: fs => f :: appendChildAt n x fs

/-- Embedding of `objfield.push(x)`. -/
def pushObj (cat : List Field) (objfield : ObjRef) (x : Option Field) :
    Except JsError (List Field × ObjRef) :=
  match objfield with
  | .fresh l => .ok (cat, .fresh (l ++ [x]))
  | .shared i => .ok (appendChildAt i x cat, .shared i)
  | .undef => .error .typeError

/-- Lines 201-204 and 240-243: `if (modelField) out.fields.push(modelField)`. -/
def pushTop (outFields : List OutRef) : Option (Nat × Field) → List OutRef
  | some (i, _) => outFields ++ [.top i]
  | none => outFields

/-- Lines 196-197 and 215-216: `modelParentField` with its position, and
`modelField`. -/
def lookupChild (st : GState) : Except JsError (Nat × Field × Option Field) :=
  match findAsAt st.parent st.cat with
  | none => .error .typeError
  | some (i, modelParentField) =>
    match modelParentField.fields with
    | none => .error .typeError
    | some children =>
      match findChild st.field children with
      | .error e => .error e
      | .ok modelField => .ok (i, modelParentField, modelField)

/-- Lines 194-238: the branch of the loop body for `char`. -/
def fieldsBranch (st : GState) (char : Char) : Except JsError GState :=
  if char = ',' then
    if st.subprop then
      match lookupChild st with
      | .error e => .error e
      | .ok (_, _, modelField) =>
        match pushObj st.cat st.objfield modelField with
        | .error e => .error e
        | .ok (cat, objfield) => .ok { st with cat := cat, objfield := objfield, field := [] }
    else
      .ok { st with outFields := pushTop st.outFields (findAsAt st.field st.cat), field := [] }
  else if char = '(' then
    .ok { st with parent := st.field, field := [], subprop := true }
  else if char = ')' then
    match lookupChild st with
    | .error e => .error e
    | .ok (_, modelParentField, modelField) =>
      let pushed : Except JsError (List Field × ObjRef) :=
        match modelField with
        | some f => pushObj st.cat st.objfield (some f)
        | none => .ok (st.cat, st.objfield)
      match pushed with
      | .error e => .error e
      | .ok (cat, objfield) =>
        .ok { cat := cat
              outFields := st.outFields ++
                [.obj modelParentField.key modelParentField.as modelParentField.getter objfield]
              expand := true
              field := []
              objfield := .fresh []
              parent := []
              subprop := false }
  else if char = '*' && st.subprop then
    match findAsAt st.parent st.cat with
    | none => .error .typeError
    | some (i, modelParentField) =>
      .ok { st with
            objfield := (match modelParentField.fields with
                         | some _ => ObjRef.shared i
                         | none => ObjRef.undef)
            field := [] }
  else
    .ok { st with field := st.field ++ [char] }

/-- Lines 193-245: the loop body for `char`, `last` telling whether
`i === str.length - 1`. -/
def fieldsStep (st : GState) (char : Char) (last : Bool) : Except JsError GState :=
  match fieldsBranch st char with
  | .error e => .error e
  | .ok st1 =>
    if last && char ≠ ')' && char ≠ '(' && char ≠ ',' then
      .ok { st1 with outFields := pushTop st1.outFields (findAsAt st1.field st1.cat), field := [] }
    else .ok st1

/-- Lines 192-246: the scan. An exception leaves the catalog as the steps
before it made it. -/
def fieldsLoop : Str → GState → Except JsError GState × List Field
  | [], st => (.ok st, st.cat)
  | c :: cs, st =>
    match fieldsStep st c cs.isEmpty with
    | .error e => (.error e, st.cat)
    | .ok st1 => fieldsLoop cs st1

/-- The array an `ObjRef` stands for, read in catalog `cat`. -/
def ObjRef.read (cat : List Field) : ObjRef → Option (List (Option Field))
  | .fresh l => some l
  | .shared i =>
    match cat.get? i with
    | some f => f.fields
    | none => none
  | .undef => none

/-- The returned entry an `OutRef` stands for, read in catalog `cat`. -/
def OutRef.read (cat : List Field) : OutRef → Option OutNode
  | .top i => (cat.get? i).map OutNode.field
  | .obj k a g r => some (.obj k a g (r.read cat))

/-- Embedding of `genFields(str, fields)`. -/
def genFields (str : Str) (fields : List Field) : FieldsResult :=
  match fieldsLoop str ⟨fields, [], false, [], .fresh [], [], false⟩ with
  | (.error e, cat) => ⟨.error e, cat⟩
  | (.ok st, cat) =>
    if st.outFields.length = 0 then ⟨.ok ⟨cat.map OutNode.field, st.expand⟩, cat⟩
    else ⟨.ok ⟨st.outFields.filterMap (OutRef.read cat), st.expand⟩, cat⟩

/-- A comma-separated list, as text. -/
def commaList : List Str → Str
  | [] => []
  | [a] => a
  | a :: b :: rest => a ++ ',' :: commaList (b :: rest)

/-! ## Sample catalog -/

/-- A leaf descriptor. -/
def leafField (key al dataType : String) : Field :=
  .mk key.toList al.toList dataType.toList none none

/-- A catalog with an integer field and two string fields. -/
def people : List Field :=
  [leafField "age_col" "age" "integer", leafField "city_col" "city" "string",
   leafField "name_col" "name" "string"]

/-- A parameter map written with string literals. -/
def params (l : List (String × String)) : List (Str × Str) :=
  l.map (fun p => (p.1.toList, p.2.toList))

/-- A descriptor with nested descriptors. -/
def parentField (key al : String) (children : List Field) : Field :=
  .mk key.toList al.toList "object".toList none (some (children.map some))

/-- A catalog with a nested `contact` object. -/
def contacts : List Field :=
  [leafField "id_col" "id" "integer",
   parentField "contact_col" "contact"
     [leafField "email_col" "email" "string", leafField "phone_col" "phone" "string"],
   leafField "name_col" "name" "string"]

/-! ## Grouped terms and what the specification says of them -/

/-- The operators of the fixed set. -/
def validOps : List Str :=
  ["eq", "<", ">", "<eq", ">eq", "<>", "contains", "!contains", "startsWith",
   "!startsWith", "endWith", "!endWith"].map String.toList

/-- A grouped term `alias(group,op)=value` with `group` one of `and`, `or`. -/
structure Term where
  al : Str
  isOr : Bool
  op : Str
  value : Str

/-- The text of the group tag. -/
def Term.tag (t : Term) : Str := if t.isOr then "or".toList else "and".toList

/-- The parameter key `alias(group,op)` of a term. -/
def Term.key (t : Term) : Str := t.al ++ '(' :: (t.tag ++ ',' :: (t.op ++ [')']))

/-- The parameter `alias(group,op)=value` of a term. -/
def Term.param (t : Term) : Str × Str := (t.key, t.value)

/-- The comparison of a term: the entry of `opMap` for its operator, on the
field its alias resolves to; `undefined` when the code builds none. -/
def comparison (fields : List Field) (t : Term) : Node :=
  match findAs t.al fields with
  | some f =>
    (match coerce t.value f.dataType with
     | .ok v =>
       (match opMap f.key f.dataType v (some t.op) with
        | .ok entry => entry
        | .error _ => .undefined)
     | .error _ => .undefined)
  | none => .undefined

/-- Specification side: the blocks of a sequence of terms, a new block
starting at every or-tagged term; `cur` is the block being read. -/
def blocksFrom (cur : List Term) : List Term → List (List Term)
  | [] => if cur.isEmpty then [] else [cur]
  | t :: ts =>
    if t.isOr then
      if cur.isEmpty then blocksFrom [t] ts else cur :: blocksFrom [t] ts
    else blocksFrom (cur ++ [t]) ts

/-- Specification side: the consecutive blocks of a sequence of terms. -/
def splitBlocks (terms : List Term) : List (List Term) := blocksFrom [] terms

/-- Specification side: the entry of a block, its single comparison or the
`And` of its comparisons. -/
def blockNode (fields : List Field) : List Term → Node
  | [t] => comparison fields t
  | b => .and (b.map (comparison fields))

/-- A row of the operator table of the specification: the operator text, the
operator of the comparison, and for a pattern operator what is written before
and after the value. -/
structure OpRow where
  text : String
  op : Op
  pattern : Option (String × String)

/-- Specification side: the operator table. -/
def operatorTable : List OpRow :=
  [⟨"eq", .eq, none⟩, ⟨"<", .lt, none⟩, ⟨">", .gt, none⟩, ⟨"<eq", .lte, none⟩,
   ⟨">eq", .gte, none⟩, ⟨"<>", .ne, none⟩,
   ⟨"contains", .like, some ("%", "%")⟩, ⟨"!contains", .notLike, some ("%", "%")⟩,
   ⟨"startsWith", .like, some ("", "%")⟩, ⟨"!startsWith", .notLike, some ("", "%")⟩,
   ⟨"endWith", .like, some ("%", "")⟩, ⟨"!endWith", .notLike, some ("%", "")⟩]

/-- Specification side: the value a raw text is for a field that is neither
numeric nor temporal: the literals `true`, `false` and `null`, else the text
itself. -/
def specValue (raw : Str) : Value :=
  if raw = "null".toList then .null
  else if raw = "true".toList then .bool true
  else if raw = "false".toList then .bool false
  else .str raw

/-- Specification side: the comparison of a table row on a field `f` that is
neither numeric nor temporal, for the raw value `raw`: the field is `f.key`,
the value is the coerced `raw`, as it is or inside the pattern of the row. -/
def specComparison (f : Field) (row : OpRow) (raw : Str) : Node :=
  match row.pattern with
  | none => .cmp f.key (.op row.op (.val (specValue raw)))
  | some (pre, post) => .cmp f.key (.op row.op (.tmpl pre.toList (specValue raw) post.toList))

/-- The comparisons of a filter expression, left to right. -/
def Node.comparisons : Node → List Node
  | .undefined => []
  | .inherited _ => []
  | .obj _ => []
  | .cmp k c => [.cmp k c]
  | .and l => comparisonsList l
  | .or l => comparisonsList l
where
  /-- The comparisons of a list of expressions. -/
  comparisonsList : List Node → List Node
    | [] => []
    | n :: ns => n.comparisons ++ comparisonsList ns

/-- Does every `And` and every `Or` node of the expression have at least
`k` children. -/
def Node.groupsAtLeast (k : Nat) : Node → Bool
  | .undefined => true
  | .inherited _ => true
  | .obj _ => true
  | .cmp _ _ => true
  | .and l => decide (k ≤ l.length) && groupsAtLeastList k l
  | .or l => decide (k ≤ l.length) && groupsAtLeastList k l
where
  /-- The same for every expression of a list. -/
  groupsAtLeastList (k : Nat) : List Node → Bool
    | [] => true
    | n :: ns => n.groupsAtLeast k && groupsAtLeastList k ns

/-- Is the node a group (`And` or `Or`). -/
def Node.isGroup : Node → Bool
  | .and _ => true
  | .or _ => true
  | _ => false

/-- Specification side: the comparison the specification gives a term: the
row of its operator, on the field its alias resolves to. -/
def specTerm (fields : List Field) (t : Term) : Option Node :=
  match findAs t.al fields, operatorTable.find? (fun row => row.text.toList = t.op) with
  | some f, some row => some (specComparison f row t.value)
  | _, _ => none

/-- The comparisons the accumulators hold, oldest first. -/
def QState.comparisons (st : QState) : List Node :=
  Node.comparisons.comparisonsList st.orList ++
    Node.comparisons.comparisonsList (pushPendent [] st.pendent) ++
    Node.comparisons.comparisonsList st.andList

/-- Invariant of the grouped loop: `andList` and `pendent` hold no group, and
every group inside `orList` has at least one child. -/
def QState.GroupInv (st : QState) : Prop :=
  (∀ n ∈ st.andList, n.isGroup = false) ∧
  (∀ p, st.pendent = some p → p.isGroup = false) ∧
  (∀ n ∈ st.orList, n.groupsAtLeast 1 = true)

/-! ## The `order_by` branch of `dequerylize` (`dequerylize.js` 49-71)

The regular expression `/\(([^\)]+)\)/g` is created once, before the loop,
and it is global: `regex.exec` starts at `regex.lastIndex` and stores the end
of its match there (0 when it fails), and `text.replace(regex, '')` sets
`lastIndex` to 0 before it searches and leaves it at 0. The embedding carries
`lastIndex` through the loop. -/

/-- Embedding of `String.prototype.toUpperCase` on ASCII text, where it maps
the letters `a` to `z` to `A` to `Z` and nothing else. A character outside
ASCII is left as it is, which is not what the method does (`é` becomes `É`,
`ß` becomes `SS`): what is proved of the direction of a sort term is proved
for ASCII text. -/
def toUpperCase (s : Str) : Str := s.map Char.toUpper

/-- A match of `\(([^\)]+)\)` that starts at the head of `s`: the text of
group 1 and the length of the match. After `(` the class `[^\)]+` takes every
character up to the next `)`, at least one, and the `)` must follow. -/
def matchHead : Str → Option (Str × Nat)
  | [] => none
  | c :: cs =>
    if c = '(' then
      match cs.dropWhile (fun d => d ≠ ')') with
      | [] => none
      | _ :: _ =>
        if (cs.takeWhile (fun d => d ≠ ')')).isEmpty then none
        else some (cs.takeWhile (fun d => d ≠ ')'), (cs.takeWhile (fun d => d ≠ ')')).length + 2)
    else none

/-- The leftmost match in `s`: where it starts, the text of group 1 and its
length. -/
def searchMatch : Str → Option (Nat × Str × Nat)
  | [] => none
  | c :: cs =>
    match matchHead (c :: cs) with
    | some (cap, len) => some (0, cap, len)
    | none =>
      match searchMatch cs with
      | some (i, cap, len) => some (i + 1, cap, len)
      | none => none

/-- Embedding of `regex.exec(text)` with `regex.lastIndex = lastIndex`: group 1
of the match found (`none` for `null`) and the new `lastIndex`. -/
def regexExec (lastIndex : Nat) (text : Str) : Option Str × Nat :=
  if text.length < lastIndex then (none, 0)
  else
    match searchMatch (text.drop lastIndex) with
    | some (i, cap, len) => (some cap, lastIndex + i + len)
    | none => (none, 0)

/-- The text without its matches; `skip` characters of a match are still to be
dropped. -/
def removeMatches : Nat → Str → Str
  | _, [] => []
  | skip + 1, _ :: cs => removeMatches skip cs
  | 0, c :: cs =>
    match matchHead (c :: cs) with
    | some (_, len) => removeMatches (len - 1) cs
    | none => c :: removeMatches 0 cs

/-- Embedding of `text.replace(regex, '')`: the new text and the `lastIndex`
it leaves, which is 0. -/
def regexReplace (text : Str) : Str × Nat := (removeMatches 0 text, 0)

/-- The variables of the `order_by` loop: `out.order` (`none` when it is
`undefined`) and `regex.lastIndex`. -/
structure SortState where
  order : Option (List (Str × Str))
  lastIndex : Nat

/-- Lines 54-68: the body of the loop for the token `text`. -/
def sortStep (fieldmap : List Field) (st : SortState) (text : Str) : Except JsError SortState :=
  let found := regexExec st.lastIndex text
  let sentido : Str :=
    match found.1 with
    | some group => group
    | none => "asc".toList
  let replaced := regexReplace text
  let field := replaced.1
  let pushed : Except JsError (Option (List (Str × Str))) :=
    match findAs field fieldmap with
    | some modelField =>
      (match st.order with
       | some order => .ok (some (order ++ [(modelField.key, toUpperCase sentido)]))
       | none => .error .typeError)
    | none => .ok st.order
  match pushed with
  | .error e => .error e
  | .ok none => .error .typeError
  | .ok (some order) =>
    .ok { order := if order.length = 0 then none else some order, lastIndex := replaced.2 }

/-- Lines 53-69: the loop over the tokens. -/
def sortLoop (fieldmap : List Field) : List Str → SortState → Except JsError SortState
  | [], st => .ok st
  | text :: rest, st =>
    match sortStep fieldmap st text with
    | .error e => .error e
    | .ok st1 => sortLoop fieldmap rest st1

/-- Lines 50-70: the value of `out.order` for the parameter `order_by`. -/
def orderBy (expr : Str) (fieldmap : List Field) : Except JsError (Option (List (Str × Str))) :=
  match sortLoop fieldmap (splitOn ',' expr) ⟨some [], 0⟩ with
  | .error e => .error e
  | .ok st => .ok st.order

/-! ## `dequerylize` (`dequerylize.js` 20-87) and its caller -/

/-- The object `out` that `dequerylize` returns. `limit`, `offset` and `order`
are `none` when the property is `undefined`; `fields` is read when the call
returns. -/
structure DqOut where
  whereNode : Node
  expand : Bool
  basic : Bool
  fields : List OutNode
  limit : Option Value
  offset : Option Value
  order : Option (List (Str × Str))

/-- The outcome of a call of `dequerylize`: the returned object or the
exception, and the catalog as the call leaves it. -/
structure DqResult where
  out : Except JsError DqOut
  catalog : List Field

/-- The variables of the loop of `dequerylize`. `fields` is `none` while
`out.fields` is still the catalog `fieldmap` itself. -/
structure DState where
  cat : List Field
  expand : Bool
  fields : Option (List OutNode)
  limit : Option Value
  offset : Option Value
  order : Option (List (Str × Str))
  exclusive : Bool

/-- Embedding of `query[name]`: the value of the property, if there is one. -/
def getParam (name : Str) : List (Str × Str) → Option Str
  | [] => none
  | (k, v) :: rest => if k = name then some v else getParam name rest

/-- Lines 36-39 and 43-46: `parseInt(value, 10)`, and `undefined` when the
result is `NaN`. -/
def parseIntOrUndefined (value : Str) : Option Value :=
  match parseInt value with
  | .nan => none
  | n => some n

/-- Lines 28-81: the `switch` for one key of the query. An exception leaves
the catalog as the statements before it made it. -/
def dequerylizeStep (st : DState) (key value : Str) : Except JsError DState × List Field :=
  if key = "fields".toList then
    match (genFields value st.cat).out with
    | .error e => (.error e, (genFields value st.cat).catalog)
    | .ok r =>
      (.ok { st with
             cat := (genFields value st.cat).catalog
             fields := some r.fields
             expand := r.expand }, (genFields value st.cat).catalog)
  else if key = "limit".toList then
    (.ok { st with limit := parseIntOrUndefined value }, st.cat)
  else if key = "offset".toList then
    (.ok { st with offset := parseIntOrUndefined value }, st.cat)
  else if key = "order_by".toList then
    match orderBy value st.cat with
    | .error e => (.error e, st.cat)
    | .ok order => (.ok { st with order := order }, st.cat)
  else if key = "exclusive".toList then
    (.ok { st with exclusive := decide (value = "true".toList) }, st.cat)
  else (.ok st, st.cat)

/-- Lines 27-82: the loop over the keys of the query. -/
def dequerylizeLoop : List (Str × Str) → DState → Except JsError DState × List Field
  | [], st => (.ok st, st.cat)
  | (key, value) :: rest, st =>
    match dequerylizeStep st key value with
    | (.error e, cat) => (.error e, cat)
    | (.ok st1, _) => dequerylizeLoop rest st1

/-- Lines 21-26: the variables before the loop: `out.expand` is
`query.expand === 'true'`, `out.fields` is `fieldmap`, `exclusive` is false. -/
def dequerylizeInit (query : List (Str × Str)) (fieldmap : List Field) : DState :=
  { cat := fieldmap
    expand := decide (getParam "expand".toList query = some "true".toList)
    fields := none
    limit := none
    offset := none
    order := none
    exclusive := false }

/-- Embedding of `dequerylize(query, fieldmap)`. -/
def dequerylize (query : List (Str × Str)) (fieldmap : List Field) : DqResult :=
  match dequerylizeLoop query (dequerylizeInit query fieldmap) with
  | (.error e, cat) => ⟨.error e, cat⟩
  | (.ok st, cat) =>
    match genSequelizeQuery query cat st.exclusive with
    | .error e => ⟨.error e, cat⟩
    | .ok whereNode =>
      ⟨.ok { whereNode := whereNode
             expand := st.expand
             basic := decide (getParam "basic".toList query = some "true".toList)
             fields := (match st.fields with
                        | some fields => fields
                        | none => cat.map OutNode.field)
             limit := st.limit
             offset := st.offset
             order := st.order }, cat⟩

/-- What the `GET /` handler of `generateApi` works with (`lib/Model.js` 470):
`let { visiblefields, limit=25, offset=0, order, where={}, expand=false } =
dequerylize(req.query, fields)`. The object has no property `visiblefields`,
so that variable is `undefined`. -/
structure Plan where
  visiblefields : Option (List OutNode)
  limit : Value
  offset : Value
  order : Option (List (Str × Str))
  whereNode : Node
  expand : Bool

/-- The destructuring of line 470 of `lib/Model.js`, with its defaults. -/
def handlerPlan (out : DqOut) : Plan :=
  { visiblefields := none
    limit := out.limit.getD (.num 25)
    offset := out.offset.getD (.num 0)
    order := out.order
    whereNode := out.whereNode
    expand := out.expand }

/-- A catalog with a field whose alias is `expand`. -/
def expandable : List Field :=
  [leafField "expand_col" "expand" "boolean", leafField "name_col" "name" "string"]

/-! ## Nested projections and what the scan pushes -/

/-- What the scan of the child aliases `cs` of a nested list pushes onto
`objfield`, the children of the parent being `kids`: at a `,` the result of
the lookup, found or not (line 198), at the `)` the result only when it is
found (lines 218-220). -/
def nestedPushes (kids : List Field) : List Str → List (Option Field)
  | [] => []
  | [c] =>
    (match findAs c kids with
     | some f => [some f]
     | none => [])
  | c :: d :: rest => findAs c kids :: nestedPushes kids (d :: rest)

/-- The text `p(c1,...,cn)`. -/
def nestedExpr (p : Str) (cs : List Str) : Str := p ++ '(' :: (commaList cs ++ [')'])

/-! ## Sort tokens and what the specification says of them -/

/-- The spellings of a word in every mix of upper and lower case. -/
def caseVariants : Str → List Str
  | [] => [[]]
  | c :: cs =>
    (caseVariants cs).map (fun r => c.toLower :: r) ++
      (caseVariants cs).map (fun r => c.toUpper :: r)

/-- A token of an `order_by` list: `alias`, or `alias(d)`. -/
structure SortToken where
  al : Str
  dir : Option Str

/-- The text of a token. -/
def SortToken.text (t : SortToken) : Str :=
  match t.dir with
  | none => t.al
  | some d => t.al ++ '(' :: (d ++ [')'])

/-- Specification side: the direction of a token, in the upper case the
compiler emits: that of its own parenthesised part, `asc` when it has none. -/
def SortToken.direction (t : SortToken) : Str :=
  match t.dir with
  | none => "ASC".toList
  | some d => if d ∈ caseVariants "desc".toList then "DESC".toList else "ASC".toList

/-- The direction the loop gives the token `text` when `regex.lastIndex` is 0:
the upper-cased text of group 1, or `ASC` when there is no match. -/
def tokenDirection (text : Str) : Str :=
  toUpperCase
    (match (regexExec 0 text).1 with
     | some group => group
     | none => "asc".toList)

/-! ## Integer texts and what the specification says of them -/

/-- A text read as an integer: white space, an optional sign, a run of
decimal digits (empty when the text does not begin with an integer) and the
rest of the text. -/
structure IntText where
  ws : Str
  sign : Option Char
  digits : Str
  rest : Str

/-- The text itself. -/
def IntText.text (t : IntText) : Str := t.ws ++ (t.sign.toList ++ (t.digits ++ t.rest))

/-- The parts are what their names say: `ws` is white space, the sign is `+`
or `-`, `digits` are decimal digits, and `rest` does not go on with a digit
(nor, when there is neither sign nor digit, with white space or a sign). -/
def IntText.wellFormed (t : IntText) : Bool :=
  t.ws.all isStrWhiteSpace &&
  (t.sign == none || t.sign == some '+' || t.sign == some '-') &&
  t.digits.all Char.isDigit &&
  (match t.rest with
   | [] => true
   | c :: _ =>
     !c.isDigit &&
       (t.sign.isSome || !t.digits.isEmpty ||
         (!isStrWhiteSpace c && !(c == '-' || c == '+'))))

/-- Specification side: the integer the digits denote, with the sign. -/
def IntText.value (t : IntText) : Int :=
  if t.sign = some '-' then -(digitsVal t.digits : Int) else (digitsVal t.digits : Int)

/-! ## The catalog of connections (`services/catalog.js`)

The static member `connections` of the class is threaded through the
functions as a `Registry`. `uuid()` is a library call: the identifier it
returns is a parameter, `fresh`. -/

namespace Catalog

/-- A model class, of which the catalog reads `name` only; `ident` tells
two classes of the same name apart. -/
structure Model where
  name : Str
  ident : Nat
  deriving DecidableEq

/-- What the property `connection` of a stored record holds: `undefined`, a
Sequelize instance, or the object `registerModel` builds at lines 91-95
(`{id, connection, Models: {[modelName]: model}}`). -/
inductive Handle where
  | undefined
  | sequelize (ident : Nat)
  | built (id : Str) (connection : Option Nat) (models : List (Str × Model))
  deriving DecidableEq

/-- The record `setConnection` stores (lines 44-49). -/
structure Connection where
  id : Str
  connection : Handle
  Models : List (Str × Model)
  parameters : List (Str × Str)
  deriving DecidableEq

/-- The static state of the class: `connections`, `none` while it is
`undefined`, else the list of its own properties. -/
structure Registry where
  connections : Option (List (Str × Connection))
  deriving DecidableEq

/-- What `o[k]` gives on a plain object: an own property, a member
inherited from `Object.prototype`, or `undefined`. -/
inductive Lookup (α : Type) where
  | own (a : α)
  | inherited (name : Str)
  | undefined
  deriving DecidableEq

/-- Embedding of the read `o[k]`. -/
def getProp {α : Type} (o : List (Str × α)) (k : Str) : Lookup α :=
  match o.find? (fun p => p.1 = k) with
  | some p => .own p.2
  | none => if objectPrototypeNames.contains k then .inherited k else .undefined

/-- The value of an existing own property is replaced. -/
def replaceOwn {α : Type} (k : Str) (a : α) : List (Str × α) → List (Str × α)
  | [] => []
  | (k1, a1) :: ps => if k1 = k then (k1, a) :: ps else (k1, a1) :: replaceOwn k a ps

/-- Embedding of the write `o[k] = a`. An assignment to `__proto__` creates
no property (it replaces the prototype, which is not part of the
embedding); the order of enumeration is not observed by the catalog and
is creation order here. -/
def putProp {α : Type} (o : List (Str × α)) (k : Str) (a : α) : List (Str × α) :=
  if k = "__proto__".toList then o
  else if o.any (fun p => p.1 = k) then replaceOwn k a o
  else o ++ [(k, a)]

/-- Lines 18-23: `getConnection(id)`, which creates `connections` when it
is `undefined`. -/
def getConnection (reg : Registry) (id : Str) : Lookup Connection × Registry :=
  let cs := reg.connections.getD []
  (getProp cs id, ⟨some cs⟩)

/-- The first argument of `setConnection`: a string, or an object (the
connection itself, the id being left out). -/
inductive IdArg where
  | text (id : Str)
  | object (c : Handle)

/-- Lines 36-51: `setConnection(id, Connection)`; gives the id. -/
def setConnection (reg : Registry) (fresh : Str) (id : IdArg) (c : Handle) : Str × Registry :=
  let cs := reg.connections.getD []
  let key : Str := match id with
    | .text s => s
    | .object _ => fresh
  let conn : Handle := match id with
    | .text _ => c
    | .object h => h
  (key, ⟨some (putProp cs key ⟨key, conn, [], []⟩)⟩)

/-- Lines 61-64: `getModels(connectionid)` is `connection.Models`: the
object of the record, `undefined` (`none`) on a member inherited from
`Object.prototype`, and a `TypeError` when there is no connection. -/
def getModels (reg : Registry) (connectionid : Str) :
    Except JsError (Option (List (Str × Model))) × Registry :=
  let r := getConnection reg connectionid
  match r.1 with
  | .own c => (.ok (some c.Models), r.2)
  | .inherited _ => (.ok none, r.2)
  | .undefined => (.error .typeError, r.2)

/-- Lines 79-99: `registerModel({model, connection: {id, connection}})`, `id`
being `none` when the caller leaves it out. On a connection found among
the own properties the model is written into its `Models`; on a member
inherited from `Object.prototype` the write `Connection.Models[modelName]`
is on `undefined` and throws. -/
def registerModel (reg : Registry) (fresh : Str) (model : Model) (id : Option Str)
    (connection : Option Nat) : Except JsError Str × Registry :=
  if id.isSome && id != some [] then
    let s := id.getD []
    let r := getConnection reg s
    match r.1 with
    | .own c =>
      (.ok s, ⟨r.2.connections.map
        (replaceOwn s { c with Models := putProp c.Models model.name model })⟩)
    | .inherited _ => (.error .typeError, r.2)
    | .undefined => (.ok s, r.2)
  else
    let built := Handle.built fresh connection [(model.name, model)]
    (.ok fresh, (setConnection reg fresh (.text fresh) built).2)

/-- A registry with one connection `main` holding no model. -/
def oneConnection : Registry :=
  ⟨some [("main".toList, ⟨"main".toList, .sequelize 0, [], []⟩)]⟩

/-- A model class named `User`. -/
def userModel : Model := ⟨"User".toList, 1⟩

end Catalog

/-! ## Keys without a group tag and what the specification says of them -/

/-- A key that carries no group tag `and` / `or`, as the specification
writes it: the plain key `alias` (`tag` is `none`), or `alias(g,op)`. -/
structure FreeKey where
  al : Str
  tag : Option (Str × Str)

/-- The text of the key. -/
def FreeKey.key (u : FreeKey) : Str :=
  match u.tag with
  | none => u.al
  | some (g, op) => u.al ++ '(' :: (g ++ ',' :: (op ++ [')']))

/-- The alias and the tag are tokens of the syntax (the alias has no `(`,
the tag none of `,` `(` `)`) and the tag is outside `and`, `or`. -/
def FreeKey.wellFormed (u : FreeKey) : Bool :=
  !u.al.contains '(' &&
    match u.tag with
    | none => true
    | some (g, _) =>
      !g.contains ',' && !g.contains '(' && !g.contains ')' &&
        g != "and".toList && g != "or".toList

/-! # Theorems -/

/-! ## Parameter keys -/

theorem splitOn_append (sep : Char) (a r : Str) (h : sep ∉ a) :
    splitOn sep (a ++ sep :: r) = a :: splitOn sep r := by
  induction a with
  | nil => simp [splitOn]
  | cons c a ih =>
    have hc : c ≠ sep := fun e => h (by simp [e])
    have ha : sep ∉ a := fun e => h (by simp [e])
    simp [splitOn, hc, ih ha]

theorem deconstruct_append (al rest : Str) (h : '(' ∉ al) :
    deconstruct (al ++ '(' :: rest) = { deconstruct ('(' :: rest) with column := al } := by
  unfold deconstruct
  rw [splitOn_append _ _ _ h]
  have h0 : splitOn '(' ('(' :: rest) = [] :: splitOn '(' rest := by simp [splitOn]
  rw [h0]
  cases splitOn '(' rest with
  | nil => rfl
  | cons b bs =>
    simp only
    split
    · rfl
    · cases splitOn ',' (removeFirst ')' b) <;> rfl

theorem deconstruct_key (t : Term) (h : '(' ∉ t.al) (hop : t.op ∈ validOps) :
    deconstruct t.key = ⟨t.al, some t.tag, some t.op⟩ := by
  unfold Term.key
  rw [deconstruct_append _ _ h]
  obtain ⟨al, isOr, op, value⟩ := t
  simp only [validOps, List.map, List.mem_cons, List.mem_singleton, List.not_mem_nil,
    or_false] at hop
  cases isOr <;> rcases hop with h | h | h | h | h | h | h | h | h | h | h | h <;>
    subst h <;> rfl

theorem banned_no_paren (k : Str) (h : banned.contains k = true) : '(' ∉ k := by
  have h1 : k ∈ banned := by simpa using h
  simp only [banned, List.map, List.mem_cons, List.mem_singleton, List.not_mem_nil,
    or_false] at h1
  rcases h1 with h1 | h1 | h1 | h1 | h1 <;> subst h1 <;> decide

theorem key_has_paren (t : Term) : '(' ∈ t.key := by
  simp [Term.key]

theorem key_not_banned (t : Term) : banned.contains t.key = false := by
  cases h : banned.contains t.key with
  | false => rfl
  | true => exact absurd (key_has_paren t) (banned_no_paren _ h)

theorem columns_of_terms (terms : List Term) :
    columnsOf (terms.map Term.param) = terms.map Term.param := by
  unfold columnsOf
  rw [List.filter_eq_self]
  intro p hp
  obtain ⟨t, _, rfl⟩ := List.mem_map.1 hp
  have := key_not_banned t
  simpa [Term.param] using this

theorem powerMode_of_terms (terms : List Term) (h : terms ≠ []) :
    powerMode (terms.map Term.param) = true := by
  unfold powerMode
  rw [columns_of_terms]
  cases terms with
  | nil => exact absurd rfl h
  | cons t ts =>
    have := key_has_paren t
    simp [Term.param, this]

/-! ## The operator table -/

theorem coerce_plain (raw dataType : Str) (hn : numerics.contains dataType = false)
    (hm : momentables.contains dataType = false) :
    coerce raw dataType = .ok (literalValue raw) := by
  unfold coerce
  rw [hn, hm]
  cases literalValue raw <;> rfl

theorem literalValue_spec (raw : Str) : literalValue raw = specValue raw := by
  unfold literalValue specValue
  by_cases h1 : raw = "true".toList
  · subst h1; rfl
  · by_cases h2 : raw = "false".toList
    · subst h2; rfl
    · by_cases h3 : raw = "null".toList
      · subst h3; rfl
      · rw [if_neg h1, if_neg h2, if_neg h3, if_neg h3, if_neg h1, if_neg h2]

theorem plain_lists (f : Field) (h : f.plain = true) :
    numerics.contains f.dataType = false ∧ momentables.contains f.dataType = false := by
  have hb : ∀ a b : Bool, (!a && !b) = true → a = false ∧ b = false := by decide
  exact hb _ _ h

theorem plainAs_some (al : Str) (fields : List Field) (h : plainAs al fields = true) :
    ∃ f, findAs al fields = some f ∧ f.plain = true := by
  unfold plainAs at h
  cases hf : findAs al fields with
  | none => rw [hf] at h; cases h
  | some f => rw [hf] at h; exact ⟨f, rfl, h⟩

theorem plainAs_isSome (al : Str) (fields : List Field) (h : plainAs al fields = true) :
    (findAs al fields).isSome = true := by
  obtain ⟨f, hf, _⟩ := plainAs_some al fields h
  rw [hf]; rfl

/-- On a field that is not numeric the literal of `opMap` is built, with the
six patterns on the value itself. -/
theorem patternCond_plain (dataType : Str) (o : Op) (pre : Str) (v : Value) (post : Str)
    (hn : numerics.contains dataType = false) :
    patternCond dataType o pre v post = .ok (.op o (.tmpl pre v post)) := by
  unfold patternCond
  rw [hn]
  rfl

theorem patternCond_numeric (dataType : Str) (o : Op) (pre : Str) (v : Value) (post : Str)
    (hn : numerics.contains dataType = true) :
    patternCond dataType o pre v post = .error .referenceError := by
  unfold patternCond
  rw [hn]
  rfl

theorem opMap_plain (key dataType : Str) (v : Value) (op : Option Str)
    (hn : numerics.contains dataType = false) :
    opMap key dataType v op = .ok (opEntry key v
      (.op .like (.tmpl "%".toList v "%".toList))
      (.op .notLike (.tmpl "%".toList v "%".toList))
      (.op .like (.tmpl [] v "%".toList))
      (.op .notLike (.tmpl [] v "%".toList))
      (.op .like (.tmpl "%".toList v []))
      (.op .notLike (.tmpl "%".toList v [])) op) := by
  unfold opMap
  simp only [patternCond_plain _ _ _ _ _ hn]

/-- On a numeric field the literal of `opMap` is not built: the entry
`contains` evaluates `Sequelize`. -/
theorem opMap_numeric (key dataType : Str) (v : Value) (op : Option Str)
    (hn : numerics.contains dataType = true) :
    opMap key dataType v op = .error .referenceError := by
  unfold opMap
  simp only [patternCond_numeric _ _ _ _ _ hn]

theorem opMap_ok_entry (key dataType : Str) (v : Value) (op : Option Str) (n : Node)
    (h : opMap key dataType v op = .ok n) :
    numerics.contains dataType = false ∧ ∃ c0 c1 c2 c3 c4 c5, n = opEntry key v c0 c1 c2 c3 c4 c5 op := by
  cases hn : numerics.contains dataType with
  | true =>
    rw [opMap_numeric _ _ _ _ hn] at h
    cases h
  | false =>
    rw [opMap_plain _ _ _ _ hn] at h
    cases h
    exact ⟨rfl, _, _, _, _, _, _, rfl⟩

/-- A step of the loop in grouped mode that returns: the alias resolves, the
value is coerced, the literal of `opMap` is built and the accumulators take
the entry of the operator. -/
theorem queryStep_power_ok (fields : List Field) (st st1 : QState) (column value : Str)
    (h : queryStep fields true st column value = .ok st1) :
    ∃ f v entry, findAs (deconstruct column).column fields = some f ∧
      coerce value f.dataType = .ok v ∧
      opMap f.key f.dataType v (deconstruct column).op = .ok entry ∧
      st1 = groupStep st (deconstruct column).condition entry := by
  unfold queryStep at h
  simp only at h
  cases hf : findAs (deconstruct column).column fields with
  | none => rw [hf] at h; cases h
  | some f =>
    rw [hf] at h
    simp only at h
    cases hc : coerce value f.dataType with
    | error e => rw [hc] at h; cases h
    | ok v =>
      rw [hc] at h
      simp only [if_true] at h
      cases ho : opMap f.key f.dataType v (deconstruct column).op with
      | error e => rw [ho] at h; cases h
      | ok entry =>
        rw [ho] at h
        cases h
        exact ⟨f, v, entry, rfl, hc, ho, rfl⟩

/-- A step of the loop in simple mode that returns: the alias resolves, the
value is coerced and written into `where`. -/
theorem queryStep_simple_ok (fields : List Field) (st st1 : QState) (column value : Str)
    (h : queryStep fields false st column value = .ok st1) :
    ∃ f v, findAs (deconstruct column).column fields = some f ∧
      coerce value f.dataType = .ok v ∧
      st1 = { st with whereObj := setProp st.whereObj f.key v } := by
  unfold queryStep at h
  simp only at h
  cases hf : findAs (deconstruct column).column fields with
  | none => rw [hf] at h; cases h
  | some f =>
    rw [hf] at h
    simp only at h
    cases hc : coerce value f.dataType with
    | error e => rw [hc] at h; cases h
    | ok v =>
      rw [hc] at h
      cases h
      exact ⟨f, v, rfl, hc, rfl⟩

theorem opMap_table (f : Field) (row : OpRow) (raw : Str) (h : row ∈ operatorTable)
    (hp : f.plain = true) :
    coerce raw f.dataType = .ok (specValue raw) ∧
    opMap f.key f.dataType (specValue raw) (some row.text.toList)
      = .ok (specComparison f row raw) := by
  obtain ⟨hn, hm⟩ := plain_lists f hp
  refine ⟨by rw [coerce_plain raw _ hn hm, literalValue_spec], ?_⟩
  rw [opMap_plain _ _ _ _ hn]
  simp only [operatorTable, List.mem_cons, List.mem_singleton, List.not_mem_nil,
    or_false] at h
  rcases h with h | h | h | h | h | h | h | h | h | h | h | h <;> subst h <;> rfl

theorem validOps_row (op : Str) (h : op ∈ validOps) :
    ∃ row ∈ operatorTable, row.text.toList = op := by
  simp only [validOps, List.map, List.mem_cons, List.mem_singleton, List.not_mem_nil,
    or_false] at h
  rcases h with h | h | h | h | h | h | h | h | h | h | h | h <;> subst h
  · exact ⟨⟨"eq", .eq, none⟩, by simp [operatorTable], rfl⟩
  · exact ⟨⟨"<", .lt, none⟩, by simp [operatorTable], rfl⟩
  · exact ⟨⟨">", .gt, none⟩, by simp [operatorTable], rfl⟩
  · exact ⟨⟨"<eq", .lte, none⟩, by simp [operatorTable], rfl⟩
  · exact ⟨⟨">eq", .gte, none⟩, by simp [operatorTable], rfl⟩
  · exact ⟨⟨"<>", .ne, none⟩, by simp [operatorTable], rfl⟩
  · exact ⟨⟨"contains", .like, some ("%", "%")⟩, by simp [operatorTable], rfl⟩
  · exact ⟨⟨"!contains", .notLike, some ("%", "%")⟩, by simp [operatorTable], rfl⟩
  · exact ⟨⟨"startsWith", .like, some ("", "%")⟩, by simp [operatorTable], rfl⟩
  · exact ⟨⟨"!startsWith", .notLike, some ("", "%")⟩, by simp [operatorTable], rfl⟩
  · exact ⟨⟨"endWith", .like, some ("%", "")⟩, by simp [operatorTable], rfl⟩
  · exact ⟨⟨"!endWith", .notLike, some ("%", "")⟩, by simp [operatorTable], rfl⟩

theorem specComparison_cmp (f : Field) (row : OpRow) (raw : Str) :
    ∃ c, specComparison f row raw = .cmp f.key c := by
  unfold specComparison
  rcases row with ⟨text, op, _ | ⟨pre, post⟩⟩
  · exact ⟨_, rfl⟩
  · exact ⟨_, rfl⟩

theorem comparison_spec (fields : List Field) (t : Term) (f : Field) (row : OpRow)
    (hf : findAs t.al fields = some f) (hp : f.plain = true)
    (hrow : row ∈ operatorTable) (htext : row.text.toList = t.op) :
    comparison fields t = specComparison f row t.value := by
  obtain ⟨h1, h2⟩ := opMap_table f row t.value hrow hp
  rw [htext] at h2
  unfold comparison
  rw [hf]
  simp only [h1, h2]

theorem comparison_cmp (fields : List Field) (t : Term) (f : Field)
    (hf : findAs t.al fields = some f) (hp : f.plain = true) (hop : t.op ∈ validOps) :
    ∃ c, comparison fields t = .cmp f.key c := by
  obtain ⟨row, hrow, htext⟩ := validOps_row t.op hop
  obtain ⟨c, hc⟩ := specComparison_cmp f row t.value
  exact ⟨c, by rw [comparison_spec fields t f row hf hp hrow htext, hc]⟩

theorem comparison_truthy (fields : List Field) (t : Term)
    (hf : plainAs t.al fields = true) (hop : t.op ∈ validOps) :
    (comparison fields t).truthy = true := by
  obtain ⟨f, hf, hp⟩ := plainAs_some _ _ hf
  obtain ⟨c, hc⟩ := comparison_cmp fields t f hf hp hop
  rw [hc]; rfl

/-! ## The loop on grouped terms -/

theorem queryStep_term (fields : List Field) (st : QState) (t : Term)
    (h : '(' ∉ t.al) (hop : t.op ∈ validOps) (hf : plainAs t.al fields = true) :
    queryStep fields true st t.key t.value
      = .ok (groupStep st (some t.tag) (comparison fields t)) := by
  obtain ⟨f, hf, hp⟩ := plainAs_some _ _ hf
  obtain ⟨hn, hm⟩ := plain_lists f hp
  unfold queryStep comparison
  rw [deconstruct_key t h hop]
  simp only [hf, coerce_plain _ _ hn hm, opMap_plain _ _ _ _ hn, if_true]

theorem queryLoop_terms (fields : List Field) (terms : List Term)
    (hvalid : ∀ t ∈ terms, '(' ∉ t.al ∧ t.op ∈ validOps ∧ plainAs t.al fields = true) :
    ∀ st, queryLoop fields true (terms.map Term.param) st
      = .ok (terms.foldl (fun s t => groupStep s (some t.tag) (comparison fields t)) st) := by
  induction terms with
  | nil => intro st; rfl
  | cons t ts ih =>
    intro st
    obtain ⟨h1, h2, h3⟩ := hvalid t (by simp)
    simp only [List.map, Term.param, queryLoop, List.foldl]
    rw [queryStep_term fields st t h1 h2 h3]
    exact ih (fun u hu => hvalid u (by simp [hu])) _

theorem groupStep_and (st : QState) (t : Term) (e : Node) (h : t.isOr = false) :
    groupStep st (some t.tag) e
      = { st with pendent := none, andList := pushPendent st.andList st.pendent ++ [e] } := by
  simp [groupStep, Term.tag, h]

theorem groupStep_or (st : QState) (t : Term) (e : Node) (h : t.isOr = true)
    (he : e.truthy = true) :
    groupStep st (some t.tag) e
      = { st with
          pendent := some e
          orList := (flushAnd (pushPendent st.orList st.pendent) st.andList).1
          andList := (flushAnd (pushPendent st.orList st.pendent) st.andList).2 } := by
  have hne : "or".toList ≠ "and".toList := by decide
  simp [groupStep, Term.tag, h, he, hne]

theorem flushAnd_nil (o : List Node) : flushAnd o [] = (o, []) := rfl

theorem flushAnd_one (o : List Node) (x : Node) : flushAnd o [x] = (o ++ [x], []) := rfl

theorem flushAnd_many (o : List Node) (x y : Node) (l : List Node) :
    flushAnd o (x :: y :: l) = (o ++ [.and (x :: y :: l)], []) := by
  simp [flushAnd]

theorem flushAnd_block (fields : List Field) (o : List Node) (cur : List Term) :
    flushAnd o (cur.map (comparison fields))
      = (if cur.isEmpty then o else o ++ [blockNode fields cur], []) := by
  match cur with
  | [] => rfl
  | [x] => rfl
  | x :: y :: l => simp [flushAnd_many, blockNode]

/-- The state of the loop against the block being read: either the block is a
lone or-tagged term held in `pendent`, or it is held in `andList`. -/
theorem groupFinish_fold (fields : List Field) (rest : List Term) :
    ∀ (st : QState) (cur : List Term),
    (∀ t ∈ rest, (comparison fields t).truthy = true) →
    ((∃ t, cur = [t] ∧ t.isOr = true ∧ st.pendent = some (comparison fields t) ∧
        st.andList = []) ∨
      (st.pendent = none ∧ st.andList = cur.map (comparison fields) ∧
        ∀ t, cur = [t] → t.isOr = false)) →
    ((∃ t, cur.head? = some t ∧ t.isOr = true) ∨ ∃ t ∈ rest, t.isOr = true) →
    groupFinish (rest.foldl (fun s t => groupStep s (some t.tag) (comparison fields t)) st)
      = .or (st.orList ++ (blocksFrom cur rest).map (blockNode fields)) := by
  induction rest with
  | nil =>
    intro st cur _ hcorr hgood
    obtain ⟨h, hh, hor⟩ : ∃ t, cur.head? = some t ∧ t.isOr = true := by
      rcases hgood with h | ⟨t, ht, _⟩
      · exact h
      · simp at ht
    rcases hcorr with ⟨t, rfl, _, hp, ha⟩ | ⟨hp, ha, hsingle⟩
    · simp [groupFinish, hp, ha, blocksFrom, blockNode]
    · match cur, hh, hsingle, ha with
      | [x], hh, hsingle, _ =>
        simp at hh
        subst hh
        have := hsingle x rfl
        simp [hor] at this
      | x :: y :: l, _, _, ha =>
        simp [groupFinish, hp, ha, blocksFrom, blockNode]
  | cons t ts ih =>
    intro st cur htruthy hcorr hgood
    have htr : (comparison fields t).truthy = true := htruthy t (by simp)
    have htruthy1 : ∀ u ∈ ts, (comparison fields u).truthy = true :=
      fun u hu => htruthy u (by simp [hu])
    simp only [List.foldl]
    cases hor : t.isOr with
    | true =>
      rw [groupStep_or st t _ hor htr]
      rcases hcorr with ⟨u, rfl, _, hp, ha⟩ | ⟨hp, ha, _⟩
      · rw [ih _ [t] htruthy1 (Or.inl ⟨t, rfl, hor, rfl, by simp [hp, ha, pushPendent, flushAnd_nil]⟩)
          (Or.inl ⟨t, rfl, hor⟩)]
        simp [hp, ha, pushPendent, flushAnd_nil, blocksFrom, hor, blockNode]
      · rw [ih _ [t] htruthy1
          (Or.inl ⟨t, rfl, hor, rfl, by simp [hp, ha, pushPendent, flushAnd_block]⟩)
          (Or.inl ⟨t, rfl, hor⟩)]
        simp only [hp, ha, pushPendent, flushAnd_block, blocksFrom, hor, if_true]
        cases cur <;> simp
    | false =>
      rw [groupStep_and st t _ hor]
      have hgood1 : ∀ c : List Term,
          ((∃ u, cur.head? = some u ∧ u.isOr = true) → ∃ u, c.head? = some u ∧ u.isOr = true) →
          ((∃ u, c.head? = some u ∧ u.isOr = true) ∨ ∃ u ∈ ts, u.isOr = true) := by
        intro c hc
        rcases hgood with h | ⟨u, hu, huor⟩
        · exact Or.inl (hc h)
        · rcases List.mem_cons.1 hu with rfl | hu
          · simp [hor] at huor
          · exact Or.inr ⟨u, hu, huor⟩
      rcases hcorr with ⟨u, rfl, huor, hp, ha⟩ | ⟨hp, ha, hsingle⟩
      · rw [ih _ [u, t] htruthy1 (Or.inr ⟨rfl, by simp [hp, ha, pushPendent], by simp⟩)
          (Or.inl ⟨u, rfl, huor⟩)]
        simp [blocksFrom, hor]
      · rw [ih _ (cur ++ [t]) htruthy1
          (Or.inr ⟨rfl, by simp [hp, ha, pushPendent], by
            intro v hv
            cases cur with
            | nil => simp at hv; subst hv; exact hor
            | cons a as =>
              have := congrArg List.length hv
              simp at this⟩)
          (hgood1 _ (by
            rintro ⟨v, hv, hvor⟩
            cases cur with
            | nil => simp at hv
            | cons a as => exact ⟨v, by simpa using hv, hvor⟩))]
        simp [blocksFrom, hor]

theorem genSequelizeQuery_terms (fields : List Field) (terms : List Term) (exclusive : Bool)
    (hvalid : ∀ t ∈ terms, '(' ∉ t.al ∧ t.op ∈ validOps ∧ plainAs t.al fields = true)
    (hne : terms ≠ []) :
    genSequelizeQuery (terms.map Term.param) fields exclusive
      = .ok (groupFinish (terms.foldl
          (fun s t => groupStep s (some t.tag) (comparison fields t)) QState.init)) := by
  unfold genSequelizeQuery
  rw [powerMode_of_terms terms hne, columns_of_terms, queryLoop_terms fields terms hvalid]
  simp

theorem genSequelizeQuery_blocks (fields : List Field) (terms : List Term) (exclusive : Bool)
    (hvalid : ∀ t ∈ terms, '(' ∉ t.al ∧ t.op ∈ validOps ∧ plainAs t.al fields = true)
    (hor : ∃ t ∈ terms, t.isOr = true) :
    genSequelizeQuery (terms.map Term.param) fields exclusive
      = .ok (.or ((splitBlocks terms).map (blockNode fields))) := by
  have hne : terms ≠ [] := by
    rintro rfl
    obtain ⟨t, ht, _⟩ := hor
    simp at ht
  rw [genSequelizeQuery_terms fields terms exclusive hvalid hne,
    groupFinish_fold fields terms QState.init []
      (fun t ht => comparison_truthy fields t (hvalid t ht).2.2 (hvalid t ht).2.1)
      (Or.inr ⟨rfl, rfl, by simp⟩) (Or.inr hor)]
  simp [QState.init, splitBlocks]

theorem fold_and_terms (fields : List Field) (terms : List Term)
    (hand : ∀ t ∈ terms, t.isOr = false) :
    ∀ st : QState, st.pendent = none →
    terms.foldl (fun s t => groupStep s (some t.tag) (comparison fields t)) st
      = { st with andList := st.andList ++ terms.map (comparison fields) } := by
  induction terms with
  | nil => intro st _; simp
  | cons t ts ih =>
    intro st hp
    simp only [List.foldl]
    rw [groupStep_and st t _ (hand t (by simp)), ih (fun u hu => hand u (by simp [hu])) _ rfl]
    simp [hp, pushPendent]

theorem genSequelizeQuery_all_and (fields : List Field) (terms : List Term) (exclusive : Bool)
    (hvalid : ∀ t ∈ terms, '(' ∉ t.al ∧ t.op ∈ validOps ∧ plainAs t.al fields = true)
    (hand : ∀ t ∈ terms, t.isOr = false) (hne : terms ≠ []) :
    genSequelizeQuery (terms.map Term.param) fields exclusive
      = .ok (.or [.and (terms.map (comparison fields))]) := by
  rw [genSequelizeQuery_terms fields terms exclusive hvalid hne,
    fold_and_terms fields terms hand QState.init rfl]
  cases terms with
  | nil => exact absurd rfl hne
  | cons t ts => simp [groupFinish, QState.init]

/-! ## The comparisons of the result -/

theorem comparisonsList_append (a b : List Node) :
    Node.comparisons.comparisonsList (a ++ b)
      = Node.comparisons.comparisonsList a ++ Node.comparisons.comparisonsList b := by
  induction a with
  | nil => simp [Node.comparisons.comparisonsList]
  | cons x a ih => simp [Node.comparisons.comparisonsList, ih]

theorem flushAnd_comparisons (o a : List Node) :
    Node.comparisons.comparisonsList (flushAnd o a).1
        = Node.comparisons.comparisonsList o ++ Node.comparisons.comparisonsList a ∧
      (flushAnd o a).2 = [] := by
  match a with
  | [] => simp [flushAnd_nil, Node.comparisons.comparisonsList]
  | [x] => simp [flushAnd_one, comparisonsList_append]
  | x :: y :: l =>
    simp [flushAnd_many, comparisonsList_append, Node.comparisons.comparisonsList,
      Node.comparisons]

theorem fold_comparisons (fields : List Field) (terms : List Term)
    (hcmp : ∀ t ∈ terms, ∃ k c, comparison fields t = .cmp k c) :
    ∀ st : QState, (st.pendent = none ∨ st.andList = []) →
    ((terms.foldl (fun s t => groupStep s (some t.tag) (comparison fields t)) st).pendent = none ∨
      (terms.foldl (fun s t => groupStep s (some t.tag) (comparison fields t)) st).andList = []) ∧
    (terms.foldl (fun s t => groupStep s (some t.tag) (comparison fields t)) st).comparisons
      = st.comparisons ++ terms.map (comparison fields) := by
  induction terms with
  | nil => intro st h; simpa using h
  | cons t ts ih =>
    intro st hst
    obtain ⟨k, c, hc⟩ := hcmp t (by simp)
    have htr : (comparison fields t).truthy = true := by rw [hc]; rfl
    have ih1 := ih (fun u hu => hcmp u (by simp [hu]))
    simp only [List.foldl, List.map]
    cases hor : t.isOr with
    | false =>
      rw [groupStep_and st t _ hor]
      obtain ⟨h1, h2⟩ := ih1
        { st with pendent := none
                  andList := pushPendent st.andList st.pendent ++ [comparison fields t] }
        (Or.inl rfl)
      refine ⟨h1, ?_⟩
      rw [h2, hc]
      rcases hst with hp | ha
      · simp [QState.comparisons, hp, pushPendent, comparisonsList_append,
          Node.comparisons.comparisonsList, Node.comparisons]
      · cases hp : st.pendent <;>
          simp [QState.comparisons, hp, ha, pushPendent, comparisonsList_append,
            Node.comparisons.comparisonsList, Node.comparisons]
    | true =>
      rw [groupStep_or st t _ hor htr]
      obtain ⟨hf1, hf2⟩ := flushAnd_comparisons (pushPendent st.orList st.pendent) st.andList
      obtain ⟨h1, h2⟩ := ih1
        { st with
          pendent := some (comparison fields t)
          orList := (flushAnd (pushPendent st.orList st.pendent) st.andList).1
          andList := (flushAnd (pushPendent st.orList st.pendent) st.andList).2 }
        (Or.inr hf2)
      refine ⟨h1, ?_⟩
      rw [h2, hc]
      simp only [QState.comparisons, hf1, hf2]
      cases hp : st.pendent <;>
        simp [pushPendent, comparisonsList_append,
          Node.comparisons.comparisonsList, Node.comparisons]

theorem groupFinish_comparisons (st : QState) (h : st.pendent = none ∨ st.andList = []) :
    (groupFinish st).comparisons = st.comparisons := by
  obtain ⟨w, p, o, a⟩ := st
  simp only at h
  rcases h with rfl | rfl
  · match a with
    | [] =>
      cases o <;>
        simp [groupFinish, QState.comparisons, pushPendent, Node.comparisons,
          Node.comparisons.comparisonsList]
    | x :: l =>
      simp [groupFinish, QState.comparisons, pushPendent, Node.comparisons,
        Node.comparisons.comparisonsList, comparisonsList_append]
  · cases p with
    | none =>
      cases o <;>
        simp [groupFinish, QState.comparisons, pushPendent, Node.comparisons,
          Node.comparisons.comparisonsList]
    | some q =>
      simp [groupFinish, QState.comparisons, pushPendent, Node.comparisons,
        Node.comparisons.comparisonsList, comparisonsList_append]

theorem operatorTable_find (op : Str) (h : op ∈ validOps) :
    ∃ row, operatorTable.find? (fun r => r.text.toList = op) = some row ∧
      row ∈ operatorTable ∧ row.text.toList = op := by
  simp only [validOps, List.map, List.mem_cons, List.mem_singleton, List.not_mem_nil,
    or_false] at h
  rcases h with h | h | h | h | h | h | h | h | h | h | h | h <;> subst h
  · exact ⟨⟨"eq", .eq, none⟩, rfl, by simp [operatorTable], rfl⟩
  · exact ⟨⟨"<", .lt, none⟩, rfl, by simp [operatorTable], rfl⟩
  · exact ⟨⟨">", .gt, none⟩, rfl, by simp [operatorTable], rfl⟩
  · exact ⟨⟨"<eq", .lte, none⟩, rfl, by simp [operatorTable], rfl⟩
  · exact ⟨⟨">eq", .gte, none⟩, rfl, by simp [operatorTable], rfl⟩
  · exact ⟨⟨"<>", .ne, none⟩, rfl, by simp [operatorTable], rfl⟩
  · exact ⟨⟨"contains", .like, some ("%", "%")⟩, rfl, by simp [operatorTable], rfl⟩
  · exact ⟨⟨"!contains", .notLike, some ("%", "%")⟩, rfl, by simp [operatorTable], rfl⟩
  · exact ⟨⟨"startsWith", .like, some ("", "%")⟩, rfl, by simp [operatorTable], rfl⟩
  · exact ⟨⟨"!startsWith", .notLike, some ("", "%")⟩, rfl, by simp [operatorTable], rfl⟩
  · exact ⟨⟨"endWith", .like, some ("%", "")⟩, rfl, by simp [operatorTable], rfl⟩
  · exact ⟨⟨"!endWith", .notLike, some ("%", "")⟩, rfl, by simp [operatorTable], rfl⟩

theorem specTerm_eq (fields : List Field) (t : Term)
    (hf : plainAs t.al fields = true) (hop : t.op ∈ validOps) :
    specTerm fields t = some (comparison fields t) := by
  obtain ⟨f, hf, hp⟩ := plainAs_some _ _ hf
  obtain ⟨row, hfind, hrow, htext⟩ := operatorTable_find t.op hop
  rw [comparison_spec fields t f row hf hp hrow htext]
  simp only [specTerm, hf, hfind]

/-! ## Group nodes of the result -/

theorem ite_isGroup {c : Prop} [Decidable c] {a b : Node} (ha : a.isGroup = false)
    (hb : b.isGroup = false) : (if c then a else b).isGroup = false := by
  split <;> assumption

theorem opEntry_not_group (key : Str) (v : Value) (c0 c1 c2 c3 c4 c5 : Cond)
    (op : Option Str) : (opEntry key v c0 c1 c2 c3 c4 c5 op).isGroup = false := by
  cases op with
  | none => rfl
  | some o =>
    simp only [opEntry]
    repeat (first | rfl | apply ite_isGroup)

theorem opMap_not_group (key dt : Str) (v : Value) (op : Option Str) (n : Node)
    (h : opMap key dt v op = .ok n) : n.isGroup = false := by
  obtain ⟨_, c0, c1, c2, c3, c4, c5, rfl⟩ := opMap_ok_entry _ _ _ _ _ h
  exact opEntry_not_group _ _ _ _ _ _ _ _ _

theorem groupsAtLeast_of_not_group (k : Nat) (n : Node) (h : n.isGroup = false) :
    n.groupsAtLeast k = true := by
  cases n <;> simp [Node.isGroup, Node.groupsAtLeast] at *

theorem groupsAtLeastList_iff (k : Nat) (l : List Node) :
    Node.groupsAtLeast.groupsAtLeastList k l = true ↔ ∀ n ∈ l, n.groupsAtLeast k = true := by
  induction l with
  | nil => simp [Node.groupsAtLeast.groupsAtLeastList]
  | cons x l ih => simp [Node.groupsAtLeast.groupsAtLeastList, ih]

theorem and_groupsAtLeast (l : List Node) (hl : 1 ≤ l.length)
    (h : ∀ n ∈ l, n.isGroup = false) : (Node.and l).groupsAtLeast 1 = true := by
  simp only [Node.groupsAtLeast, Bool.and_eq_true, decide_eq_true_eq]
  exact ⟨hl, (groupsAtLeastList_iff 1 l).2 (fun n hn => groupsAtLeast_of_not_group 1 n (h n hn))⟩

theorem flushAnd_inv (o a : List Node) (ho : ∀ n ∈ o, n.groupsAtLeast 1 = true)
    (ha : ∀ n ∈ a, n.isGroup = false) :
    (∀ n ∈ (flushAnd o a).1, n.groupsAtLeast 1 = true) ∧ (flushAnd o a).2 = [] := by
  match a, ha with
  | [], _ => exact ⟨by simpa [flushAnd_nil] using ho, rfl⟩
  | [x], ha =>
    refine ⟨?_, rfl⟩
    intro n hn
    rw [flushAnd_one] at hn
    rcases List.mem_append.1 hn with hn | hn
    · exact ho n hn
    · simp at hn; subst hn
      exact groupsAtLeast_of_not_group 1 _ (ha _ (by simp))
  | x :: y :: l, ha =>
    refine ⟨?_, by simp [flushAnd_many]⟩
    intro n hn
    rw [flushAnd_many] at hn
    rcases List.mem_append.1 hn with hn | hn
    · exact ho n hn
    · simp only [List.mem_singleton] at hn; subst hn
      exact and_groupsAtLeast _ (by simp) ha

theorem pushPendent_mem (l : List Node) (p : Option Node) (n : Node)
    (h : n ∈ pushPendent l p) : n ∈ l ∨ p = some n := by
  cases p with
  | none => exact Or.inl h
  | some q =>
    rcases List.mem_append.1 h with h | h
    · exact Or.inl h
    · simp at h; subst h; exact Or.inr rfl

theorem groupStep_inv (st : QState) (cond : Option Str) (e : Node) (h : st.GroupInv)
    (he : e.isGroup = false) : (groupStep st cond e).GroupInv := by
  obtain ⟨ha, hp, ho⟩ := h
  by_cases h1 : cond = some "and".toList
  · have hs : groupStep st cond e
        = { st with pendent := none, andList := pushPendent st.andList st.pendent ++ [e] } := by
      simp [groupStep, h1]
    rw [hs]
    refine ⟨?_, by simp, ho⟩
    intro n hn
    rcases List.mem_append.1 hn with hn | hn
    · rcases pushPendent_mem _ _ _ hn with hn | hn
      · exact ha n hn
      · exact hp n hn
    · simp at hn; subst hn; exact he
  · by_cases h2 : cond = some "or".toList
    · have hs : groupStep st cond e
          = { st with
              pendent := if e.truthy then some e else none
              orList := (flushAnd (pushPendent st.orList st.pendent) st.andList).1
              andList := (flushAnd (pushPendent st.orList st.pendent) st.andList).2 } := by
        simp [groupStep, h1, h2]
      rw [hs]
      have hpo : ∀ n ∈ pushPendent st.orList st.pendent, n.groupsAtLeast 1 = true := by
        intro n hn
        rcases pushPendent_mem _ _ _ hn with hn | hn
        · exact ho n hn
        · exact groupsAtLeast_of_not_group 1 n (hp n hn)
      obtain ⟨f1, f2⟩ := flushAnd_inv _ _ hpo ha
      refine ⟨by simp [f2], ?_, f1⟩
      intro p hpe
      simp only at hpe
      by_cases ht : e.truthy = true
      · simp [ht] at hpe; subst hpe; exact he
      · simp [ht] at hpe
    · have hs : groupStep st cond e = st := by
        unfold groupStep
        rw [if_neg h1, if_neg h2]
      rw [hs]
      exact ⟨ha, hp, ho⟩

theorem queryLoop_inv (fields : List Field) (cols : List (Str × Str)) :
    ∀ st st1 : QState, st.GroupInv → queryLoop fields true cols st = .ok st1 →
      st1.GroupInv := by
  induction cols with
  | nil =>
    intro st st1 h hq
    simp [queryLoop] at hq
    subst hq; exact h
  | cons c cs ih =>
    intro st st1 h hq
    obtain ⟨column, value⟩ := c
    simp only [queryLoop] at hq
    cases hs : queryStep fields true st column value with
    | error e => rw [hs] at hq; cases hq
    | ok s1 =>
      rw [hs] at hq
      obtain ⟨f, v, entry, _, _, ho, rfl⟩ := queryStep_power_ok _ _ _ _ _ hs
      exact ih _ st1 (groupStep_inv st _ _ h (opMap_not_group _ _ _ _ _ ho)) hq

theorem groupFinish_inv (st : QState) (h : st.GroupInv) :
    (groupFinish st).groupsAtLeast 1 = true := by
  obtain ⟨w, p, o, a⟩ := st
  obtain ⟨ha, hp, ho⟩ := h
  simp only at ha hp ho
  have hor : ∀ l : List Node, 0 < l.length → (∀ n ∈ l, n.groupsAtLeast 1 = true) →
      (Node.or l).groupsAtLeast 1 = true := by
    intro l hl hall
    simp only [Node.groupsAtLeast, Bool.and_eq_true, decide_eq_true_eq]
    exact ⟨hl, (groupsAtLeastList_iff 1 l).2 hall⟩
  have hoapp : ∀ x : Node, x.groupsAtLeast 1 = true →
      ∀ n ∈ o ++ [x], n.groupsAtLeast 1 = true := by
    intro x hx n hn
    rcases List.mem_append.1 hn with hn | hn
    · exact ho n hn
    · simp at hn; subst hn; exact hx
  cases p with
  | some q =>
    have hq := hp q rfl
    cases a with
    | nil =>
      have : groupFinish ⟨w, some q, o, []⟩ = .or (o ++ [q]) := by simp [groupFinish]
      rw [this]
      exact hor _ (by simp) (hoapp q (groupsAtLeast_of_not_group 1 q hq))
    | cons x l =>
      have : groupFinish ⟨w, some q, o, x :: l⟩ = .or (o ++ [.and (x :: l ++ [q])]) := by
        simp [groupFinish]
      rw [this]
      refine hor _ (by simp) (hoapp _ (and_groupsAtLeast _ (by simp) ?_))
      intro n hn
      rcases List.mem_append.1 hn with hn | hn
      · exact ha n hn
      · simp at hn; subst hn; exact hq
  | none =>
    cases a with
    | nil =>
      cases o with
      | nil => simp [groupFinish, Node.groupsAtLeast]
      | cons y o1 =>
        have : groupFinish ⟨w, none, y :: o1, []⟩ = .or (y :: o1) := by simp [groupFinish]
        rw [this]
        exact hor _ (by simp) ho
    | cons x l =>
      have : groupFinish ⟨w, none, o, x :: l⟩ = .or (o ++ [.and (x :: l)]) := by
        simp [groupFinish]
      rw [this]
      exact hor _ (by simp) (hoapp _ (and_groupsAtLeast _ (by simp) ha))

theorem likeConditions_spec (fields : List Field) (ps : List (Str × Value)) :
    ∀ cs, likeConditions fields ps = .ok cs →
      cs.length = ps.length ∧ ∀ c ∈ cs, c.isGroup = false := by
  induction ps with
  | nil =>
    intro cs h
    simp [likeConditions] at h
    subst h; simp
  | cons p ps ih =>
    intro cs h
    obtain ⟨key, v⟩ := p
    simp only [likeConditions] at h
    cases hk : findKey key fields with
    | none => simp [hk] at h
    | some g =>
      simp only [hk] at h
      cases hn : numerics.contains g.dataType with
      | true => rw [hn, if_pos rfl] at h; cases h
      | false =>
        rw [hn, if_neg Bool.false_ne_true] at h
        cases hr : likeConditions fields ps with
        | error e => rw [hr] at h; cases h
        | ok cs1 =>
          rw [hr] at h
          cases h
          obtain ⟨h1, h2⟩ := ih cs1 hr
          refine ⟨by simp [h1], ?_⟩
          intro c hc
          rcases List.mem_cons.1 hc with rfl | hc
          · rfl
          · exact h2 c hc

/-! ## Failure and success of the loop -/

theorem queryStep_error (fields : List Field) (pm : Bool) (st : QState) (column value : Str)
    (h : findAs (deconstruct column).column fields = none) :
    queryStep fields pm st column value = .error .typeError := by
  simp [queryStep, h]

theorem queryLoop_error (fields : List Field) (pm : Bool) (cols : List (Str × Str))
    (h : ∃ p ∈ cols, findAs (deconstruct p.1).column fields = none) :
    ∀ st, ∃ e, queryLoop fields pm cols st = .error e := by
  induction cols with
  | nil => obtain ⟨p, hp, _⟩ := h; simp at hp
  | cons c cs ih =>
    intro st
    obtain ⟨column, value⟩ := c
    simp only [queryLoop]
    cases hs : queryStep fields pm st column value with
    | error e => exact ⟨e, rfl⟩
    | ok st1 =>
      simp only
      apply ih
      obtain ⟨p, hp, hnone⟩ := h
      rcases List.mem_cons.1 hp with rfl | hp
      · rw [queryStep_error fields pm st _ value hnone] at hs
        cases hs
      · exact ⟨p, hp, hnone⟩

theorem groupStep_whereObj (st : QState) (cond : Option Str) (e : Node) :
    (groupStep st cond e).whereObj = st.whereObj := by
  unfold groupStep
  split_ifs <;> rfl

/-- A step on a field that is neither numeric nor temporal returns. -/
theorem queryStep_plain_ok (fields : List Field) (pm : Bool) (st : QState)
    (column value : Str) (f : Field)
    (hf : findAs (deconstruct column).column fields = some f) (hp : f.plain = true) :
    ∃ st1, queryStep fields pm st column value = .ok st1 ∧
      (pm = true → st1.whereObj = st.whereObj) ∧
      (pm = false → st1.whereObj = setProp st.whereObj f.key (literalValue value)) := by
  obtain ⟨hn, hm⟩ := plain_lists f hp
  unfold queryStep
  simp only [hf, coerce_plain _ _ hn hm, opMap_plain _ _ _ _ hn]
  cases pm with
  | true =>
    refine ⟨_, rfl, ?_, ?_⟩
    · intro _
      exact groupStep_whereObj _ _ _
    · intro h
      cases h
  | false =>
    refine ⟨_, rfl, ?_, ?_⟩
    · intro h
      cases h
    · intro _
      rfl

theorem coerce_ok (raw dataType : Str) (hm : momentables.contains dataType = false) :
    ∃ v, coerce raw dataType = .ok v := by
  unfold coerce
  rw [hm]
  cases literalValue raw <;>
    first
    | exact ⟨_, rfl⟩
    | (simp only [Bool.false_eq_true, if_false]; split_ifs <;> exact ⟨_, rfl⟩)

/-- A step on a field that is not temporal, nor numeric in grouped mode,
returns. -/
theorem queryStep_ok (fields : List Field) (pm : Bool) (st : QState)
    (column value : Str) (f : Field)
    (hf : findAs (deconstruct column).column fields = some f)
    (hm : momentables.contains f.dataType = false)
    (hn : pm = true → numerics.contains f.dataType = false) :
    ∃ st1, queryStep fields pm st column value = .ok st1 := by
  obtain ⟨v, hv⟩ := coerce_ok value f.dataType hm
  unfold queryStep
  simp only [hf, hv]
  cases pm with
  | true =>
    simp only [if_true, opMap_plain _ _ _ _ (hn rfl)]
    exact ⟨_, rfl⟩
  | false => exact ⟨_, rfl⟩

theorem queryLoop_error_type (fields : List Field) (pm : Bool) (cols : List (Str × Str))
    (h : ∃ p ∈ cols, findAs (deconstruct p.1).column fields = none)
    (hok : ∀ p ∈ cols, ∀ f, findAs (deconstruct p.1).column fields = some f →
      momentables.contains f.dataType = false ∧
        (pm = true → numerics.contains f.dataType = false)) :
    ∀ st, queryLoop fields pm cols st = .error .typeError := by
  induction cols with
  | nil => obtain ⟨p, hp, _⟩ := h; simp at hp
  | cons c cs ih =>
    intro st
    obtain ⟨column, value⟩ := c
    simp only [queryLoop]
    cases hf : findAs (deconstruct column).column fields with
    | none => rw [queryStep_error fields pm st _ value hf]
    | some f =>
      obtain ⟨hm, hn⟩ := hok (column, value) (List.mem_cons_self _ _) f hf
      obtain ⟨st1, hs⟩ := queryStep_ok fields pm st column value f hf hm hn
      rw [hs]
      simp only
      apply ih
      · obtain ⟨p, hp, hnone⟩ := h
        rcases List.mem_cons.1 hp with rfl | hp
        · rw [hf] at hnone; cases hnone
        · exact ⟨p, hp, hnone⟩
      · exact fun p hp => hok p (List.mem_cons_of_mem _ hp)

theorem findAs_mem (al : Str) (fields : List Field) (f : Field)
    (h : findAs al fields = some f) : f ∈ fields ∧ f.as = al := by
  induction fields with
  | nil => simp [findAs] at h
  | cons g gs ih =>
    simp only [findAs] at h
    split_ifs at h with hg
    · simp at h; subst h; exact ⟨by simp, hg⟩
    · exact ⟨by simp [(ih h).1], (ih h).2⟩

theorem findKey_isSome (fields : List Field) (f : Field) (h : f ∈ fields) :
    (findKey f.key fields).isSome = true := by
  induction fields with
  | nil => simp at h
  | cons g gs ih =>
    simp only [findKey]
    split_ifs with hg
    · rfl
    · rcases List.mem_cons.1 h with rfl | h
      · exact absurd rfl hg
      · exact ih h

theorem replaceProp_keys (k : Str) (v : Value) (o : List (Str × Value)) :
    (replaceProp k v o).map Prod.fst = o.map Prod.fst := by
  induction o with
  | nil => rfl
  | cons p ps ih =>
    obtain ⟨k1, v1⟩ := p
    simp only [replaceProp]
    split_ifs <;> simp [ih]

theorem insertIndexProp_keys (n : Nat) (k : Str) (v : Value) (o : List (Str × Value)) :
    ∀ x ∈ (insertIndexProp n k v o).map Prod.fst, x = k ∨ x ∈ o.map Prod.fst := by
  induction o with
  | nil =>
    intro x hx
    simp only [insertIndexProp, List.map, List.mem_singleton] at hx
    exact Or.inl hx
  | cons p ps ih =>
    obtain ⟨k1, v1⟩ := p
    intro x hx
    simp only [insertIndexProp] at hx
    simp only [List.map, List.mem_cons]
    split at hx
    · split_ifs at hx
      · simp only [List.map, List.mem_cons] at hx
        rcases hx with hx | hx
        · exact Or.inr (Or.inl hx)
        · rcases ih x hx with h | h
          · exact Or.inl h
          · exact Or.inr (Or.inr h)
      · simp only [List.map, List.mem_cons] at hx
        rcases hx with hx | hx | hx
        · exact Or.inl hx
        · exact Or.inr (Or.inl hx)
        · exact Or.inr (Or.inr hx)
    · simp only [List.map, List.mem_cons] at hx
      rcases hx with hx | hx | hx
      · exact Or.inl hx
      · exact Or.inr (Or.inl hx)
      · exact Or.inr (Or.inr hx)

theorem setProp_keys (o : List (Str × Value)) (k : Str) (v : Value) :
    ∀ x ∈ (setProp o k v).map Prod.fst, x = k ∨ x ∈ o.map Prod.fst := by
  intro x hx
  unfold setProp at hx
  split_ifs at hx
  · exact Or.inr hx
  · rw [replaceProp_keys] at hx; exact Or.inr hx
  · split at hx
    · exact insertIndexProp_keys _ _ _ _ x hx
    · simp only [List.map_append, List.map, List.mem_append, List.mem_singleton] at hx
      rcases hx with hx | hx
      · exact Or.inr hx
      · exact Or.inl hx

theorem replaceProp_length (k : Str) (v : Value) (o : List (Str × Value)) :
    (replaceProp k v o).length = o.length := by
  have := congrArg List.length (replaceProp_keys k v o)
  simpa using this

theorem insertIndexProp_length (n : Nat) (k : Str) (v : Value) (o : List (Str × Value)) :
    (insertIndexProp n k v o).length = o.length + 1 := by
  induction o with
  | nil => rfl
  | cons p ps ih =>
    obtain ⟨k1, v1⟩ := p
    simp only [insertIndexProp]
    split
    · split_ifs
      · simp [ih]
      · simp
    · simp

theorem setProp_length (o : List (Str × Value)) (k : Str) (v : Value) :
    (setProp o k v).length ≤ o.length + 1 := by
  unfold setProp
  split_ifs
  · omega
  · rw [replaceProp_length]; omega
  · split
    · rw [insertIndexProp_length]
    · simp

theorem queryLoop_length (fields : List Field) (cols : List (Str × Str)) :
    ∀ st st1 : QState, queryLoop fields false cols st = .ok st1 →
      st1.whereObj.length ≤ st.whereObj.length + cols.length := by
  induction cols with
  | nil =>
    intro st st1 h
    simp only [queryLoop, Except.ok.injEq] at h
    subst h; simp
  | cons c cs ih =>
    intro st st1 h
    obtain ⟨column, value⟩ := c
    simp only [queryLoop] at h
    cases hs : queryStep fields false st column value with
    | error e => rw [hs] at h; cases h
    | ok s1 =>
      rw [hs] at h
      obtain ⟨f, v, _, _, rfl⟩ := queryStep_simple_ok _ _ _ _ _ hs
      have h1 := ih _ st1 h
      have h2 := setProp_length st.whereObj f.key v
      simp only [List.length_cons] at *
      omega

theorem findKey_mem (key : Str) (fields : List Field) (g : Field)
    (h : findKey key fields = some g) : g ∈ fields ∧ g.key = key := by
  induction fields with
  | nil => simp [findKey] at h
  | cons x xs ih =>
    simp only [findKey] at h
    split_ifs at h with hx
    · simp at h; subst h; exact ⟨by simp, hx⟩
    · exact ⟨by simp [(ih h).1], (ih h).2⟩

theorem plainColumn_some (al : Str) (fields : List Field) (h : plainColumn al fields = true) :
    ∃ f, findAs al fields = some f ∧ f.plain = true ∧ plainKey f.key fields = true := by
  unfold plainColumn at h
  cases hf : findAs al fields with
  | none => rw [hf] at h; cases h
  | some f =>
    rw [hf] at h
    simp only [Bool.and_eq_true] at h
    exact ⟨f, rfl, h.1, h.2⟩

theorem queryLoop_ok (fields : List Field) (pm : Bool) (cols : List (Str × Str))
    (h : ∀ p ∈ cols, plainColumn (deconstruct p.1).column fields = true) :
    ∀ st : QState, (∀ x ∈ st.whereObj.map Prod.fst, plainKey x fields = true) →
      ∃ st1, queryLoop fields pm cols st = .ok st1 ∧
        ∀ x ∈ st1.whereObj.map Prod.fst, plainKey x fields = true := by
  induction cols with
  | nil => intro st hst; exact ⟨st, rfl, hst⟩
  | cons c cs ih =>
    intro st hst
    obtain ⟨column, value⟩ := c
    obtain ⟨f, hf, hp, hk⟩ := plainColumn_some _ _ (h (column, value) (List.mem_cons_self _ _))
    have ih1 := ih (fun p hp => h p (List.mem_cons_of_mem _ hp))
    obtain ⟨s1, hs, hw1, hw2⟩ := queryStep_plain_ok fields pm st column value f hf hp
    simp only [queryLoop, hs]
    apply ih1
    cases pm with
    | true => rw [hw1 rfl]; exact hst
    | false =>
      rw [hw2 rfl]
      intro x hx
      rcases setProp_keys _ _ _ x hx with rfl | hx
      · exact hk
      · exact hst x hx

theorem likeConditions_ok (fields : List Field) (ps : List (Str × Value))
    (h : ∀ x ∈ ps.map Prod.fst, plainKey x fields = true) :
    ∃ cs, likeConditions fields ps = .ok cs := by
  induction ps with
  | nil => exact ⟨[], rfl⟩
  | cons p ps ih =>
    obtain ⟨key, v⟩ := p
    have hk := h key (List.mem_cons_self _ _)
    unfold plainKey at hk
    obtain ⟨cs, hcs⟩ := ih (fun x hx => h x (List.mem_cons_of_mem _ hx))
    cases hg : findKey key fields with
    | none => rw [hg] at hk; cases hk
    | some g =>
      rw [hg] at hk
      have hk1 : (!numerics.contains g.dataType) = true := hk
      have hn : numerics.contains g.dataType = false := by
        cases hc : numerics.contains g.dataType with
        | false => rfl
        | true => rw [hc] at hk1; cases hk1
      simp only [likeConditions, hg, hcs]
      rw [hn]
      exact ⟨_, rfl⟩

/-! ## The flat scan of `genFields` -/

theorem fieldsBranch_plain (st : GState) (c : Char) (hsub : st.subprop = false)
    (h1 : c ≠ ',') (h2 : c ≠ '(') (h3 : c ≠ ')') :
    fieldsBranch st c = .ok { st with field := st.field ++ [c] } := by
  simp [fieldsBranch, h1, h2, h3, hsub]

theorem fieldsLoop_cons_plain (st : GState) (c : Char) (rest : Str)
    (hsub : st.subprop = false) (h1 : c ≠ ',') (h2 : c ≠ '(') (h3 : c ≠ ')') :
    fieldsLoop (c :: rest) st
      = if rest.isEmpty then
          (.ok { st with
                 outFields := pushTop st.outFields (findAsAt (st.field ++ [c]) st.cat)
                 field := [] }, st.cat)
        else fieldsLoop rest { st with field := st.field ++ [c] } := by
  cases rest with
  | nil => simp [fieldsLoop, fieldsStep, fieldsBranch_plain st c hsub h1 h2 h3, h1, h2, h3]
  | cons d r => simp [fieldsLoop, fieldsStep, fieldsBranch_plain st c hsub h1 h2 h3]

theorem fieldsLoop_plain (a : Str) (h : ',' ∉ a ∧ '(' ∉ a ∧ ')' ∉ a) (rest : Str)
    (hrest : rest ≠ []) :
    ∀ st : GState, st.subprop = false →
      fieldsLoop (a ++ rest) st = fieldsLoop rest { st with field := st.field ++ a } := by
  induction a with
  | nil => intro st _; simp
  | cons c a ih =>
    intro st hsub
    have h1 : c ≠ ',' := fun e => h.1 (by simp [e])
    have h2 : c ≠ '(' := fun e => h.2.1 (by simp [e])
    have h3 : c ≠ ')' := fun e => h.2.2 (by simp [e])
    have ha : ',' ∉ a ∧ '(' ∉ a ∧ ')' ∉ a :=
      ⟨fun e => h.1 (by simp [e]), fun e => h.2.1 (by simp [e]), fun e => h.2.2 (by simp [e])⟩
    have hne : (a ++ rest).isEmpty = false := by
      cases a <;> cases rest <;> simp_all
    rw [List.cons_append, fieldsLoop_cons_plain st c _ hsub h1 h2 h3, hne]
    simp only [Bool.false_eq_true, if_false]
    rw [ih ha { st with field := st.field ++ [c] } hsub]
    simp

theorem fieldsLoop_last (a : Str) (h : ',' ∉ a ∧ '(' ∉ a ∧ ')' ∉ a) (hne : a ≠ []) :
    ∀ st : GState, st.subprop = false →
      fieldsLoop a st
        = (.ok { st with
                 outFields := pushTop st.outFields (findAsAt (st.field ++ a) st.cat)
                 field := [] }, st.cat) := by
  induction a with
  | nil => exact absurd rfl hne
  | cons c a ih =>
    intro st hsub
    have h1 : c ≠ ',' := fun e => h.1 (by simp [e])
    have h2 : c ≠ '(' := fun e => h.2.1 (by simp [e])
    have h3 : c ≠ ')' := fun e => h.2.2 (by simp [e])
    have ha : ',' ∉ a ∧ '(' ∉ a ∧ ')' ∉ a :=
      ⟨fun e => h.1 (by simp [e]), fun e => h.2.1 (by simp [e]), fun e => h.2.2 (by simp [e])⟩
    rw [fieldsLoop_cons_plain st c _ hsub h1 h2 h3]
    cases a with
    | nil => simp
    | cons d a1 =>
      simp only [List.isEmpty_cons, Bool.false_eq_true, if_false]
      rw [ih ha (by simp) { st with field := st.field ++ [c] } hsub]
      simp

theorem fieldsLoop_comma (rest : Str) (st : GState) (hsub : st.subprop = false) :
    fieldsLoop (',' :: rest) st
      = fieldsLoop rest
          { st with outFields := pushTop st.outFields (findAsAt st.field st.cat), field := [] } := by
  simp [fieldsLoop, fieldsStep, fieldsBranch, hsub]

theorem fieldsLoop_commaList (aliases : List Str)
    (hchars : ∀ a ∈ aliases, ',' ∉ a ∧ '(' ∉ a ∧ ')' ∉ a)
    (hne : aliases ≠ []) (hlast : aliases.getLast? ≠ some []) :
    ∀ st : GState, st.subprop = false → st.field = [] →
      fieldsLoop (commaList aliases) st
        = (.ok { st with
                 outFields :=
                   aliases.foldl (fun o a => pushTop o (findAsAt a st.cat)) st.outFields
                 field := [] }, st.cat) := by
  induction aliases with
  | nil => exact absurd rfl hne
  | cons a rest ih =>
    intro st hsub hfield
    cases rest with
    | nil =>
      have ha : a ≠ [] := by
        intro e
        apply hlast
        simp [e]
      rw [commaList, fieldsLoop_last a (hchars a (by simp)) ha st hsub, hfield]
      simp
    | cons b rest1 =>
      have hlast1 : (b :: rest1).getLast? ≠ some [] := by
        simpa [List.getLast?_cons_cons] using hlast
      rw [commaList, fieldsLoop_plain a (hchars a (by simp)) _ (by simp) st hsub,
        fieldsLoop_comma _ { st with field := st.field ++ a } hsub,
        ih (fun x hx => hchars x (by simp [hx])) (by simp) hlast1
          { st with outFields := pushTop st.outFields (findAsAt (st.field ++ a) st.cat)
                    field := [] } hsub rfl]
      simp [hfield]

theorem findAsAt_spec (al : Str) (cat : List Field) (f : Field) (h : findAs al cat = some f) :
    ∃ i, findAsAt al cat = some (i, f) ∧ cat.get? i = some f := by
  induction cat with
  | nil => simp [findAs] at h
  | cons g gs ih =>
    simp only [findAs] at h
    by_cases hg : g.as = al
    · simp only [hg, if_true, Option.some.injEq] at h
      subst h
      exact ⟨0, by simp [findAsAt, hg], rfl⟩
    · simp only [hg, if_false] at h
      obtain ⟨i, h1, h2⟩ := ih h
      exact ⟨i + 1, by simp [findAsAt, hg, h1], by simpa using h2⟩

theorem pushTop_fold_read (cat : List Field) (aliases : List Str) :
    ∀ (fs : List Field) (acc : List OutRef),
      aliases.map (fun a => findAs a cat) = fs.map some →
      (aliases.foldl (fun o a => pushTop o (findAsAt a cat)) acc).filterMap (OutRef.read cat)
          = acc.filterMap (OutRef.read cat) ++ fs.map OutNode.field ∧
        (aliases.foldl (fun o a => pushTop o (findAsAt a cat)) acc).length
          = acc.length + aliases.length := by
  induction aliases with
  | nil =>
    intro fs acc h
    cases fs with
    | nil => simp
    | cons f fs => simp at h
  | cons a rest ih =>
    intro fs acc h
    cases fs with
    | nil => simp at h
    | cons f fs1 =>
      simp only [List.map, List.cons.injEq] at h
      obtain ⟨i, h1, h2⟩ := findAsAt_spec a cat f h.1
      obtain ⟨r1, r2⟩ := ih fs1 (acc ++ [.top i]) h.2
      have hstep : pushTop acc (findAsAt a cat) = acc ++ [.top i] := by rw [h1]; rfl
      simp only [List.foldl, hstep]
      refine ⟨?_, ?_⟩
      · have hread : OutRef.read cat (.top i) = some (.field f) := by
          simp only [OutRef.read, h2]; rfl
        rw [r1]
        simp [List.filterMap_cons, hread]
      · rw [r2]
        simp
        omega

theorem genFields_commaList (cat : List Field) (aliases : List Str) (fs : List Field)
    (hne : aliases ≠ [])
    (hchars : ∀ a ∈ aliases, ',' ∉ a ∧ '(' ∉ a ∧ ')' ∉ a)
    (hlast : aliases.getLast? ≠ some [])
    (hres : aliases.map (fun a => findAs a cat) = fs.map some) :
    genFields (commaList aliases) cat = ⟨.ok ⟨fs.map OutNode.field, false⟩, cat⟩ := by
  obtain ⟨r1, r2⟩ := pushTop_fold_read cat aliases fs [] hres
  have hpos : (aliases.foldl (fun o a => pushTop o (findAsAt a cat)) []).length ≠ 0 := by
    rw [r2]
    cases aliases with
    | nil => exact absurd rfl hne
    | cons a rest => simp
  unfold genFields
  rw [fieldsLoop_commaList aliases hchars hne hlast _ rfl rfl]
  simp only [hpos, if_false, r1]
  simp

/-! ## The nested scan of `genFields` -/

theorem fieldsBranch_name (st : GState) (c : Char)
    (h1 : c ≠ ',') (h2 : c ≠ '(') (h3 : c ≠ ')') (h4 : st.subprop = true → c ≠ '*') :
    fieldsBranch st c = .ok { st with field := st.field ++ [c] } := by
  cases hsub : st.subprop with
  | false => simp [fieldsBranch, h1, h2, h3, hsub]
  | true => simp [fieldsBranch, h1, h2, h3, hsub, h4 hsub]

theorem fieldsLoop_name (a : Str) (h : ',' ∉ a ∧ '(' ∉ a ∧ ')' ∉ a) (rest : Str)
    (hrest : rest ≠ []) :
    ∀ st : GState, (st.subprop = true → '*' ∉ a) →
      fieldsLoop (a ++ rest) st = fieldsLoop rest { st with field := st.field ++ a } := by
  induction a with
  | nil => intro st _; simp
  | cons c a ih =>
    intro st hstar
    have h1 : c ≠ ',' := fun e => h.1 (by simp [e])
    have h2 : c ≠ '(' := fun e => h.2.1 (by simp [e])
    have h3 : c ≠ ')' := fun e => h.2.2 (by simp [e])
    have h4 : st.subprop = true → c ≠ '*' := fun hs e => hstar hs (by simp [e])
    have ha : ',' ∉ a ∧ '(' ∉ a ∧ ')' ∉ a :=
      ⟨fun e => h.1 (by simp [e]), fun e => h.2.1 (by simp [e]), fun e => h.2.2 (by simp [e])⟩
    have hne : (a ++ rest).isEmpty = false := by
      cases a <;> cases rest <;> simp_all
    have hstep : fieldsLoop (c :: (a ++ rest)) st
        = fieldsLoop (a ++ rest) { st with field := st.field ++ [c] } := by
      simp [fieldsLoop, fieldsStep, fieldsBranch_name st c h1 h2 h3 h4, hne]
    rw [List.cons_append, hstep,
      ih ha { st with field := st.field ++ [c] } (fun hs e => hstar hs (by simp [e]))]
    simp

theorem fieldsLoop_open (rest : Str) (st : GState) :
    fieldsLoop ('(' :: rest) st
      = fieldsLoop rest { st with parent := st.field, field := [], subprop := true } := by
  simp [fieldsLoop, fieldsStep, fieldsBranch]

theorem findChild_kids (al : Str) (kids : List Field) :
    findChild al (kids.map some) = .ok (findAs al kids) := by
  induction kids with
  | nil => rfl
  | cons k ks ih =>
    simp only [List.map, findChild, findAs]
    split_ifs
    · rfl
    · exact ih

theorem findAsAt_none (al : Str) (cat : List Field) (h : findAs al cat = none) :
    findAsAt al cat = none := by
  induction cat with
  | nil => rfl
  | cons g gs ih =>
    simp only [findAs] at h
    by_cases hg : g.as = al
    · simp [hg] at h
    · simp only [hg, if_false] at h
      simp [findAsAt, hg, ih h]

theorem lookupChild_kids (st : GState) (i : Nat) (pf : Field) (kids : List Field)
    (hp : findAsAt st.parent st.cat = some (i, pf)) (hk : pf.fields = some (kids.map some)) :
    lookupChild st = .ok (i, pf, findAs st.field kids) := by
  simp [lookupChild, hp, hk, findChild_kids]

theorem fieldsLoop_comma_nested (rest : Str) (st : GState) (i : Nat) (pf : Field)
    (kids : List Field) (acc : List (Option Field))
    (hsub : st.subprop = true) (hobj : st.objfield = .fresh acc)
    (hp : findAsAt st.parent st.cat = some (i, pf)) (hk : pf.fields = some (kids.map some)) :
    fieldsLoop (',' :: rest) st
      = fieldsLoop rest
          { st with objfield := .fresh (acc ++ [findAs st.field kids]), field := [] } := by
  simp [fieldsLoop, fieldsStep, fieldsBranch, hsub, lookupChild_kids st i pf kids hp hk, hobj,
    pushObj]

theorem fieldsLoop_close (st : GState) (i : Nat) (pf : Field)
    (kids : List Field) (acc : List (Option Field))
    (hobj : st.objfield = .fresh acc)
    (hp : findAsAt st.parent st.cat = some (i, pf)) (hk : pf.fields = some (kids.map some)) :
    fieldsLoop [')'] st
      = (.ok { cat := st.cat
               outFields := st.outFields ++
                 [.obj pf.key pf.as pf.getter
                   (.fresh (acc ++ (match findAs st.field kids with
                                    | some f => [some f]
                                    | none => [])))]
               expand := true
               field := []
               objfield := .fresh []
               parent := []
               subprop := false }, st.cat) := by
  cases hf : findAs st.field kids <;>
    simp [fieldsLoop, fieldsStep, fieldsBranch, lookupChild_kids st i pf kids hp hk, hobj,
      pushObj, hf]

theorem fieldsLoop_nested (kids : List Field) (cs : List Str) (hne : cs ≠ [])
    (hchars : ∀ c ∈ cs, (',' ∉ c ∧ '(' ∉ c ∧ ')' ∉ c) ∧ '*' ∉ c) :
    ∀ (st : GState) (i : Nat) (pf : Field) (acc : List (Option Field)),
      st.subprop = true → st.field = [] → st.objfield = .fresh acc →
      findAsAt st.parent st.cat = some (i, pf) → pf.fields = some (kids.map some) →
      fieldsLoop (commaList cs ++ [')']) st
        = (.ok { cat := st.cat
                 outFields := st.outFields ++
                   [.obj pf.key pf.as pf.getter (.fresh (acc ++ nestedPushes kids cs))]
                 expand := true
                 field := []
                 objfield := .fresh []
                 parent := []
                 subprop := false }, st.cat) := by
  induction cs with
  | nil => exact absurd rfl hne
  | cons c rest ih =>
    intro st i pf acc hsub hfield hobj hp hk
    obtain ⟨hc, hstar⟩ := hchars c (by simp)
    cases rest with
    | nil =>
      rw [commaList, fieldsLoop_name c hc [')'] (by simp) st (fun _ => hstar),
        fieldsLoop_close { st with field := st.field ++ c } i pf kids acc hobj hp hk]
      simp [hfield, nestedPushes]
    | cons d rest1 =>
      have hsplit : commaList (c :: d :: rest1) ++ [')']
          = c ++ (',' :: (commaList (d :: rest1) ++ [')'])) := by
        simp [commaList]
      rw [hsplit, fieldsLoop_name c hc _ (by simp) st (fun _ => hstar),
        fieldsLoop_comma_nested _ { st with field := st.field ++ c } i pf kids acc hsub hobj hp hk,
        ih (by simp) (fun x hx => hchars x (by simp [hx]))
          { st with objfield := .fresh (acc ++ [findAs (st.field ++ c) kids]), field := [] }
          i pf (acc ++ [findAs (st.field ++ c) kids]) hsub rfl rfl hp hk]
      simp [hfield, nestedPushes]

theorem genFields_nested (cat : List Field) (p : Str) (pf : Field) (kids : List Field)
    (cs : List Str)
    (hp : ',' ∉ p ∧ '(' ∉ p ∧ ')' ∉ p) (hpf : findAs p cat = some pf)
    (hk : pf.fields = some (kids.map some)) (hne : cs ≠ [])
    (hchars : ∀ c ∈ cs, (',' ∉ c ∧ '(' ∉ c ∧ ')' ∉ c) ∧ '*' ∉ c) :
    genFields (nestedExpr p cs) cat
      = ⟨.ok ⟨[.obj pf.key pf.as pf.getter (some (nestedPushes kids cs))], true⟩, cat⟩ := by
  obtain ⟨i, hi, _⟩ := findAsAt_spec p cat pf hpf
  unfold genFields nestedExpr
  rw [fieldsLoop_name p hp _ (by simp) _ (by simp), fieldsLoop_open,
    fieldsLoop_nested kids cs hne hchars _ i pf [] rfl rfl rfl (by simpa using hi) hk]
  simp [OutRef.read, ObjRef.read]

theorem findAs_blank_none (kids : List Field) (h : ∀ k ∈ kids, k.as ≠ []) :
    findAs [] kids = none := by
  induction kids with
  | nil => rfl
  | cons k ks ih =>
    have hk : k.as ≠ [] := h k (by simp)
    simp [findAs, hk, ih (fun x hx => h x (by simp [hx]))]

theorem genFields_wildcard (cat : List Field) (p : Str) (pf : Field) (kids : List Field)
    (hp : ',' ∉ p ∧ '(' ∉ p ∧ ')' ∉ p) (hpf : findAs p cat = some pf)
    (hk : pf.fields = some (kids.map some)) (hblank : ∀ k ∈ kids, k.as ≠ []) :
    genFields (p ++ "(*)".toList) cat
      = ⟨.ok ⟨[.obj pf.key pf.as pf.getter (some (kids.map some))], true⟩, cat⟩ := by
  obtain ⟨i, hi, hget⟩ := findAsAt_spec p cat pf hpf
  have hshow : "(*)".toList = '(' :: ['*', ')'] := rfl
  unfold genFields
  rw [hshow, fieldsLoop_name p hp _ (by simp) _ (by simp), fieldsLoop_open]
  have hget1 : cat[i]? = some pf := by simpa using hget
  simp [fieldsLoop, fieldsStep, fieldsBranch, hi, hk, lookupChild, findChild_kids,
    findAs_blank_none kids hblank, OutRef.read, ObjRef.read, hget1]

theorem fieldsLoop_unknown (c : Str) (hc : ',' ∉ c ∧ '(' ∉ c ∧ ')' ∉ c) :
    ∀ st : GState, st.subprop = true → findAsAt st.parent st.cat = none →
      fieldsLoop (c ++ [')']) st = (.error .typeError, st.cat) := by
  induction c with
  | nil =>
    intro st _ hp
    simp [fieldsLoop, fieldsStep, fieldsBranch, lookupChild, hp]
  | cons ch c1 ih =>
    intro st hsub hp
    have h1 : ch ≠ ',' := fun e => hc.1 (by simp [e])
    have h2 : ch ≠ '(' := fun e => hc.2.1 (by simp [e])
    have h3 : ch ≠ ')' := fun e => hc.2.2 (by simp [e])
    have hc1 : ',' ∉ c1 ∧ '(' ∉ c1 ∧ ')' ∉ c1 :=
      ⟨fun e => hc.1 (by simp [e]), fun e => hc.2.1 (by simp [e]),
        fun e => hc.2.2 (by simp [e])⟩
    by_cases hstar : ch = '*'
    · simp [fieldsLoop, fieldsStep, fieldsBranch, hstar, hsub, hp]
    · have hstep : fieldsLoop (ch :: (c1 ++ [')'])) st
          = fieldsLoop (c1 ++ [')']) { st with field := st.field ++ [ch] } := by
        simp [fieldsLoop, fieldsStep, fieldsBranch_name st ch h1 h2 h3 (fun _ => hstar)]
      rw [List.cons_append, hstep, ih hc1 { st with field := st.field ++ [ch] } hsub hp]

theorem genFields_unknown_parent (cat : List Field) (q c : Str)
    (hq : ',' ∉ q ∧ '(' ∉ q ∧ ')' ∉ q) (hc : ',' ∉ c ∧ '(' ∉ c ∧ ')' ∉ c)
    (hnone : findAs q cat = none) :
    genFields (nestedExpr q [c]) cat = ⟨.error .typeError, cat⟩ := by
  unfold genFields nestedExpr
  rw [commaList, fieldsLoop_name q hq _ (by simp) _ (by simp), fieldsLoop_open,
    fieldsLoop_unknown c hc _ rfl (by simpa using findAsAt_none q cat hnone)]

theorem nestedPushes_resolved (kids : List Field) (cs : List Str) :
    ∀ fs : List Field, cs.map (fun c => findAs c kids) = fs.map some →
      nestedPushes kids cs = fs.map some := by
  induction cs with
  | nil =>
    intro fs h
    cases fs with
    | nil => rfl
    | cons f fs1 => simp at h
  | cons c rest ih =>
    intro fs h
    cases fs with
    | nil => simp at h
    | cons f fs1 =>
      simp only [List.map, List.cons.injEq] at h
      cases rest with
      | nil =>
        have hfs : fs1 = [] := by
          cases fs1 with
          | nil => rfl
          | cons g gs => simp at h
        simp [nestedPushes, h.1, hfs]
      | cons d rest1 =>
        simp only [nestedPushes, h.1, List.map, List.cons.injEq, true_and]
        exact ih fs1 h.2

/-! ## The `order_by` loop -/

theorem asc_variants :
    ∀ d ∈ caseVariants "asc".toList,
      d ≠ [] ∧ ')' ∉ d ∧ ',' ∉ d ∧ toUpperCase d = "ASC".toList ∧
        d ∉ caseVariants "desc".toList := by
  decide

theorem desc_variants :
    ∀ d ∈ caseVariants "desc".toList,
      d ≠ [] ∧ ')' ∉ d ∧ ',' ∉ d ∧ toUpperCase d = "DESC".toList := by
  decide

theorem takeWhile_group (d rest : Str) (h : ')' ∉ d) :
    (d ++ ')' :: rest).takeWhile (fun x => x ≠ ')') = d ∧
      (d ++ ')' :: rest).dropWhile (fun x => x ≠ ')') = ')' :: rest := by
  induction d with
  | nil => simp
  | cons c d ih =>
    have hc : c ≠ ')' := fun e => h (by simp [e])
    have hd : ')' ∉ d := fun e => h (by simp [e])
    obtain ⟨i1, i2⟩ := ih hd
    have hdec : decide (c ≠ ')') = true := decide_eq_true hc
    simp only [List.cons_append, List.takeWhile_cons, List.dropWhile_cons, hdec, if_true, i1, i2,
      and_self]

theorem matchHead_group (d rest : Str) (hne : d ≠ []) (h : ')' ∉ d) :
    matchHead ('(' :: (d ++ ')' :: rest)) = some (d, d.length + 2) := by
  obtain ⟨h1, h2⟩ := takeWhile_group d rest h
  have hemp : d.isEmpty = false := by cases d <;> simp_all
  simp only [matchHead, if_true, h1, h2, hemp]
  rfl

theorem matchHead_other (c : Char) (cs : Str) (h : c ≠ '(') : matchHead (c :: cs) = none := by
  simp [matchHead, h]

theorem searchMatch_append (a s : Str) (h : '(' ∉ a) :
    searchMatch (a ++ s)
      = (match searchMatch s with
         | some (i, cap, len) => some (a.length + i, cap, len)
         | none => none) := by
  induction a with
  | nil => cases hs : searchMatch s with
    | none => simp [hs]
    | some r => obtain ⟨i, cap, len⟩ := r; simp [hs]
  | cons c a ih =>
    have hc : c ≠ '(' := fun e => h (by simp [e])
    have ha : '(' ∉ a := fun e => h (by simp [e])
    have hstep : searchMatch (c :: (a ++ s))
        = (match searchMatch (a ++ s) with
           | some (i, cap, len) => some (i + 1, cap, len)
           | none => none) := by
      simp only [searchMatch, matchHead_other c _ hc]
    rw [List.cons_append, hstep, ih ha]
    cases hs : searchMatch s with
    | none => rfl
    | some r =>
      obtain ⟨i, cap, len⟩ := r
      simp only [List.length_cons, Option.some.injEq, Prod.mk.injEq, and_true]
      omega

theorem removeMatches_append (a s : Str) (h : '(' ∉ a) :
    removeMatches 0 (a ++ s) = a ++ removeMatches 0 s := by
  induction a with
  | nil => rfl
  | cons c a ih =>
    have hc : c ≠ '(' := fun e => h (by simp [e])
    have ha : '(' ∉ a := fun e => h (by simp [e])
    have hstep : removeMatches 0 (c :: (a ++ s)) = c :: removeMatches 0 (a ++ s) := by
      simp only [removeMatches, matchHead_other c _ hc]
    rw [List.cons_append, hstep, ih ha]
    rfl

theorem removeMatches_skip (s : Str) : ∀ n, s.length ≤ n → removeMatches n s = [] := by
  induction s with
  | nil => intro n _; cases n <;> rfl
  | cons c cs ih =>
    intro n hn
    cases n with
    | zero => simp at hn
    | succ m =>
      simp only [removeMatches]
      exact ih m (by simpa using hn)

theorem splitOn_of_not_mem (sep : Char) (s : Str) (h : sep ∉ s) : splitOn sep s = [s] := by
  induction s with
  | nil => rfl
  | cons c s ih =>
    have hc : c ≠ sep := fun e => h (by simp [e])
    have hs : sep ∉ s := fun e => h (by simp [e])
    simp [splitOn, hc, ih hs]

theorem splitOn_commaList (texts : List Str) (hne : texts ≠ [])
    (h : ∀ t ∈ texts, ',' ∉ t) : splitOn ',' (commaList texts) = texts := by
  induction texts with
  | nil => exact absurd rfl hne
  | cons t rest ih =>
    cases rest with
    | nil => simpa [commaList] using splitOn_of_not_mem ',' t (h t (by simp))
    | cons u rest1 =>
      rw [commaList, splitOn_append ',' t _ (h t (by simp)),
        ih (by simp) (fun x hx => h x (by simp [hx]))]

theorem token_exec (t : SortToken) (hal : '(' ∉ t.al)
    (hdir : ∀ d, t.dir = some d → d ≠ [] ∧ ')' ∉ d) :
    (regexExec 0 t.text).1 = t.dir ∧ removeMatches 0 t.text = t.al := by
  obtain ⟨al, dir⟩ := t
  cases dir with
  | none =>
    have h1 := searchMatch_append al [] hal
    have h2 := removeMatches_append al [] hal
    simp only [List.append_nil, searchMatch, removeMatches] at h1 h2
    simp [SortToken.text, regexExec, h1, h2]
  | some d =>
    obtain ⟨hne, hd⟩ := hdir d rfl
    have hm := matchHead_group d [] hne hd
    have hs : searchMatch ('(' :: (d ++ [')'])) = some (0, d, d.length + 2) := by
      simp only [searchMatch, hm]
    have h1 := searchMatch_append al ('(' :: (d ++ [')'])) hal
    have h2 := removeMatches_append al ('(' :: (d ++ [')'])) hal
    have h3 : removeMatches 0 ('(' :: (d ++ [')'])) = [] := by
      simp only [removeMatches, hm]
      exact removeMatches_skip _ _ (by simp)
    rw [hs] at h1
    rw [h3] at h2
    simp [SortToken.text, regexExec, h1, h2]

theorem sortStep_zero (cat : List Field) (acc : List (Str × Str)) (text : Str) :
    sortStep cat ⟨some acc, 0⟩ text
      = .ok ⟨(match findAs (removeMatches 0 text) cat with
              | some f => some (acc ++ [(f.key, tokenDirection text)])
              | none => if acc.length = 0 then none else some acc), 0⟩ := by
  cases hf : findAs (removeMatches 0 text) cat with
  | none => simp [sortStep, regexReplace, hf]
  | some f => simp [sortStep, regexReplace, hf, tokenDirection]

theorem sortStep_undefined (cat : List Field) (li : Nat) (text : Str) :
    sortStep cat ⟨none, li⟩ text = .error .typeError := by
  cases hf : findAs (removeMatches 0 text) cat <;> simp [sortStep, regexReplace, hf]

theorem sortLoop_tokens (cat : List Field) (tokens : List SortToken) :
    ∀ (fs : List Field) (acc : List (Str × Str)),
      (∀ t ∈ tokens, '(' ∉ t.al ∧ ∀ d, t.dir = some d → d ≠ [] ∧ ')' ∉ d) →
      tokens.map (fun t => findAs t.al cat) = fs.map some →
      sortLoop cat (tokens.map SortToken.text) ⟨some acc, 0⟩
        = .ok ⟨some (acc ++ List.zipWith
            (fun t f => (f.key, toUpperCase (t.dir.getD "asc".toList))) tokens fs), 0⟩ := by
  induction tokens with
  | nil =>
    intro fs acc _ _
    simp [sortLoop]
  | cons t rest ih =>
    intro fs acc hvalid hres
    cases fs with
    | nil => simp at hres
    | cons f fs1 =>
      simp only [List.map, List.cons.injEq] at hres
      obtain ⟨hal, hdir⟩ := hvalid t (by simp)
      obtain ⟨e1, e2⟩ := token_exec t hal hdir
      have hdirn : tokenDirection t.text = toUpperCase (t.dir.getD "asc".toList) := by
        simp only [tokenDirection, e1]
        cases t.dir <;> rfl
      simp only [List.map, sortLoop, sortStep_zero, e2, hres.1, hdirn]
      rw [ih fs1 _ (fun x hx => hvalid x (by simp [hx])) hres.2]
      simp

theorem sortLoop_undefined (cat : List Field) (texts : List Str) (hne : texts ≠ []) (li : Nat) :
    sortLoop cat texts ⟨none, li⟩ = .error .typeError := by
  cases texts with
  | nil => exact absurd rfl hne
  | cons t rest => simp [sortLoop, sortStep_undefined]

theorem splitOn_ne_nil (sep : Char) (s : Str) : splitOn sep s ≠ [] := by
  induction s with
  | nil => simp [splitOn]
  | cons c s ih =>
    simp only [splitOn]
    split_ifs
    · simp
    · cases h : splitOn sep s <;> simp

theorem sortLoop_directions (cat : List Field) (texts : List Str) :
    ∀ (acc : Option (List (Str × Str))) (st : SortState),
      sortLoop cat texts ⟨acc, 0⟩ = .ok st →
      st.lastIndex = 0 ∧
      ∀ list, st.order = some list → ∀ term ∈ list,
        (∃ l, acc = some l ∧ term ∈ l) ∨ ∃ text ∈ texts, term.2 = tokenDirection text := by
  induction texts with
  | nil =>
    intro acc st h
    simp only [sortLoop, Except.ok.injEq] at h
    subst h
    exact ⟨rfl, fun list hl term ht => Or.inl ⟨list, hl, ht⟩⟩
  | cons t rest ih =>
    intro acc st h
    cases acc with
    | none => simp [sortLoop, sortStep_undefined] at h
    | some l =>
      simp only [sortLoop, sortStep_zero] at h
      obtain ⟨h1, h2⟩ := ih _ st h
      refine ⟨h1, ?_⟩
      intro list hl term ht
      rcases h2 list hl term ht with ⟨l1, hl1, hterm⟩ | ⟨text, htext, hdir⟩
      · cases hf : findAs (removeMatches 0 t) cat with
        | none =>
          simp only [hf] at hl1
          split_ifs at hl1
          simp only [Option.some.injEq] at hl1
          subst hl1
          exact Or.inl ⟨l, rfl, hterm⟩
        | some f =>
          simp only [hf, Option.some.injEq] at hl1
          subst hl1
          rcases List.mem_append.1 hterm with hm | hm
          · exact Or.inl ⟨l, rfl, hm⟩
          · simp only [List.mem_singleton] at hm
            subst hm
            exact Or.inr ⟨t, by simp, rfl⟩
      · exact Or.inr ⟨text, by simp [htext], hdir⟩

theorem zipWith_direction (g h : SortToken → Str) (tokens : List SortToken) :
    ∀ fs : List Field, (∀ t ∈ tokens, g t = h t) →
      List.zipWith (fun t f => (f.key, g t)) tokens fs
        = List.zipWith (fun t f => (f.key, h t)) tokens fs := by
  induction tokens with
  | nil => intro fs _; rfl
  | cons t rest ih =>
    intro fs hgh
    cases fs with
    | nil => rfl
    | cons f fs1 =>
      simp only [List.zipWith, hgh t (by simp), ih fs1 (fun x hx => hgh x (by simp [hx]))]

theorem token_text_no_comma (t : SortToken) (hal : ',' ∉ t.al)
    (hdir : ∀ d, t.dir = some d → ',' ∉ d) : ',' ∉ t.text := by
  obtain ⟨al, dir⟩ := t
  cases dir with
  | none => simpa [SortToken.text] using hal
  | some d =>
    have hd := hdir d rfl
    simp only [SortToken.text, List.mem_append, List.mem_cons, List.mem_singleton,
      List.not_mem_nil, or_false, not_or]
    exact ⟨hal, by decide, hd, by decide⟩

theorem orderBy_tokens (cat : List Field) (tokens : List SortToken) (fs : List Field)
    (hne : tokens ≠ [])
    (hvalid : ∀ t ∈ tokens, ',' ∉ t.al ∧ '(' ∉ t.al ∧
      ∀ d, t.dir = some d → d ≠ [] ∧ ')' ∉ d ∧ ',' ∉ d)
    (hres : tokens.map (fun t => findAs t.al cat) = fs.map some) :
    orderBy (commaList (tokens.map SortToken.text)) cat
      = .ok (some (List.zipWith
          (fun t f => (f.key, toUpperCase (t.dir.getD "asc".toList))) tokens fs)) := by
  have hsplit : splitOn ',' (commaList (tokens.map SortToken.text)) = tokens.map SortToken.text := by
    apply splitOn_commaList
    · cases tokens with
      | nil => exact absurd rfl hne
      | cons t rest => simp
    · intro x hx
      obtain ⟨t, ht, rfl⟩ := List.mem_map.1 hx
      exact token_text_no_comma t (hvalid t ht).1 (fun d hd => ((hvalid t ht).2.2 d hd).2.2)
  unfold orderBy
  rw [hsplit, sortLoop_tokens cat tokens fs []
    (fun t ht => ⟨(hvalid t ht).2.1, fun d hd =>
      ⟨((hvalid t ht).2.2 d hd).1, ((hvalid t ht).2.2 d hd).2.1⟩⟩) hres]
  simp

/-! ## `dequerylize`: pagination and expansion -/

theorem digit_bounds (c : Char) (h : c.isDigit = true) : 48 ≤ c.toNat ∧ c.toNat ≤ 57 := by
  simp [Char.isDigit, UInt32.le_def, Char.toNat] at h ⊢
  exact h

theorem digit_not_space (c : Char) (h : c.isDigit = true) : isStrWhiteSpace c = false := by
  have hb := digit_bounds c h
  simp only [isStrWhiteSpace, Bool.or_eq_false_iff, Bool.and_eq_false_iff, beq_eq_false_iff_ne,
    ne_eq, decide_eq_false_iff_not]
  omega

theorem digit_not_sign (c : Char) (h : c.isDigit = true) : (c == '-' || c == '+') = false := by
  have hb := digit_bounds c h
  have h1 : c ≠ '-' := by
    intro e
    rw [e] at hb
    exact absurd hb (by decide)
  have h2 : c ≠ '+' := by
    intro e
    rw [e] at hb
    exact absurd hb (by decide)
  simp [h1, h2]

theorem dropWhile_ws_append (ws x : Str) (h : ws.all isStrWhiteSpace = true) :
    (ws ++ x).dropWhile isStrWhiteSpace = x.dropWhile isStrWhiteSpace := by
  induction ws with
  | nil => rfl
  | cons c cs ih =>
    simp only [List.all_cons, Bool.and_eq_true] at h
    show ((c :: (cs ++ x)).dropWhile isStrWhiteSpace) = _
    rw [List.dropWhile_cons, h.1]
    exact ih h.2

theorem takeWhile_digits_append (ds rest : Str) (h : ds.all Char.isDigit = true)
    (hrest : ∀ c r, rest = c :: r → c.isDigit = false) :
    (ds ++ rest).takeWhile Char.isDigit = ds := by
  induction ds with
  | nil =>
    cases rest with
    | nil => rfl
    | cons c r =>
      show (c :: r).takeWhile Char.isDigit = []
      rw [List.takeWhile_cons, hrest c r rfl]
      rfl
  | cons d ds ih =>
    simp only [List.all_cons, Bool.and_eq_true] at h
    show (d :: (ds ++ rest)).takeWhile Char.isDigit = d :: ds
    rw [List.takeWhile_cons, h.1]
    simp only [if_true]
    rw [ih h.2]

theorem dropWhile_head (c : Char) (r : Str) (h : isStrWhiteSpace c = false) :
    (c :: r).dropWhile isStrWhiteSpace = c :: r := by
  rw [List.dropWhile_cons, h]
  rfl

/-- What `parseInt` reads of an integer text: its digits, and its sign. -/
theorem leadingDigits_text (t : IntText) (h : t.wellFormed = true) :
    leadingDigits t.text = t.digits ∧
      (t.digits ≠ [] →
        startsNeg (t.text.dropWhile isStrWhiteSpace) = decide (t.sign = some '-')) := by
  obtain ⟨ws, sign, ds, rest⟩ := t
  simp only [IntText.wellFormed, Bool.and_eq_true] at h
  obtain ⟨⟨⟨hws, hsign⟩, hds⟩, hrest⟩ := h
  have hdrop := dropWhile_ws_append ws (sign.toList ++ (ds ++ rest)) hws
  have hrd : ∀ c r, rest = c :: r → c.isDigit = false := by
    intro c r e
    subst e
    simp only [Bool.and_eq_true, Bool.not_eq_true'] at hrest
    exact hrest.1
  have htake := takeWhile_digits_append ds rest hds hrd
  unfold leadingDigits
  simp only [IntText.text]
  rw [hdrop]
  cases sign with
  | none =>
    show (dropSign ((ds ++ rest).dropWhile isStrWhiteSpace)).takeWhile Char.isDigit = ds ∧
      (ds ≠ [] → startsNeg ((ds ++ rest).dropWhile isStrWhiteSpace) = false)
    cases ds with
    | nil =>
      cases rest with
      | nil => exact ⟨rfl, fun e => absurd rfl e⟩
      | cons c r =>
        simp only [Option.isSome_none, Bool.false_eq_true, List.isEmpty_nil, Bool.not_true,
          Bool.or_self, Bool.false_or, Bool.and_eq_true, Bool.not_eq_true'] at hrest
        obtain ⟨h1, h2, h3⟩ := hrest
        refine ⟨?_, fun e => absurd rfl e⟩
        show (dropSign ((c :: r).dropWhile isStrWhiteSpace)).takeWhile Char.isDigit = []
        rw [dropWhile_head c r h2]
        simp only [dropSign, h3, Bool.false_eq_true, if_false]
        rw [List.takeWhile_cons, h1]
        rfl
    | cons d ds1 =>
      have hd : d.isDigit = true := by
        simp only [List.all_cons, Bool.and_eq_true] at hds
        exact hds.1
      have e1 : ((d :: ds1) ++ rest).dropWhile isStrWhiteSpace = (d :: ds1) ++ rest :=
        dropWhile_head d _ (digit_not_space d hd)
      rw [e1]
      have e2 : dropSign ((d :: ds1) ++ rest) = (d :: ds1) ++ rest := by
        show dropSign (d :: (ds1 ++ rest)) = _
        simp only [dropSign, digit_not_sign d hd, Bool.false_eq_true, if_false]
        rfl
      rw [e2, htake]
      refine ⟨rfl, fun _ => ?_⟩
      have := digit_not_sign d hd
      simp only [Bool.or_eq_false_iff] at this
      show (d == '-') = false
      exact this.1
  | some s =>
    have hs : s = '+' ∨ s = '-' := by
      simp only [Bool.or_eq_true, beq_iff_eq] at hsign
      rcases hsign with (hsign | hsign) | hsign
      · cases hsign
      · exact Or.inl (Option.some.inj hsign)
      · exact Or.inr (Option.some.inj hsign)
    have hsw : isStrWhiteSpace s = false := by
      rcases hs with rfl | rfl <;> decide
    show (dropSign ((s :: (ds ++ rest)).dropWhile isStrWhiteSpace)).takeWhile Char.isDigit = ds ∧
      (ds ≠ [] → startsNeg ((s :: (ds ++ rest)).dropWhile isStrWhiteSpace)
        = decide (some s = some '-'))
    rw [dropWhile_head s _ hsw]
    have e2 : dropSign (s :: (ds ++ rest)) = ds ++ rest := by
      rcases hs with rfl | rfl <;> rfl
    rw [e2, htake]
    refine ⟨rfl, fun _ => ?_⟩
    rcases hs with rfl | rfl <;> rfl

/-- `parseInt` on an integer text: `NaN` without digits, else the integer
the digits denote with the sign, up to `2^53`. -/
theorem parseInt_text (t : IntText) (h : t.wellFormed = true) :
    (t.digits = [] → parseInt t.text = .nan) ∧
    (t.digits ≠ [] → digitsVal t.digits ≤ 9007199254740992 →
      parseInt t.text = .num t.value) := by
  obtain ⟨h1, h2⟩ := leadingDigits_text t h
  refine ⟨?_, ?_⟩
  · intro hd
    unfold parseInt
    simp only [h1, hd, List.isEmpty_nil, if_true]
  · intro hd hb
    have hne : t.digits.isEmpty = false := by
      cases hds : t.digits with
      | nil => exact absurd hds hd
      | cons c cs => rfl
    unfold parseInt
    simp only [h1, hne, Bool.false_eq_true, if_false, if_pos hb, h2 hd, IntText.value,
      decide_eq_true_eq]
    split_ifs <;> rfl

theorem parseIntOrUndefined_text (t : IntText) (h : t.wellFormed = true) :
    (t.digits = [] → parseIntOrUndefined t.text = none) ∧
    (t.digits ≠ [] → digitsVal t.digits ≤ 9007199254740992 →
      parseIntOrUndefined t.text = some (.num t.value)) := by
  obtain ⟨h1, h2⟩ := parseInt_text t h
  refine ⟨?_, ?_⟩
  · intro hd
    unfold parseIntOrUndefined
    rw [h1 hd]
  · intro hd hb
    unfold parseIntOrUndefined
    rw [h2 hd hb]

theorem dequerylizeStep_paging (st st1 : DState) (k v : Str) (c : List Field)
    (h : dequerylizeStep st k v = (.ok st1, c)) :
    st1.limit = (if k = "limit".toList then parseIntOrUndefined v else st.limit) ∧
      st1.offset = (if k = "offset".toList then parseIntOrUndefined v else st.offset) := by
  unfold dequerylizeStep at h
  by_cases h1 : k = "fields".toList
  · rw [if_pos h1] at h
    have n1 : k ≠ "limit".toList := by rw [h1]; decide
    have n2 : k ≠ "offset".toList := by rw [h1]; decide
    rw [if_neg n1, if_neg n2]
    cases hg : (genFields v st.cat).out with
    | error e => simp [hg] at h
    | ok r =>
      simp only [hg, Prod.mk.injEq, Except.ok.injEq] at h
      rw [← h.1]
      exact ⟨rfl, rfl⟩
  · rw [if_neg h1] at h
    by_cases h2 : k = "limit".toList
    · have n2 : k ≠ "offset".toList := by rw [h2]; decide
      rw [if_pos h2, Prod.mk.injEq, Except.ok.injEq] at h
      rw [if_pos h2, if_neg n2, ← h.1]
      exact ⟨rfl, rfl⟩
    · rw [if_neg h2] at h
      by_cases h3 : k = "offset".toList
      · rw [if_pos h3, Prod.mk.injEq, Except.ok.injEq] at h
        rw [if_neg h2, if_pos h3, ← h.1]
        exact ⟨rfl, rfl⟩
      · rw [if_neg h3] at h
        rw [if_neg h2, if_neg h3]
        by_cases h4 : k = "order_by".toList
        · rw [if_pos h4] at h
          cases ho : orderBy v st.cat with
          | error e => simp [ho] at h
          | ok order =>
            simp only [ho, Prod.mk.injEq, Except.ok.injEq] at h
            rw [← h.1]
            exact ⟨rfl, rfl⟩
        · rw [if_neg h4] at h
          by_cases h5 : k = "exclusive".toList
          · rw [if_pos h5, Prod.mk.injEq, Except.ok.injEq] at h
            rw [← h.1]
            exact ⟨rfl, rfl⟩
          · rw [if_neg h5, Prod.mk.injEq, Except.ok.injEq] at h
            rw [← h.1]
            exact ⟨rfl, rfl⟩

theorem getParam_none (name : Str) (query : List (Str × Str))
    (h : name ∉ query.map Prod.fst) : getParam name query = none := by
  induction query with
  | nil => rfl
  | cons p rest ih =>
    obtain ⟨k, v⟩ := p
    simp only [List.map, List.mem_cons, not_or] at h
    simp only [getParam]
    rw [if_neg (fun e => h.1 e.symm)]
    exact ih h.2

theorem dequerylizeLoop_paging_absent (query : List (Str × Str)) :
    ∀ (st st1 : DState) (c : List Field), dequerylizeLoop query st = (.ok st1, c) →
      (getParam "limit".toList query = none → st1.limit = st.limit) ∧
      (getParam "offset".toList query = none → st1.offset = st.offset) := by
  induction query with
  | nil =>
    intro st st1 c h
    simp only [dequerylizeLoop, Prod.mk.injEq, Except.ok.injEq] at h
    rw [← h.1]
    exact ⟨fun _ => rfl, fun _ => rfl⟩
  | cons p rest ih =>
    intro st st1 c h
    obtain ⟨k, v⟩ := p
    simp only [dequerylizeLoop] at h
    cases hs : dequerylizeStep st k v with
    | mk r c1 =>
      cases r with
      | error e => simp [hs] at h
      | ok st2 =>
        simp only [hs] at h
        obtain ⟨p1, p2⟩ := dequerylizeStep_paging st st2 k v c1 hs
        obtain ⟨i1, i2⟩ := ih st2 st1 c h
        refine ⟨?_, ?_⟩
        · intro hnone
          simp only [getParam] at hnone
          by_cases hk : k = "limit".toList
          · simp [hk] at hnone
          · rw [if_neg hk] at hnone p1
            rw [i1 hnone, p1]
        · intro hnone
          simp only [getParam] at hnone
          by_cases hk : k = "offset".toList
          · simp [hk] at hnone
          · rw [if_neg hk] at hnone p2
            rw [i2 hnone, p2]

theorem dequerylizeLoop_paging_present (query : List (Str × Str)) :
    ∀ (st st1 : DState) (c : List Field), (query.map Prod.fst).Nodup →
      dequerylizeLoop query st = (.ok st1, c) →
      (∀ v, getParam "limit".toList query = some v → st1.limit = parseIntOrUndefined v) ∧
      (∀ v, getParam "offset".toList query = some v → st1.offset = parseIntOrUndefined v) := by
  induction query with
  | nil =>
    intro st st1 c _ _
    exact ⟨fun v hv => by simp [getParam] at hv, fun v hv => by simp [getParam] at hv⟩
  | cons p rest ih =>
    intro st st1 c hnd h
    obtain ⟨k, w⟩ := p
    simp only [List.map, List.nodup_cons] at hnd
    simp only [dequerylizeLoop] at h
    cases hs : dequerylizeStep st k w with
    | mk r c1 =>
      cases r with
      | error e => simp [hs] at h
      | ok st2 =>
        simp only [hs] at h
        obtain ⟨p1, p2⟩ := dequerylizeStep_paging st st2 k w c1 hs
        obtain ⟨a1, a2⟩ := dequerylizeLoop_paging_absent rest st2 st1 c h
        obtain ⟨i1, i2⟩ := ih st2 st1 c hnd.2 h
        refine ⟨?_, ?_⟩
        · intro v hv
          simp only [getParam] at hv
          by_cases hk : k = "limit".toList
          · rw [if_pos hk, Option.some.injEq] at hv
            rw [if_pos hk] at p1
            rw [a1 (getParam_none _ _ (by rw [← hk]; exact hnd.1)), p1, hv]
          · rw [if_neg hk] at hv
            exact i1 v hv
        · intro v hv
          simp only [getParam] at hv
          by_cases hk : k = "offset".toList
          · rw [if_pos hk, Option.some.injEq] at hv
            rw [if_pos hk] at p2
            rw [a2 (getParam_none _ _ (by rw [← hk]; exact hnd.1)), p2, hv]
          · rw [if_neg hk] at hv
            exact i2 v hv

theorem dequerylize_out (query : List (Str × Str)) (cat : List Field) (out : DqOut)
    (h : (dequerylize query cat).out = .ok out) :
    ∃ (st : DState) (c : List Field),
      dequerylizeLoop query (dequerylizeInit query cat) = (.ok st, c) ∧
      out.limit = st.limit ∧ out.offset = st.offset ∧ out.expand = st.expand ∧
        out.order = st.order := by
  unfold dequerylize at h
  cases hl : dequerylizeLoop query (dequerylizeInit query cat) with
  | mk r c =>
    cases r with
    | error e => simp [hl] at h
    | ok st =>
      simp only [hl] at h
      cases hg : genSequelizeQuery query c st.exclusive with
      | error e => simp [hg] at h
      | ok w =>
        simp only [hg, Except.ok.injEq] at h
        refine ⟨st, c, rfl, ?_⟩
        rw [← h]
        exact ⟨rfl, rfl, rfl, rfl⟩

theorem dequerylizeLoop_paging_only (query : List (Str × Str))
    (hq : ∀ p ∈ query, p.1 = "limit".toList ∨ p.1 = "offset".toList) :
    ∀ st : DState, ∃ st1, dequerylizeLoop query st = (.ok st1, st.cat) ∧
      st1.exclusive = st.exclusive ∧ st1.cat = st.cat := by
  induction query with
  | nil => intro st; exact ⟨st, rfl, rfl, rfl⟩
  | cons p rest ih =>
    intro st
    obtain ⟨k, v⟩ := p
    have ih1 := ih (fun x hx => hq x (by simp [hx]))
    rcases hq (k, v) (by simp) with hk | hk
    · simp only at hk
      obtain ⟨st1, e1, e2, e3⟩ := ih1 { st with limit := parseIntOrUndefined v }
      refine ⟨st1, ?_, e2, e3⟩
      have hstep : dequerylizeStep st k v
          = (.ok { st with limit := parseIntOrUndefined v }, st.cat) := by
        rw [hk]; rfl
      simp only [dequerylizeLoop, hstep]
      exact e1
    · simp only at hk
      obtain ⟨st1, e1, e2, e3⟩ := ih1 { st with offset := parseIntOrUndefined v }
      refine ⟨st1, ?_, e2, e3⟩
      have hstep : dequerylizeStep st k v
          = (.ok { st with offset := parseIntOrUndefined v }, st.cat) := by
        rw [hk]; rfl
      simp only [dequerylizeLoop, hstep]
      exact e1

theorem columnsOf_paging_only (query : List (Str × Str))
    (hq : ∀ p ∈ query, p.1 = "limit".toList ∨ p.1 = "offset".toList) :
    columnsOf query = [] := by
  unfold columnsOf
  rw [List.filter_eq_nil_iff]
  intro p hp
  rcases hq p hp with hk | hk <;> rw [hk] <;> decide

theorem dequerylize_paging_only (query : List (Str × Str)) (cat : List Field)
    (hq : ∀ p ∈ query, p.1 = "limit".toList ∨ p.1 = "offset".toList) :
    ∃ out, (dequerylize query cat).out = .ok out := by
  obtain ⟨st1, e1, e2, _⟩ := dequerylizeLoop_paging_only query hq (dequerylizeInit query cat)
  have hex : st1.exclusive = false := e2
  have hcols := columnsOf_paging_only query hq
  have hg : genSequelizeQuery query cat false = .ok (.and []) := by
    simp [genSequelizeQuery, powerMode, hcols, queryLoop, QState.init, likeConditions]
  have hcat : (dequerylizeInit query cat).cat = cat := rfl
  rw [hcat] at e1
  unfold dequerylize
  simp only [e1, hex, hg]
  exact ⟨_, rfl⟩

/-! ## The catalog: reads after writes -/

theorem Catalog.getProp_cons_self {α : Type} (k : Str) (a : α) (ps : List (Str × α)) :
    Catalog.getProp ((k, a) :: ps) k = .own a := by
  simp [Catalog.getProp, List.find?]

theorem Catalog.getProp_cons_ne {α : Type} (k k1 : Str) (a : α) (ps : List (Str × α))
    (h : k1 ≠ k) : Catalog.getProp ((k1, a) :: ps) k = Catalog.getProp ps k := by
  simp [Catalog.getProp, List.find?, h]

theorem Catalog.any_key_cons {α : Type} (k k1 : Str) (a1 : α) (ps : List (Str × α)) :
    ((k1, a1) :: ps).any (fun p => decide (p.1 = k)) =
      (decide (k1 = k) || ps.any (fun p => decide (p.1 = k))) := rfl

theorem Catalog.getProp_replaceOwn {α : Type} (k : Str) (a : α) (o : List (Str × α))
    (h : o.any (fun p => p.1 = k) = true) :
    Catalog.getProp (Catalog.replaceOwn k a o) k = .own a := by
  induction o with
  | nil => cases h
  | cons p ps ih =>
    obtain ⟨k1, a1⟩ := p
    by_cases hk : k1 = k
    · subst hk
      simp only [Catalog.replaceOwn, if_true]
      exact Catalog.getProp_cons_self _ _ _
    · simp only [Catalog.replaceOwn, if_neg hk]
      rw [Catalog.getProp_cons_ne _ _ _ _ hk]
      apply ih
      rw [Catalog.any_key_cons, decide_eq_false hk, Bool.false_or] at h
      exact h

theorem Catalog.getProp_append_new {α : Type} (k : Str) (a : α) (o : List (Str × α))
    (h : o.any (fun p => p.1 = k) = false) :
    Catalog.getProp (o ++ [(k, a)]) k = .own a := by
  induction o with
  | nil => exact Catalog.getProp_cons_self _ _ _
  | cons p ps ih =>
    obtain ⟨k1, a1⟩ := p
    rw [Catalog.any_key_cons] at h
    have hk : k1 ≠ k := by
      intro e
      rw [decide_eq_true e, Bool.true_or] at h
      cases h
    rw [decide_eq_false hk, Bool.false_or] at h
    show Catalog.getProp ((k1, a1) :: (ps ++ [(k, a)])) k = .own a
    rw [Catalog.getProp_cons_ne _ _ _ _ hk]
    exact ih h

/-- A property that was written is read back, `__proto__` apart. -/
theorem Catalog.getProp_putProp {α : Type} (k : Str) (a : α) (o : List (Str × α))
    (hk : k ≠ "__proto__".toList) :
    Catalog.getProp (Catalog.putProp o k a) k = .own a := by
  unfold Catalog.putProp
  rw [if_neg hk]
  by_cases h : o.any (fun p => p.1 = k) = true
  · rw [if_pos h]
    exact Catalog.getProp_replaceOwn k a o h
  · rw [if_neg h]
    exact Catalog.getProp_append_new k a o (Bool.eq_false_iff.2 h)

theorem Catalog.getProp_own_any {α : Type} (k : Str) (c : α) (o : List (Str × α))
    (h : Catalog.getProp o k = .own c) : o.any (fun p => p.1 = k) = true := by
  induction o with
  | nil =>
    unfold Catalog.getProp at h
    simp only [List.find?] at h
    split at h <;> cases h
  | cons p ps ih =>
    obtain ⟨k1, a1⟩ := p
    rw [Catalog.any_key_cons]
    by_cases hk : k1 = k
    · rw [decide_eq_true hk, Bool.true_or]
    · rw [Catalog.getProp_cons_ne _ _ _ _ hk] at h
      rw [ih h, Bool.or_true]

theorem Catalog.getModels_own (reg : Catalog.Registry) (id : Str) (c : Catalog.Connection)
    (h : (Catalog.getConnection reg id).1 = .own c) :
    (Catalog.getModels reg id).1 = .ok (some c.Models) := by
  unfold Catalog.getModels
  simp only []
  rw [h]

theorem Catalog.getModels_undefined (reg : Catalog.Registry) (id : Str)
    (h : (Catalog.getConnection reg id).1 = .undefined) :
    (Catalog.getModels reg id).1 = .error .typeError := by
  unfold Catalog.getModels
  simp only []
  rw [h]

/-- Lines 80-86 on a connection that exists: the model is written into the
`Models` of that connection and `getModels` of the returned id maps the
name of the model to it. -/
theorem Catalog.registerModel_existing (reg : Catalog.Registry) (fresh id : Str)
    (model : Catalog.Model) (conn : Option Nat) (c : Catalog.Connection)
    (hid : id ≠ []) (hname : model.name ≠ "__proto__".toList)
    (hc : (Catalog.getConnection reg id).1 = .own c) :
    (Catalog.registerModel reg fresh model (some id) conn).1 = .ok id ∧
    ∃ ms, (Catalog.getModels (Catalog.registerModel reg fresh model (some id) conn).2 id).1
        = .ok (some ms) ∧
      Catalog.getProp ms model.name = .own model := by
  have hcond : ((some id).isSome && (some id) != some []) = true := by
    cases id with
    | nil => exact absurd rfl hid
    | cons x xs => rfl
  have hc1 : Catalog.getProp (reg.connections.getD []) id = .own c := hc
  have hany := Catalog.getProp_own_any _ _ _ hc1
  have hreg : Catalog.registerModel reg fresh model (some id) conn =
      (.ok id, ⟨some (Catalog.replaceOwn id
        { c with Models := Catalog.putProp c.Models model.name model }
        (reg.connections.getD []))⟩) := by
    unfold Catalog.registerModel
    rw [if_pos hcond]
    show (match (Catalog.getProp (reg.connections.getD []) id) with
      | .own c => _
      | .inherited _ => _
      | .undefined => _) = _
    rw [hc1]
    rfl
  rw [hreg]
  refine ⟨rfl, Catalog.putProp c.Models model.name model, ?_,
    Catalog.getProp_putProp _ _ _ hname⟩
  have hget : (Catalog.getConnection ⟨some (Catalog.replaceOwn id
      { c with Models := Catalog.putProp c.Models model.name model }
      (reg.connections.getD []))⟩ id).1 =
      .own { c with Models := Catalog.putProp c.Models model.name model } :=
    Catalog.getProp_replaceOwn _ _ _ hany
  exact Catalog.getModels_own _ _ _ hget

/-- On the registry with the connection `main`, `registerModel` with the id
`main` registers the model `User`. -/
theorem Catalog.registerModel_existing_main :
    (Catalog.registerModel Catalog.oneConnection "f81d4fae".toList Catalog.userModel
        (some "main".toList) (some 0)).1 = .ok "main".toList ∧
      (Catalog.getModels (Catalog.registerModel Catalog.oneConnection "f81d4fae".toList
        Catalog.userModel (some "main".toList) (some 0)).2 "main".toList).1
        = .ok (some [("User".toList, Catalog.userModel)]) :=
  ⟨rfl, rfl⟩

/-! ## Keys without a group tag -/

theorem queryLoop_append (fields : List Field) (pm : Bool) (a b : List (Str × Str)) :
    ∀ st, queryLoop fields pm (a ++ b) st =
      match queryLoop fields pm a st with
      | .error e => .error e
      | .ok s => queryLoop fields pm b s := by
  induction a with
  | nil => intro st; rfl
  | cons p a ih =>
    intro st
    obtain ⟨c, v⟩ := p
    simp only [List.cons_append, queryLoop]
    cases queryStep fields pm st c v with
    | error e => rfl
    | ok s1 => exact ih s1

/-- A parameter whose step leaves the accumulators as they are can be taken
out of the columns. -/
theorem queryLoop_skip (fields : List Field) (pm : Bool) (a b : List (Str × Str)) (k v : Str)
    (hstep : ∀ s, queryStep fields pm s k v = .ok s) (st : QState) :
    queryLoop fields pm (a ++ (k, v) :: b) st = queryLoop fields pm (a ++ b) st := by
  rw [queryLoop_append, queryLoop_append]
  cases queryLoop fields pm a st with
  | error e => rfl
  | ok s =>
    simp only [queryLoop]
    rw [hstep s]

/-- Lines 355-377 on a condition that is neither `and` nor `or`, the field
being neither numeric nor temporal: nothing is pushed, whatever `opMap[op]`
is. -/
theorem queryStep_untagged (fields : List Field) (st : QState) (k v : Str)
    (hf : plainAs (deconstruct k).column fields = true)
    (h1 : (deconstruct k).condition ≠ some "and".toList)
    (h2 : (deconstruct k).condition ≠ some "or".toList) :
    queryStep fields true st k v = .ok st := by
  obtain ⟨f, hf, hp⟩ := plainAs_some _ _ hf
  obtain ⟨hn, hm⟩ := plain_lists f hp
  unfold queryStep
  simp only [hf, coerce_plain _ _ hn hm, opMap_plain _ _ _ _ hn, if_true]
  unfold groupStep
  rw [if_neg h1, if_neg h2]

theorem coerce_numeric (raw dataType : Str) (hn : numerics.contains dataType = true) :
    ∃ v, coerce raw dataType = .ok v := by
  unfold coerce
  rw [hn]
  cases literalValue raw <;>
    first
    | exact ⟨_, rfl⟩
    | (simp only [if_true]; split_ifs <;> exact ⟨_, rfl⟩)

theorem coerce_temporal (raw dataType : Str) (hn : numerics.contains dataType = false)
    (hm : momentables.contains dataType = true) (hnull : raw ≠ "null".toList) :
    coerce raw dataType = .error .referenceError := by
  have hl : literalValue raw ≠ .null := by
    unfold literalValue
    split_ifs <;> simp
  unfold coerce
  rw [hn, hm]
  cases hv : literalValue raw <;> first | rfl | exact absurd hv hl

/-- Lines 301-353 in grouped mode, on a numeric field or on a temporal field
with a value other than `null`: the literal of `opMap` is built for every
column, before the tag is looked at, and its entry `contains` evaluates
`Sequelize`; the coercion of a temporal value evaluates `moment`. Either way
a `ReferenceError`. -/
theorem queryStep_unbound (fields : List Field) (st : QState) (k v : Str) (f : Field)
    (hf : findAs (deconstruct k).column fields = some f)
    (hu : f.unbound v = true) :
    queryStep fields true st k v = .error .referenceError := by
  unfold queryStep
  simp only [hf]
  cases hn : numerics.contains f.dataType with
  | true =>
    obtain ⟨x, hx⟩ := coerce_numeric v f.dataType hn
    simp only [hx, opMap_numeric _ _ _ _ hn, if_true]
  | false =>
    unfold Field.unbound at hu
    rw [hn, Bool.false_or, Bool.and_eq_true] at hu
    have hnull : v ≠ "null".toList := by
      have := hu.2
      simpa using this
    rw [coerce_temporal v _ hn hu.1 hnull]

theorem queryLoop_append_ok (fields : List Field) (pm : Bool) (a b : List (Str × Str))
    (st s2 : QState) (h : queryLoop fields pm (a ++ b) st = .ok s2) :
    ∃ s1, queryLoop fields pm a st = .ok s1 ∧ queryLoop fields pm b s1 = .ok s2 := by
  rw [queryLoop_append] at h
  cases ha : queryLoop fields pm a st with
  | error e => rw [ha] at h; cases h
  | ok s1 => rw [ha] at h; exact ⟨s1, rfl, h⟩

theorem columnsOf_append (a b : List (Str × Str)) :
    columnsOf (a ++ b) = columnsOf a ++ columnsOf b := by
  unfold columnsOf
  exact List.filter_append _ _

theorem columnsOf_cons_banned (p : Str × Str) (b : List (Str × Str))
    (h : banned.contains p.1 = true) : columnsOf (p :: b) = columnsOf b := by
  unfold columnsOf
  rw [List.filter_cons]
  rw [if_neg]
  rw [h]
  decide

theorem columnsOf_cons_free (p : Str × Str) (b : List (Str × Str))
    (h : banned.contains p.1 = false) : columnsOf (p :: b) = p :: columnsOf b := by
  unfold columnsOf
  rw [List.filter_cons]
  rw [if_pos]
  rw [h]
  rfl

theorem powerMode_insert (q1 q2 : List (Str × Str)) (p : Str × Str)
    (h : powerMode (q1 ++ q2) = true) : powerMode (q1 ++ p :: q2) = true := by
  unfold powerMode at *
  rw [columnsOf_append, List.any_append] at *
  cases hb : banned.contains p.1 with
  | true => rw [columnsOf_cons_banned p q2 hb]; exact h
  | false =>
    rw [columnsOf_cons_free p q2 hb]
    cases h1 : (columnsOf q1).any (fun p => p.1.contains '(') with
    | true => rfl
    | false =>
      rw [h1] at h
      have h2 : (columnsOf q2).any (fun p => p.1.contains '(') = true := by simpa using h
      show (false || (p.1.contains '(' || (columnsOf q2).any (fun p => p.1.contains '('))) = true
      rw [h2, Bool.or_true]
      rfl

/-- The filter does not change when a parameter without a group tag `and` /
`or`, whose alias resolves to a field neither numeric nor temporal, is added
to a map in grouped mode. -/
theorem genSequelizeQuery_untagged (fields : List Field) (q1 q2 : List (Str × Str))
    (k v : Str) (exclusive : Bool)
    (hf : plainAs (deconstruct k).column fields = true)
    (h1 : (deconstruct k).condition ≠ some "and".toList)
    (h2 : (deconstruct k).condition ≠ some "or".toList)
    (hpm : powerMode (q1 ++ q2) = true) :
    genSequelizeQuery (q1 ++ (k, v) :: q2) fields exclusive
      = genSequelizeQuery (q1 ++ q2) fields exclusive := by
  unfold genSequelizeQuery
  rw [powerMode_insert q1 q2 (k, v) hpm, hpm, columnsOf_append, columnsOf_append]
  cases hb : banned.contains k with
  | true => rw [columnsOf_cons_banned (k, v) q2 hb]
  | false =>
    rw [columnsOf_cons_free (k, v) q2 hb,
      queryLoop_skip fields true _ _ k v (fun s => queryStep_untagged fields s k v hf h1 h2)]

/-- A parameter on a numeric field (or on a temporal field, with a value other
than `null`), whatever its tag, makes a map in grouped mode throw a
`ReferenceError` when the map without it returns. -/
theorem genSequelizeQuery_unbound (fields : List Field) (q1 q2 : List (Str × Str))
    (k v : Str) (exclusive : Bool) (f : Field) (n : Node)
    (hb : banned.contains k = false)
    (hf : findAs (deconstruct k).column fields = some f)
    (hn : f.unbound v = true)
    (hpm : powerMode (q1 ++ q2) = true)
    (hret : genSequelizeQuery (q1 ++ q2) fields exclusive = .ok n) :
    genSequelizeQuery (q1 ++ (k, v) :: q2) fields exclusive = .error .referenceError := by
  unfold genSequelizeQuery at hret ⊢
  rw [hpm, columnsOf_append] at hret
  rw [powerMode_insert q1 q2 (k, v) hpm, columnsOf_append, columnsOf_cons_free (k, v) q2 hb]
  cases hl : queryLoop fields true (columnsOf q1 ++ columnsOf q2) QState.init with
  | error e => rw [hl] at hret; cases hret
  | ok s2 =>
    obtain ⟨s1, ha, _⟩ := queryLoop_append_ok _ _ _ _ _ _ hl
    rw [queryLoop_append, ha]
    simp only [queryLoop]
    rw [queryStep_unbound fields s1 k v f hf hn]

theorem deconstruct_plain (k : Str) (h : '(' ∉ k) : deconstruct k = ⟨k, none, none⟩ := by
  unfold deconstruct
  rw [splitOn_of_not_mem _ _ h]

theorem splitOn_head (sep c : Char) (a r : Str) (h : sep ∉ a) (hc : c ≠ sep) :
    ∃ b bs, splitOn sep (a ++ c :: r) = (a ++ c :: b) :: bs := by
  induction a with
  | nil =>
    show ∃ b bs, splitOn sep (c :: r) = (c :: b) :: bs
    unfold splitOn
    rw [if_neg hc]
    cases hs : splitOn sep r with
    | nil => exact absurd hs (splitOn_ne_nil sep r)
    | cons p ps => exact ⟨p, ps, rfl⟩
  | cons x a ih =>
    have hx : x ≠ sep := fun e => h (by simp [e])
    have ha : sep ∉ a := fun e => h (by simp [e])
    obtain ⟨b, bs, hb⟩ := ih ha
    refine ⟨b, bs, ?_⟩
    show splitOn sep (x :: (a ++ c :: r)) = (x :: (a ++ c :: b)) :: bs
    unfold splitOn
    rw [if_neg hx, hb]

theorem removeFirst_append (c d : Char) (a r : Str) (h : c ∉ a) (hd : d ≠ c) :
    removeFirst c (a ++ d :: r) = a ++ d :: removeFirst c r := by
  induction a with
  | nil =>
    show (if d = c then r else d :: removeFirst c r) = d :: removeFirst c r
    rw [if_neg hd]
  | cons x a ih =>
    have hx : x ≠ c := fun e => h (by simp [e])
    have ha : c ∉ a := fun e => h (by simp [e])
    show (if x = c then a ++ d :: r else x :: removeFirst c (a ++ d :: r))
      = x :: (a ++ d :: removeFirst c r)
    rw [if_neg hx, ih ha]

/-- Lines 285-287 on `alias(g,rest`: the column is the alias and the
condition is `g`, the alias having no `(` and `g` none of `,` `(` `)`. -/
theorem deconstruct_tagged (al g rest : Str) (h : '(' ∉ al)
    (hg1 : ',' ∉ g) (hg2 : '(' ∉ g) (hg3 : ')' ∉ g) :
    (deconstruct (al ++ '(' :: (g ++ ',' :: rest))).column = al ∧
    (deconstruct (al ++ '(' :: (g ++ ',' :: rest))).condition = some g := by
  rw [deconstruct_append _ _ h]
  refine ⟨rfl, ?_⟩
  show (deconstruct ('(' :: (g ++ ',' :: rest))).condition = some g
  obtain ⟨b, bs, hb⟩ := splitOn_head '(' ',' g rest hg2 (by decide)
  have h0 : splitOn '(' ('(' :: (g ++ ',' :: rest)) = [] :: (g ++ ',' :: b) :: bs := by
    rw [← hb]
    simp [splitOn]
  unfold deconstruct
  rw [h0]
  have he : (g ++ ',' :: b).isEmpty = false := by
    cases g <;> rfl
  simp only [he]
  rw [removeFirst_append _ _ _ _ hg3 (by decide), splitOn_append _ _ _ hg1]
  rfl

theorem splitOn_mem (sep : Char) (s part : Str) (h : part ∈ splitOn sep s) :
    ∀ c ∈ part, c ∈ s := by
  induction s generalizing part with
  | nil =>
    simp only [splitOn, List.mem_singleton] at h
    subst h
    intro c hc
    cases hc
  | cons x xs ih =>
    unfold splitOn at h
    by_cases hx : x = sep
    · rw [if_pos hx] at h
      rcases List.mem_cons.1 h with rfl | h
      · intro c hc
        cases hc
      · intro c hc
        exact List.mem_cons_of_mem _ (ih part h c hc)
    · rw [if_neg hx] at h
      cases hs : splitOn sep xs with
      | nil =>
        rw [hs] at h
        simp only [List.mem_singleton] at h
        subst h
        intro c hc
        simp only [List.mem_singleton] at hc
        subst hc
        exact List.mem_cons_self _ _
      | cons p ps =>
        rw [hs] at h
        rcases List.mem_cons.1 h with rfl | h
        · intro c hc
          rcases List.mem_cons.1 hc with rfl | hc
          · exact List.mem_cons_self _ _
          · exact List.mem_cons_of_mem _ (ih p (by rw [hs]; exact List.mem_cons_self _ _) c hc)
        · intro c hc
          exact List.mem_cons_of_mem _
            (ih part (by rw [hs]; exact List.mem_cons_of_mem _ h) c hc)

/-! ## The unbound identifiers -/

theorem coerce_error (raw dataType : Str) (e : JsError) (h : coerce raw dataType = .error e) :
    e = .referenceError := by
  unfold coerce at h
  cases hl : literalValue raw <;> rw [hl] at h <;> simp only at h <;>
    first
    | cases h
    | (split_ifs at h; cases h; rfl)

theorem opMap_error (key dataType : Str) (v : Value) (op : Option Str) (e : JsError)
    (h : opMap key dataType v op = .error e) : e = .referenceError := by
  cases hn : numerics.contains dataType with
  | true =>
    rw [opMap_numeric _ _ _ _ hn] at h
    cases h
    rfl
  | false =>
    rw [opMap_plain _ _ _ _ hn] at h
    cases h

/-- A step on a column whose alias resolves returns, or throws a
`ReferenceError`. -/
theorem queryStep_resolved (fields : List Field) (pm : Bool) (st : QState) (column value : Str)
    (hf : (findAs (deconstruct column).column fields).isSome = true) :
    (∃ st1, queryStep fields pm st column value = .ok st1) ∨
      queryStep fields pm st column value = .error .referenceError := by
  obtain ⟨f, hf⟩ := Option.isSome_iff_exists.1 hf
  unfold queryStep
  simp only [hf]
  cases hc : coerce value f.dataType with
  | error e =>
    rw [coerce_error _ _ _ hc]
    exact Or.inr rfl
  | ok v =>
    cases pm with
    | false => exact Or.inl ⟨_, rfl⟩
    | true =>
      simp only [if_true]
      cases ho : opMap f.key f.dataType v (deconstruct column).op with
      | error e =>
        rw [opMap_error _ _ _ _ _ ho]
        exact Or.inr rfl
      | ok entry => exact Or.inl ⟨_, rfl⟩

/-- In grouped mode the loop throws a `ReferenceError` when every alias
resolves and one of them resolves to a numeric field, or to a temporal field
with a value other than `null`. -/
theorem queryLoop_reference (fields : List Field) (cols : List (Str × Str))
    (hres : ∀ p ∈ cols, (findAs (deconstruct p.1).column fields).isSome = true)
    (hnum : ∃ p ∈ cols, ∃ f, findAs (deconstruct p.1).column fields = some f ∧
      f.unbound p.2 = true) :
    ∀ st, queryLoop fields true cols st = .error .referenceError := by
  induction cols with
  | nil => obtain ⟨p, hp, _⟩ := hnum; cases hp
  | cons c cs ih =>
    intro st
    obtain ⟨column, value⟩ := c
    simp only [queryLoop]
    rcases queryStep_resolved fields true st column value
      (hres (column, value) (List.mem_cons_self _ _)) with ⟨st1, hs⟩ | hs
    · rw [hs]
      simp only
      apply ih (fun p hp => hres p (List.mem_cons_of_mem _ hp))
      obtain ⟨p, hp, f, hf, hn⟩ := hnum
      rcases List.mem_cons.1 hp with rfl | hp
      · rw [queryStep_unbound fields st _ _ f hf hn] at hs
        cases hs
      · exact ⟨p, hp, f, hf, hn⟩
    · rw [hs]

/-- Grouped terms whose aliases all resolve, one of them to a numeric field
or to a temporal field with a value other than `null`: `genSequelizeQuery`
throws a `ReferenceError`. -/
theorem genSequelizeQuery_terms_unbound (fields : List Field) (terms : List Term)
    (exclusive : Bool)
    (hres : ∀ t ∈ terms, '(' ∉ t.al ∧ t.op ∈ validOps ∧ (findAs t.al fields).isSome = true)
    (hnum : ∃ t ∈ terms, ∃ f, findAs t.al fields = some f ∧ f.unbound t.value = true) :
    genSequelizeQuery (terms.map Term.param) fields exclusive = .error .referenceError := by
  have hne : terms ≠ [] := by
    obtain ⟨t, ht, _⟩ := hnum
    intro e
    rw [e] at ht
    cases ht
  have hcol : ∀ t ∈ terms, (deconstruct t.key).column = t.al := by
    intro t ht
    rw [deconstruct_key t (hres t ht).1 (hres t ht).2.1]
  unfold genSequelizeQuery
  rw [powerMode_of_terms terms hne, columns_of_terms]
  rw [queryLoop_reference fields (terms.map Term.param) ?_ ?_ QState.init]
  · intro p hp
    obtain ⟨t, ht, rfl⟩ := List.mem_map.1 hp
    show (findAs (deconstruct t.key).column fields).isSome = true
    rw [hcol t ht]
    exact (hres t ht).2.2
  · obtain ⟨t, ht, f, hf, hn⟩ := hnum
    refine ⟨t.param, List.mem_map_of_mem _ ht, f, ?_, hn⟩
    show findAs (deconstruct t.key).column fields = some f
    rw [hcol t ht]
    exact hf

/-! ## Evaluations of the coercion -/

theorem parseInt_evaluations :
    parseInt "12abc".toList = .num 12 ∧ parseInt " -5".toList = .num (-5) ∧
      parseInt "+7".toList = .num 7 ∧ parseInt "3.7".toList = .num 3 ∧
      parseInt "007".toList = .num 7 ∧ parseInt "abc".toList = .nan ∧
      parseInt "- 5".toList = .nan ∧ parseInt [] = .nan ∧ parseInt "true".toList = .nan ∧
      parseInt "9007199254740992".toList = .num 9007199254740992 ∧
      parseInt "-9007199254740993".toList = .float "-9007199254740993".toList :=
  ⟨rfl, rfl, rfl, rfl, rfl, rfl, rfl, rfl, rfl, rfl, rfl⟩

theorem parseFloat_evaluations :
    parseFloat "3.5".toList = .float "3.5".toList ∧
      parseFloat " -2e3x".toList = .float "-2e3".toList ∧
      parseFloat ".5".toList = .float ".5".toList ∧
      parseFloat "1e".toList = .float "1".toList ∧
      parseFloat "+Infinity".toList = .float "+Infinity".toList ∧
      parseFloat "abc".toList = .nan ∧ parseFloat "true".toList = .nan ∧
      parseFloat ".".toList = .nan :=
  ⟨rfl, rfl, rfl, rfl, rfl, rfl, rfl, rfl⟩

theorem coerce_evaluations :
    coerce "18".toList "integer".toList = .ok (.num 18) ∧
      coerce "3.5".toList "float".toList = .ok (.float "3.5".toList) ∧
      coerce "null".toList "integer".toList = .ok .null ∧
      coerce "null".toList "date".toList = .ok .null ∧
      coerce "01/02/2020".toList "date".toList = .error .referenceError ∧
      coerce "false".toList "dateonly".toList = .error .referenceError ∧
      coerce "false".toList "string".toList = .ok (.bool false) ∧
      coerce "bob".toList "string".toList = .ok (.str "bob".toList) :=
  ⟨rfl, rfl, rfl, rfl, rfl, rfl, rfl, rfl⟩

/-- In simple mode a numeric field is compared only with `exclusive`: without
it lines 421-422 evaluate `Sequelize`. -/
theorem simple_mode_evaluations :
    genSequelizeQuery (params [("age", "5")]) people true
        = .ok (.obj [("age_col".toList, .num 5)]) ∧
      genSequelizeQuery (params [("age", "5")]) people false = .error .referenceError ∧
      genSequelizeQuery (params [("age", "5"), ("zzz", "1")]) people false
        = .error .typeError ∧
      genSequelizeQuery (params [("age(or,>)", "5"), ("zzz", "1")]) people false
        = .error .referenceError ∧
      genSequelizeQuery (params [("name", "true"), ("city", "null")]) people false
        = .ok (.and [.cmp "name_col".toList (.op .like (.val (.bool true))),
                     .cmp "city_col".toList (.op .like (.val .null))]) :=
  ⟨rfl, rfl, rfl, rfl, rfl⟩

/-! # The claims -/

/-- C1 (what the code does): for every catalog and every map of n ≥ 1 keys
`alias(and,op)` whose aliases resolve to fields that are neither numeric nor
temporal and whose operators are in the fixed set, `genSequelizeQuery`
returns `Or([And([c1, ..., cn])])`: the `And` of the comparisons in iteration
order, wrapped in an `Or` node with that one child, not the bare `And`. -/
theorem all_and_terms_wrapped (fields : List Field) (terms : List Term) (exclusive : Bool)
    (hvalid : ∀ t ∈ terms, '(' ∉ t.al ∧ t.op ∈ validOps ∧ plainAs t.al fields = true)
    (hand : ∀ t ∈ terms, t.isOr = false) (hne : terms ≠ []) :
    genSequelizeQuery (terms.map Term.param) fields exclusive
      = .ok (.or [.and (terms.map (comparison fields))]) :=
  genSequelizeQuery_all_and fields terms exclusive hvalid hand hne

/-- C1 on two string fields: `name(and,eq)=bob`, `city(and,eq)=NY` gives
`Or([And([name == "bob", city == "NY"])])`. -/
theorem all_and_terms_wrapped_witness :
    genSequelizeQuery (params [("name(and,eq)", "bob"), ("city(and,eq)", "NY")]) people false
      = .ok (.or [.and [.cmp "name_col".toList (.op .eq (.val (.str "bob".toList))),
                        .cmp "city_col".toList (.op .eq (.val (.str "NY".toList)))]]) :=
  all_and_terms_wrapped people
    [⟨"name".toList, false, "eq".toList, "bob".toList⟩,
     ⟨"city".toList, false, "eq".toList, "NY".toList⟩] false
    (by decide) (by decide) (by simp)

/-- C2 (what the code does): for every sequence of tagged terms (valid
operators, resolving aliases) with at least one or-tagged term: when the
fields are neither numeric nor temporal, `genSequelizeQuery` returns `Or(L)`
where `L` has one entry per block in order, a new block starting at every
or-tagged term: the block's comparison when it has one term, the `And` of its
comparisons when it has two or more; when one of the fields is numeric (or
temporal, with a value other than `null`), it throws a `ReferenceError` and
returns no filter. -/
theorem grouped_or_blocks (fields : List Field) (terms : List Term) (exclusive : Bool)
    (hres : ∀ t ∈ terms, '(' ∉ t.al ∧ t.op ∈ validOps ∧ (findAs t.al fields).isSome = true)
    (hor : ∃ t ∈ terms, t.isOr = true) :
    ((∀ t ∈ terms, plainAs t.al fields = true) →
      genSequelizeQuery (terms.map Term.param) fields exclusive
        = .ok (.or ((splitBlocks terms).map (blockNode fields)))) ∧
    ((∃ t ∈ terms, ∃ f, findAs t.al fields = some f ∧ f.unbound t.value = true) →
      genSequelizeQuery (terms.map Term.param) fields exclusive
        = .error .referenceError) :=
  ⟨fun hp => genSequelizeQuery_blocks fields terms exclusive
      (fun t ht => ⟨(hres t ht).1, (hres t ht).2.1, hp t ht⟩) hor,
    fun hnum => genSequelizeQuery_terms_unbound fields terms exclusive hres hnum⟩

/-- C2 on two string fields, `name(or,eq)=bob`, `city(or,eq)=NY`, which gives
`Or([name == "bob", city == "NY"])`, and at the input of the specification,
`age(or,>)=18`, `age(or,<)=5` on the integer field `age`, which throws. -/
theorem grouped_or_blocks_witness :
    genSequelizeQuery (params [("name(or,eq)", "bob"), ("city(or,eq)", "NY")]) people false
        = .ok (.or [.cmp "name_col".toList (.op .eq (.val (.str "bob".toList))),
                    .cmp "city_col".toList (.op .eq (.val (.str "NY".toList)))]) ∧
      genSequelizeQuery (params [("age(or,>)", "18"), ("age(or,<)", "5")]) people false
        = .error .referenceError :=
  ⟨(grouped_or_blocks people
      [⟨"name".toList, true, "eq".toList, "bob".toList⟩,
       ⟨"city".toList, true, "eq".toList, "NY".toList⟩] false
      (by decide) ⟨⟨"name".toList, true, "eq".toList, "bob".toList⟩, by simp, rfl⟩).1
      (by decide),
    (grouped_or_blocks people
      [⟨"age".toList, true, ">".toList, "18".toList⟩,
       ⟨"age".toList, true, "<".toList, "5".toList⟩] false
      (by decide) ⟨⟨"age".toList, true, ">".toList, "18".toList⟩, by simp, rfl⟩).2
      ⟨⟨"age".toList, true, ">".toList, "18".toList⟩, by simp,
        leafField "age_col" "age" "integer", rfl, rfl⟩⟩

/-- C3 fails as stated, in both modes. Simple mode: for the empty parameter
map `genSequelizeQuery` returns an `And` node with no child, and for the
one-key map `name=bob` an `And` node with exactly one child. Grouped mode:
for the one-key map `name(or,eq)=bob` it returns an `Or` node with exactly
one child, and for `name(and,eq)=bob`, `city(and,eq)=NY` an `Or` node whose
only child is the `And` of the two comparisons. -/
theorem group_invariant_counterexample :
    (genSequelizeQuery [] people false = .ok (.and []) ∧
      (Node.and []).groupsAtLeast 1 = false) ∧
    (genSequelizeQuery (params [("name", "bob")]) people false
        = .ok (.and [.cmp "name_col".toList (.op .like (.val (.str "bob".toList)))]) ∧
      (Node.and [.cmp "name_col".toList (.op .like (.val (.str "bob".toList)))]).groupsAtLeast 2
        = false) ∧
    (genSequelizeQuery (params [("name(or,eq)", "bob")]) people false
        = .ok (.or [.cmp "name_col".toList (.op .eq (.val (.str "bob".toList)))]) ∧
      (Node.or [.cmp "name_col".toList (.op .eq (.val (.str "bob".toList)))]).groupsAtLeast 2
        = false) ∧
    (genSequelizeQuery (params [("name(and,eq)", "bob"), ("city(and,eq)", "NY")]) people false
        = .ok (.or [.and [.cmp "name_col".toList (.op .eq (.val (.str "bob".toList))),
                          .cmp "city_col".toList (.op .eq (.val (.str "NY".toList)))]]) ∧
      (Node.or [.and [.cmp "name_col".toList (.op .eq (.val (.str "bob".toList))),
                      .cmp "city_col".toList (.op .eq (.val (.str "NY".toList)))]]).groupsAtLeast 2
        = false) :=
  ⟨⟨rfl, rfl⟩, ⟨rfl, rfl⟩, ⟨rfl, rfl⟩, ⟨rfl, rfl⟩⟩

/-- C3 as amended: whenever `genSequelizeQuery` returns a filter, in grouped
mode every `And` node and every `Or` node of it has at least one child; in
simple mode without `exclusive` the filter is one `And` node over conditions
that are no groups, at most one per column (none for the empty map); in simple
mode with `exclusive` it is a plain object. -/
theorem group_nodes_nonempty (query : List (Str × Str)) (fields : List Field)
    (exclusive : Bool) (n : Node) (h : genSequelizeQuery query fields exclusive = .ok n) :
    (powerMode query = true → n.groupsAtLeast 1 = true) ∧
    (powerMode query = false → exclusive = false →
      ∃ l, n = .and l ∧ l.length ≤ (columnsOf query).length ∧ (∀ c ∈ l, c.isGroup = false)) ∧
    (powerMode query = false → exclusive = true → ∃ props, n = .obj props) := by
  unfold genSequelizeQuery at h
  cases hq : queryLoop fields (powerMode query) (columnsOf query) QState.init with
  | error e => simp [hq] at h
  | ok st =>
    simp only [hq] at h
    refine ⟨?_, ?_, ?_⟩
    · intro hpm
      simp only [hpm, if_true, Except.ok.injEq] at h
      subst h
      rw [hpm] at hq
      exact groupFinish_inv st
        (queryLoop_inv fields _ QState.init st ⟨by simp [QState.init], by simp [QState.init],
          by simp [QState.init]⟩ hq)
    · intro hpm hex
      simp only [hpm, hex, Bool.false_eq_true, if_false, Bool.not_false, if_true] at h
      rw [hpm] at hq
      have hlen := queryLoop_length fields _ _ _ hq
      cases hl : likeConditions fields st.whereObj with
      | error e => simp [hl] at h
      | ok cs =>
        simp only [hl, Except.ok.injEq] at h
        obtain ⟨l1, l2⟩ := likeConditions_spec fields _ cs hl
        refine ⟨cs, h.symm, ?_, l2⟩
        rw [l1]
        simpa [QState.init] using hlen
    · intro hpm hex
      simp only [hpm, hex, Bool.false_eq_true, if_false, Bool.not_true, Except.ok.injEq] at h
      exact ⟨_, h.symm⟩

/-- C3 as amended, in the three modes: on `name(or,eq)=bob`, `city(and,eq)=NY`
(grouped) every group of the filter has a child; on `name=bob`, `city=NY`
without `exclusive` the filter is an `And` of at most two conditions, none a
group; with `exclusive` it is a plain object. -/
theorem group_nodes_nonempty_witness :
    (Node.or [.and [.cmp "name_col".toList (.op .eq (.val (.str "bob".toList))),
                    .cmp "city_col".toList (.op .eq (.val (.str "NY".toList)))]]).groupsAtLeast 1
        = true ∧
    (∃ l, Node.and [.cmp "name_col".toList (.op .like (.val (.str "bob".toList))),
                    .cmp "city_col".toList (.op .like (.val (.str "NY".toList)))] = .and l ∧
        l.length ≤ (columnsOf (params [("name", "bob"), ("city", "NY")])).length ∧
        (∀ c ∈ l, c.isGroup = false)) ∧
    (∃ props, Node.obj [("name_col".toList, .str "bob".toList),
        ("city_col".toList, .str "NY".toList)] = .obj props) :=
  ⟨(group_nodes_nonempty (params [("name(or,eq)", "bob"), ("city(and,eq)", "NY")]) people
      false _ rfl).1 rfl,
    (group_nodes_nonempty (params [("name", "bob"), ("city", "NY")]) people
      false _ rfl).2.1 rfl rfl,
    (group_nodes_nonempty (params [("name", "bob"), ("city", "NY")]) people
      true _ rfl).2.2 rfl rfl⟩

/-- C4 (what the code does): in grouped mode, for keys `alias(group,op)` with
resolving aliases and operators of the fixed set: when the fields are neither
numeric nor temporal, every key produces exactly one comparison, the one the
operator table gives (the comparisons of the returned filter, in order, are
the table comparisons of the keys, each on the storage key of its field, with
the literals `true`, `false`, `null` or the raw text as value); when one of
the fields is numeric (or temporal, with a value other than `null`),
`genSequelizeQuery` throws a `ReferenceError`, whatever the operators, and no
comparison on a column cast to text is ever built. -/
theorem operator_table_comparisons (fields : List Field) (terms : List Term)
    (exclusive : Bool)
    (hres : ∀ t ∈ terms, '(' ∉ t.al ∧ t.op ∈ validOps ∧ (findAs t.al fields).isSome = true)
    (hne : terms ≠ []) :
    ((∀ t ∈ terms, plainAs t.al fields = true) →
      ∃ n, genSequelizeQuery (terms.map Term.param) fields exclusive = .ok n ∧
        n.comparisons.map some = terms.map (specTerm fields)) ∧
    ((∃ t ∈ terms, ∃ f, findAs t.al fields = some f ∧ f.unbound t.value = true) →
      genSequelizeQuery (terms.map Term.param) fields exclusive
        = .error .referenceError) := by
  refine ⟨?_, fun hnum => genSequelizeQuery_terms_unbound fields terms exclusive hres hnum⟩
  intro hp
  have hvalid : ∀ t ∈ terms, '(' ∉ t.al ∧ t.op ∈ validOps ∧ plainAs t.al fields = true :=
    fun t ht => ⟨(hres t ht).1, (hres t ht).2.1, hp t ht⟩
  refine ⟨_, genSequelizeQuery_terms fields terms exclusive hvalid hne, ?_⟩
  have hcmp : ∀ t ∈ terms, ∃ k c, comparison fields t = .cmp k c := by
    intro t ht
    obtain ⟨f, hf, hpl⟩ := plainAs_some _ _ (hp t ht)
    obtain ⟨c, hc⟩ := comparison_cmp fields t f hf hpl (hvalid t ht).2.1
    exact ⟨_, c, hc⟩
  obtain ⟨h1, h2⟩ := fold_comparisons fields terms hcmp QState.init (Or.inl rfl)
  rw [groupFinish_comparisons _ h1, h2]
  have : QState.init.comparisons = [] := rfl
  rw [this, List.nil_append, List.map_map]
  apply List.map_congr_left
  intro t ht
  exact (specTerm_eq fields t (hp t ht) (hvalid t ht).2.1).symm

/-- C4 on `name(and,contains)=true`, `city(or,startsWith)=N`: a `like %true%`
on the boolean literal and a `like N%`, each on its storage key; and on
`age(and,contains)=1`, a pattern operator on the integer field `age`, which
throws. -/
theorem operator_table_comparisons_witness :
    (∃ n, genSequelizeQuery
        (params [("name(and,contains)", "true"), ("city(or,startsWith)", "N")]) people false
          = .ok n ∧
      n.comparisons.map some
        = [some (.cmp "name_col".toList (.op .like (.tmpl "%".toList (.bool true) "%".toList))),
           some (.cmp "city_col".toList (.op .like (.tmpl [] (.str "N".toList) "%".toList)))]) ∧
    genSequelizeQuery (params [("age(and,contains)", "1")]) people false
      = .error .referenceError :=
  ⟨(operator_table_comparisons people
      [⟨"name".toList, false, "contains".toList, "true".toList⟩,
       ⟨"city".toList, true, "startsWith".toList, "N".toList⟩] false (by decide) (by simp)).1
      (by decide),
    (operator_table_comparisons people
      [⟨"age".toList, false, "contains".toList, "1".toList⟩] false (by decide) (by simp)).2
      ⟨⟨"age".toList, false, "contains".toList, "1".toList⟩, by simp,
        leafField "age_col" "age" "integer", rfl, rfl⟩⟩

/-- C5 (what the code does): a non-reserved key whose alias is not in the
catalog makes `genSequelizeQuery` throw, in simple mode and in grouped mode;
no filter is returned. The exception is the `TypeError` of line 289, which
reads `field.key` of `undefined`, unless a column before it has already
thrown the `ReferenceError` of an unbound identifier: it is the `TypeError`
when no resolving column is temporal, nor numeric in grouped mode. -/
theorem unknown_alias_throws (query : List (Str × Str)) (fields : List Field)
    (exclusive : Bool)
    (h : ∃ p ∈ query, banned.contains p.1 = false ∧
      findAs (deconstruct p.1).column fields = none) :
    (∃ e, genSequelizeQuery query fields exclusive = .error e) ∧
    ((∀ p ∈ query, banned.contains p.1 = false →
        ∀ f, findAs (deconstruct p.1).column fields = some f →
          momentables.contains f.dataType = false ∧
            (powerMode query = true → numerics.contains f.dataType = false)) →
      genSequelizeQuery query fields exclusive = .error .typeError) := by
  obtain ⟨p, hp, hb, hnone⟩ := h
  have hcol : ∃ q ∈ columnsOf query, findAs (deconstruct q.1).column fields = none :=
    ⟨p, List.mem_filter.2 ⟨hp, by show (!banned.contains p.1) = true; rw [hb]; rfl⟩, hnone⟩
  refine ⟨?_, ?_⟩
  · obtain ⟨e, he⟩ := queryLoop_error fields (powerMode query) _ hcol QState.init
    unfold genSequelizeQuery
    rw [he]
    exact ⟨e, rfl⟩
  · intro hok
    have hok1 : ∀ q ∈ columnsOf query, ∀ f, findAs (deconstruct q.1).column fields = some f →
        momentables.contains f.dataType = false ∧
          (powerMode query = true → numerics.contains f.dataType = false) := by
      intro q hq
      have hq1 := List.mem_filter.1 hq
      have hq2 : banned.contains q.1 = false := by
        have h2 : (!banned.contains q.1) = true := hq1.2
        cases hc : banned.contains q.1 with
        | false => rfl
        | true => rw [hc] at h2; cases h2
      exact hok q hq1.1 hq2
    unfold genSequelizeQuery
    rw [queryLoop_error_type fields (powerMode query) _ hcol hok1 QState.init]

/-- C5 on `name=bob`, `zzz=1` with no alias `zzz` in the catalog: a
`TypeError`, where `name=bob` alone gives a filter. -/
theorem unknown_alias_throws_witness :
    genSequelizeQuery (params [("name", "bob"), ("zzz", "1")]) people false
        = .error .typeError ∧
      genSequelizeQuery (params [("name", "bob")]) people false
        = .ok (.and [.cmp "name_col".toList (.op .like (.val (.str "bob".toList)))]) :=
  ⟨(unknown_alias_throws (params [("name", "bob"), ("zzz", "1")]) people false
    ⟨("zzz".toList, "1".toList), by simp [params], by decide, rfl⟩).2 (by decide), rfl⟩

/-- C6 fails as stated: for the key `name(or,foo)`, whose alias resolves and
whose operator `foo` is not in the fixed set, `genSequelizeQuery` returns a
filter, the empty object, and no error. -/
theorem invalid_operator_counterexample :
    genSequelizeQuery (params [("name(or,foo)", "1")]) people false = .ok (.obj []) :=
  rfl

/-- C6 as amended: an operator outside the fixed set is not reported. For
every catalog and every parameter map whose non-reserved keys all have an
alias that resolves to a field neither numeric nor temporal (the first field
with its storage key being not numeric either), whatever their operators,
`genSequelizeQuery` returns a filter and no error. -/
theorem resolved_query_returns (query : List (Str × Str)) (fields : List Field)
    (exclusive : Bool)
    (h : ∀ p ∈ query, banned.contains p.1 = false →
      plainColumn (deconstruct p.1).column fields = true) :
    ∃ n, genSequelizeQuery query fields exclusive = .ok n := by
  have hcols : ∀ p ∈ columnsOf query, plainColumn (deconstruct p.1).column fields = true := by
    intro p hp
    simp only [columnsOf, List.mem_filter, Bool.not_eq_true'] at hp
    exact h p hp.1 hp.2
  obtain ⟨st, hst, hkeys⟩ :=
    queryLoop_ok fields (powerMode query) (columnsOf query) hcols QState.init
      (by intro x hx; simp [QState.init] at hx)
  unfold genSequelizeQuery
  simp only [hst]
  split_ifs
  · exact ⟨_, rfl⟩
  · obtain ⟨cs, hcs⟩ := likeConditions_ok fields st.whereObj hkeys
    simp only [hcs]
    exact ⟨_, rfl⟩
  · exact ⟨_, rfl⟩

/-- C6 as amended, on `name(or,foo)=1`, `city(and,bar)=x`. -/
theorem resolved_query_returns_witness :
    ∃ n, genSequelizeQuery (params [("name(or,foo)", "1"), ("city(and,bar)", "x")]) people false
      = .ok n :=
  resolved_query_returns (params [("name(or,foo)", "1"), ("city(and,bar)", "x")]) people false
    (by decide)

/-- C7 (what the code does): for every numeric dataType the coercion of
`genSequelizeQuery` maps the raw strings `"true"` and `"false"` to `NaN`, not
to a boolean: the boolean is handed on to `parseInt` / `parseFloat`. -/
theorem boolean_literal_on_numeric (dataType : Str) (h : dataType ∈ numerics) :
    coerce "true".toList dataType = .ok .nan ∧ coerce "false".toList dataType = .ok .nan := by
  simp only [numerics, List.map, List.mem_cons, List.mem_singleton, List.not_mem_nil,
    or_false] at h
  rcases h with h | h | h | h | h | h <;> subst h <;> exact ⟨rfl, rfl⟩

/-- C7 on dataType `integer`: `coerce("true", integer)` is `NaN`; on dataType
`date` the coercion throws (`moment` is not bound), and on dataType `boolean`
it is `true`. -/
theorem boolean_literal_on_numeric_witness :
    "integer".toList ∈ numerics ∧
      (coerce "true".toList "integer".toList = .ok .nan ∧
        coerce "false".toList "integer".toList = .ok .nan) ∧
      coerce "true".toList "date".toList = .error .referenceError ∧
      coerce "true".toList "boolean".toList = .ok (.bool true) :=
  ⟨by decide, boolean_literal_on_numeric "integer".toList (by decide), rfl, rfl⟩

/-- C8 fails as stated: for the integer field `age` and the raw value `abc`
the coercion produces `NaN`, and in simple mode with `exclusive`
`genSequelizeQuery` returns the filter `{age_col: NaN}`; no coercion error is
raised. -/
theorem failed_integer_counterexample :
    coerce "abc".toList "integer".toList = .ok .nan ∧
      genSequelizeQuery (params [("age", "abc")]) people true
        = .ok (.obj [("age_col".toList, .nan)]) :=
  ⟨rfl, rfl⟩

/-- C8 as amended: failed numeric coercion is not an error. For every field of
dataType integer and every raw value other than `"null"` that does not start
(after white space and one sign) with a decimal digit, the coercion produces
`NaN`, and in simple mode with `exclusive` `genSequelizeQuery` returns the
filter that holds `NaN` for the storage key of the field. -/
theorem integer_coercion_nan (fields : List Field) (f : Field) (al : Str) (t : IntText)
    (hal : '(' ∉ al) (hb : banned.contains al = false) (hf : findAs al fields = some f)
    (hdt : f.dataType = "integer".toList) (hkey : f.key ≠ "__proto__".toList)
    (hwf : t.wellFormed = true) (hdigits : t.digits = []) (hnull : t.text ≠ "null".toList) :
    coerce t.text f.dataType = .ok .nan ∧
      genSequelizeQuery [(al, t.text)] fields true = .ok (.obj [(f.key, .nan)]) := by
  have hco : coerce t.text f.dataType = .ok .nan := by
    rw [hdt]
    by_cases h1 : t.text = "true".toList
    · rw [h1]; rfl
    · by_cases h2 : t.text = "false".toList
      · rw [h2]; rfl
      · have hl : literalValue t.text = .str t.text := by
          unfold literalValue
          rw [if_neg h1, if_neg h2, if_neg hnull]
        have hn : numerics.contains "integer".toList = true := by decide
        unfold coerce
        rw [hl]
        simp only [hn, if_true, argText, (parseInt_text t hwf).1 hdigits]
  refine ⟨hco, ?_⟩
  have hcols : columnsOf [(al, t.text)] = [(al, t.text)] := by
    rw [columnsOf_cons_free (al, t.text) [] hb]
    rfl
  have hpm : powerMode [(al, t.text)] = false := by
    unfold powerMode
    rw [hcols]
    have hc : al.contains '(' = false := by
      cases hc : al.contains '(' with
      | false => rfl
      | true => exact absurd (by simpa using hc) hal
    show (al.contains '(' || false) = false
    rw [hc]
    rfl
  have hset : setProp [] f.key Value.nan = [(f.key, Value.nan)] := by
    unfold setProp
    rw [if_neg hkey]
    show (match arrayIndex f.key with
      | some n => insertIndexProp n f.key Value.nan []
      | none => [] ++ [(f.key, Value.nan)]) = _
    cases arrayIndex f.key <;> rfl
  unfold genSequelizeQuery
  rw [hpm, hcols]
  simp only [queryLoop, queryStep, deconstruct_plain al hal, hf, hco, Bool.false_eq_true,
    if_false, QState.init, hset, Bool.not_true]

/-- C8 as amended, on `age=abc` and on `age=-x`, with `exclusive`. -/
theorem integer_coercion_nan_witness :
    (coerce "abc".toList "integer".toList = .ok .nan ∧
      genSequelizeQuery (params [("age", "abc")]) people true
        = .ok (.obj [("age_col".toList, .nan)])) ∧
    (coerce "-x".toList "integer".toList = .ok .nan ∧
      genSequelizeQuery (params [("age", "-x")]) people true
        = .ok (.obj [("age_col".toList, .nan)])) :=
  ⟨integer_coercion_nan people (leafField "age_col" "age" "integer") "age".toList
      ⟨[], none, [], "abc".toList⟩ (by decide) (by decide) rfl rfl (by decide) (by decide) rfl
      (by decide),
    integer_coercion_nan people (leafField "age_col" "age" "integer") "age".toList
      ⟨[], some '-', [], "x".toList⟩ (by decide) (by decide) rfl rfl (by decide) (by decide) rfl
      (by decide)⟩

/-- C9 (what the code does): in simple mode without `exclusive`, the key
`name=bob` on the string field `name` gives the comparison `name like "bob"`:
the pattern is the value alone, with no `%` around it. -/
theorem simple_mode_string_like :
    genSequelizeQuery (params [("name", "bob")]) people false
      = .ok (.and [.cmp "name_col".toList (.op .like (.val (.str "bob".toList)))]) :=
  rfl

/-- C10: for every catalog without an empty alias and every expression that
is a comma-separated list of n ≥ 1 aliases, none containing `,`, `(` or `)`,
each resolving at the top level of the catalog, `genFields` returns exactly
the n corresponding field nodes in the order written, with `expand = false`,
and leaves the catalog as it was. -/
theorem flat_projection (cat : List Field) (aliases : List Str) (fs : List Field)
    (hcat : ∀ f ∈ cat, f.as ≠ [])
    (hne : aliases ≠ [])
    (hchars : ∀ a ∈ aliases, ',' ∉ a ∧ '(' ∉ a ∧ ')' ∉ a)
    (hres : aliases.map (fun a => findAs a cat) = fs.map some) :
    genFields (commaList aliases) cat = ⟨.ok ⟨fs.map OutNode.field, false⟩, cat⟩ := by
  have hlast : aliases.getLast? ≠ some [] := by
    intro hl
    have hmem : ([] : Str) ∈ aliases := List.mem_of_getLast?_eq_some hl
    have h1 : findAs [] cat ∈ aliases.map (fun a => findAs a cat) :=
      List.mem_map_of_mem (fun a => findAs a cat) hmem
    rw [hres] at h1
    obtain ⟨f, _, hf⟩ := List.mem_map.1 h1
    obtain ⟨hfc, hfa⟩ := findAs_mem [] cat f hf.symm
    exact hcat f hfc hfa
  exact genFields_commaList cat aliases fs hne hchars hlast hres

/-- C10 on the expression `name,id`. -/
theorem flat_projection_witness :
    genFields "name,id".toList contacts
      = ⟨.ok ⟨[.field (leafField "name_col" "name" "string"),
               .field (leafField "id_col" "id" "integer")], false⟩, contacts⟩ :=
  flat_projection contacts ["name".toList, "id".toList]
    [leafField "name_col" "name" "string", leafField "id_col" "id" "integer"]
    (by decide) (by simp) (by decide) rfl

/-- C11: for every catalog in which the alias `p` resolves to a field with
children, and every expression `p(c1,...,cn)` with n ≥ 1 where each `ci` is the
alias of a child of `p` (the aliases being free of the characters `,`, `(`,
`)` and, for the children, `*`, which the expression syntax reserves),
`genFields` returns exactly one node, with the key and alias of `p` and with
exactly the n child descriptors of `c1..cn` in the order written as children,
it sets `expand = true`, and it leaves the catalog as it was. -/
theorem nested_projection (cat : List Field) (p : Str) (pf : Field) (kids : List Field)
    (cs : List Str) (fs : List Field)
    (hp : ',' ∉ p ∧ '(' ∉ p ∧ ')' ∉ p) (hpf : findAs p cat = some pf)
    (hk : pf.fields = some (kids.map some)) (hne : cs ≠ [])
    (hchars : ∀ c ∈ cs, (',' ∉ c ∧ '(' ∉ c ∧ ')' ∉ c) ∧ '*' ∉ c)
    (hres : cs.map (fun c => findAs c kids) = fs.map some) :
    genFields (nestedExpr p cs) cat
      = ⟨.ok ⟨[.obj pf.key pf.as pf.getter (some (fs.map some))], true⟩, cat⟩ := by
  rw [genFields_nested cat p pf kids cs hp hpf hk hne hchars,
    nestedPushes_resolved kids cs fs hres]

/-- C11 on the expression `contact(email,phone)`. -/
theorem nested_projection_witness :
    genFields "contact(email,phone)".toList contacts
      = ⟨.ok ⟨[.obj "contact_col".toList "contact".toList none
                (some [some (leafField "email_col" "email" "string"),
                       some (leafField "phone_col" "phone" "string")])], true⟩, contacts⟩ :=
  nested_projection contacts "contact".toList
    (parentField "contact_col" "contact"
      [leafField "email_col" "email" "string", leafField "phone_col" "phone" "string"])
    [leafField "email_col" "email" "string", leafField "phone_col" "phone" "string"]
    ["email".toList, "phone".toList]
    [leafField "email_col" "email" "string", leafField "phone_col" "phone" "string"]
    (by decide) rfl rfl (by simp) (by decide) rfl

/-- C12: for every catalog in which the alias `p` resolves to a field with
children, none of whose aliases is the empty string, `genFields("p(*)")`
returns exactly one node for `p` whose children list is the entire children
list of `p` in catalog order, with `expand = true`, and leaves the catalog as
it was. -/
theorem wildcard_expansion (cat : List Field) (p : Str) (pf : Field) (kids : List Field)
    (hp : ',' ∉ p ∧ '(' ∉ p ∧ ')' ∉ p) (hpf : findAs p cat = some pf)
    (hk : pf.fields = some (kids.map some)) (hblank : ∀ k ∈ kids, k.as ≠ []) :
    genFields (p ++ "(*)".toList) cat
      = ⟨.ok ⟨[.obj pf.key pf.as pf.getter (some (kids.map some))], true⟩, cat⟩ :=
  genFields_wildcard cat p pf kids hp hpf hk hblank

/-- C12 on the expression `contact(*)`. -/
theorem wildcard_expansion_witness :
    genFields "contact(*)".toList contacts
      = ⟨.ok ⟨[.obj "contact_col".toList "contact".toList none
                (some [some (leafField "email_col" "email" "string"),
                       some (leafField "phone_col" "phone" "string")])], true⟩, contacts⟩ :=
  wildcard_expansion contacts "contact".toList
    (parentField "contact_col" "contact"
      [leafField "email_col" "email" "string", leafField "phone_col" "phone" "string"])
    [leafField "email_col" "email" "string", leafField "phone_col" "phone" "string"]
    (by decide) rfl rfl (by decide)

/-- C13 (what the code does): in `p(x,c)`, where `x` is no alias of a child of
`p` and `c` is one, the unknown `x` is not dropped: line 198 pushes the result
of the failed lookup, so the children list of the returned node is
`[undefined, c]`. -/
theorem unknown_child_undefined (cat : List Field) (p x c : Str) (pf fc : Field)
    (kids : List Field)
    (hp : ',' ∉ p ∧ '(' ∉ p ∧ ')' ∉ p) (hpf : findAs p cat = some pf)
    (hk : pf.fields = some (kids.map some))
    (hx : (',' ∉ x ∧ '(' ∉ x ∧ ')' ∉ x) ∧ '*' ∉ x)
    (hc : (',' ∉ c ∧ '(' ∉ c ∧ ')' ∉ c) ∧ '*' ∉ c)
    (hxnone : findAs x kids = none) (hcsome : findAs c kids = some fc) :
    genFields (nestedExpr p [x, c]) cat
      = ⟨.ok ⟨[.obj pf.key pf.as pf.getter (some [none, some fc])], true⟩, cat⟩ := by
  rw [genFields_nested cat p pf kids [x, c] hp hpf hk (by simp)
    (by
      intro y hy
      simp only [List.mem_cons, List.mem_singleton, List.not_mem_nil, or_false] at hy
      rcases hy with rfl | rfl
      · exact hx
      · exact hc)]
  simp [nestedPushes, hxnone, hcsome]

/-- C13 on the expression `contact(x,email)`: the children list of the node
is `[undefined, email]`. -/
theorem unknown_child_undefined_witness :
    genFields "contact(x,email)".toList contacts
      = ⟨.ok ⟨[.obj "contact_col".toList "contact".toList none
                (some [none, some (leafField "email_col" "email" "string")])], true⟩,
          contacts⟩ :=
  unknown_child_undefined contacts "contact".toList "x".toList "email".toList
    (parentField "contact_col" "contact"
      [leafField "email_col" "email" "string", leafField "phone_col" "phone" "string"])
    (leafField "email_col" "email" "string")
    [leafField "email_col" "email" "string", leafField "phone_col" "phone" "string"]
    (by decide) rfl rfl (by decide) (by decide) rfl rfl

/-- C14 (what the code does): for an expression `q(c)` whose parent alias `q`
does not resolve, `genFields` throws a `TypeError` (line 215 leaves
`modelParentField` undefined and line 216 reads its `fields`); the catalog's
field list is not returned. -/
theorem unknown_parent_throws (cat : List Field) (q c : Str)
    (hq : ',' ∉ q ∧ '(' ∉ q ∧ ')' ∉ q) (hc : ',' ∉ c ∧ '(' ∉ c ∧ ')' ∉ c)
    (hnone : findAs q cat = none) :
    genFields (nestedExpr q [c]) cat = ⟨.error .typeError, cat⟩ :=
  genFields_unknown_parent cat q c hq hc hnone

/-- C14 on the expression `q(c)`, with no alias `q` in the catalog: a
`TypeError`, where the empty expression gives the whole catalog. -/
theorem unknown_parent_throws_witness :
    genFields "q(c)".toList contacts = ⟨.error .typeError, contacts⟩ ∧
      genFields [] contacts = ⟨.ok ⟨contacts.map OutNode.field, false⟩, contacts⟩ :=
  ⟨unknown_parent_throws contacts "q".toList "c".toList (by decide) (by decide) rfl, rfl⟩

/-- C15: for every catalog and every `order_by` expression that is a comma
list of tokens `alias` or `alias(d)`, with every alias resolving and every `d`
equal to `asc` or `desc` in any letter case, the `order_by` branch of
`dequerylize` returns one sort term per token, in token order, each with the
storage key of its field and the direction of its own token, `asc` when the
token has no parenthesised direction, also after a token with an explicit
direction: `regex.lastIndex` is 0 again at every `exec`. -/
theorem sort_compilation (cat : List Field) (tokens : List SortToken) (fs : List Field)
    (hne : tokens ≠ [])
    (hvalid : ∀ t ∈ tokens, ',' ∉ t.al ∧ '(' ∉ t.al ∧
      ∀ d, t.dir = some d → d ∈ caseVariants "asc".toList ∨ d ∈ caseVariants "desc".toList)
    (hres : tokens.map (fun t => findAs t.al cat) = fs.map some) :
    orderBy (commaList (tokens.map SortToken.text)) cat
      = .ok (some (List.zipWith (fun t f => (f.key, t.direction)) tokens fs)) := by
  rw [orderBy_tokens cat tokens fs hne
    (fun t ht => ⟨(hvalid t ht).1, (hvalid t ht).2.1, fun d hd => by
      rcases (hvalid t ht).2.2 d hd with h | h
      · exact ⟨(asc_variants d h).1, (asc_variants d h).2.1, (asc_variants d h).2.2.1⟩
      · exact ⟨(desc_variants d h).1, (desc_variants d h).2.1, (desc_variants d h).2.2.1⟩⟩)
    hres]
  congr 2
  apply zipWith_direction
  intro t ht
  obtain ⟨al, dir⟩ := t
  cases dir with
  | none => rfl
  | some d =>
    rcases (hvalid _ ht).2.2 d rfl with h | h
    · have := asc_variants d h
      simp only [SortToken.direction, Option.getD, this.2.2.2.1, if_neg this.2.2.2.2]
    · have := desc_variants d h
      simp only [SortToken.direction, Option.getD, this.2.2.2, if_pos h]

/-- C15 on the expression `age(desc),name` of the specification, and on
`age(Desc),name,city(ASC)`. -/
theorem sort_compilation_witness :
    orderBy "age(desc),name".toList people
        = .ok (some [("age_col".toList, "DESC".toList), ("name_col".toList, "ASC".toList)]) ∧
      orderBy "age(Desc),name,city(ASC)".toList people
        = .ok (some [("age_col".toList, "DESC".toList), ("name_col".toList, "ASC".toList),
                     ("city_col".toList, "ASC".toList)]) :=
  ⟨sort_compilation people
      [⟨"age".toList, some "desc".toList⟩, ⟨"name".toList, none⟩]
      [leafField "age_col" "age" "integer", leafField "name_col" "name" "string"]
      (by simp) (by decide) rfl,
    sort_compilation people
      [⟨"age".toList, some "Desc".toList⟩, ⟨"name".toList, none⟩,
        ⟨"city".toList, some "ASC".toList⟩]
      [leafField "age_col" "age" "integer", leafField "name_col" "name" "string",
        leafField "city_col" "city" "string"]
      (by simp) (by decide) rfl⟩

/-- C16 (what the code does): when the first token of an `order_by` list does
not resolve and another token follows, the sort compiler throws a `TypeError`:
line 67 sets `out.order` to `undefined` inside the loop, and the next
iteration calls `push` on it or reads its `length`. -/
theorem unresolved_first_token_throws (cat : List Field) (t : SortToken) (rest : Str)
    (hal : ',' ∉ t.al ∧ '(' ∉ t.al)
    (hdir : ∀ d, t.dir = some d → d ≠ [] ∧ ')' ∉ d ∧ ',' ∉ d)
    (hnone : findAs t.al cat = none) :
    orderBy (t.text ++ ',' :: rest) cat = .error .typeError := by
  have hcomma : ',' ∉ t.text := token_text_no_comma t hal.1 (fun d hd => (hdir d hd).2.2)
  obtain ⟨_, e2⟩ := token_exec t hal.2 (fun d hd => ⟨(hdir d hd).1, (hdir d hd).2.1⟩)
  unfold orderBy
  rw [splitOn_append ',' _ _ hcomma]
  simp only [sortLoop, sortStep_zero, e2, hnone, List.length_nil, if_true]
  rw [sortLoop_undefined cat _ (splitOn_ne_nil ',' rest)]

/-- C16 on the expression `x,age`, with no alias `x` in the catalog: a
`TypeError`, as on `x,y`; the lone token `x` gives `undefined`. -/
theorem unresolved_first_token_throws_witness :
    orderBy "x,age".toList people = .error .typeError ∧
      orderBy "x,y".toList people = .error .typeError ∧
      orderBy "x".toList people = .ok none :=
  ⟨unresolved_first_token_throws people ⟨"x".toList, none⟩ "age".toList (by decide)
    (by simp) rfl, rfl, rfl⟩

/-- C17 fails as stated: for the token `age(foo)` the sort compiler returns
the term with direction `FOO`, which is neither `ASC` nor `DESC`. -/
theorem sort_direction_counterexample :
    orderBy "age(foo)".toList people = .ok (some [("age_col".toList, "FOO".toList)]) :=
  rfl

/-- C17 as amended, for expressions of ASCII characters: whenever the sort
compiler returns a list, the direction of every returned term is the
direction of one of the tokens of the expression, and the direction of a
token is the upper-cased text between its parentheses, whatever that text is,
or `ASC` when the token has no parentheses; it is `ASC` or `DESC` when that
text is `asc` or `desc` in any letter case. -/
theorem sort_direction_uppercase (cat : List Field) (expr : Str) (list : List (Str × Str))
    (hascii : ∀ c ∈ expr, c.toNat < 128)
    (h : orderBy expr cat = .ok (some list)) :
    (∀ term ∈ list, ∃ text ∈ splitOn ',' expr, (∀ c ∈ text, c.toNat < 128) ∧
      term.2 = tokenDirection text) ∧
    (∀ t : SortToken, '(' ∉ t.al →
      (∀ d, t.dir = some d → d ≠ [] ∧ ')' ∉ d ∧ ∀ c ∈ d, c.toNat < 128) →
      tokenDirection t.text = toUpperCase (t.dir.getD "asc".toList)) ∧
    (∀ d ∈ caseVariants "asc".toList, toUpperCase d = "ASC".toList) ∧
    (∀ d ∈ caseVariants "desc".toList, toUpperCase d = "DESC".toList) := by
  refine ⟨?_, ?_, fun d hd => (asc_variants d hd).2.2.2.1, fun d hd => (desc_variants d hd).2.2.2⟩
  · unfold orderBy at h
    cases hl : sortLoop cat (splitOn ',' expr) ⟨some [], 0⟩ with
    | error e => simp [hl] at h
    | ok st =>
      simp only [hl, Except.ok.injEq] at h
      intro term hterm
      rcases (sortLoop_directions cat _ _ st hl).2 list h term hterm with ⟨l, hl1, hm⟩ | hex
      · simp only [Option.some.injEq] at hl1
        subst hl1
        simp at hm
      · obtain ⟨text, htext, hdir⟩ := hex
        exact ⟨text, htext, fun c hc => hascii c (splitOn_mem ',' expr text htext c hc), hdir⟩
  · intro t hal hdir
    obtain ⟨e1, _⟩ := token_exec t hal (fun d hd => ⟨(hdir d hd).1, (hdir d hd).2.1⟩)
    simp only [tokenDirection, e1]
    cases t.dir <;> rfl

/-- C17 as amended, on the expression `age(foo),name(Desc)`. -/
theorem sort_direction_uppercase_witness :
    (∀ term ∈ [("age_col".toList, "FOO".toList), ("name_col".toList, "DESC".toList)],
      ∃ text ∈ splitOn ',' "age(foo),name(Desc)".toList, (∀ c ∈ text, c.toNat < 128) ∧
        term.2 = tokenDirection text) ∧
    (∀ t : SortToken, '(' ∉ t.al →
      (∀ d, t.dir = some d → d ≠ [] ∧ ')' ∉ d ∧ ∀ c ∈ d, c.toNat < 128) →
      tokenDirection t.text = toUpperCase (t.dir.getD "asc".toList)) ∧
    (∀ d ∈ caseVariants "asc".toList, toUpperCase d = "ASC".toList) ∧
    (∀ d ∈ caseVariants "desc".toList, toUpperCase d = "DESC".toList) :=
  sort_direction_uppercase people "age(foo),name(Desc)".toList
    [("age_col".toList, "FOO".toList), ("name_col".toList, "DESC".toList)] (by decide) rfl

/-- C18 fails as stated: the parameters `limit=12abc` and `offset=3.7` are
not numeric, yet the plan carries the limit 12 and the offset 3, not the
defaults 25 and 0. -/
theorem pagination_counterexample :
    ∃ out, (dequerylize (params [("limit", "12abc"), ("offset", "3.7")]) people).out = .ok out ∧
      (handlerPlan out).limit = .num 12 ∧ (handlerPlan out).offset = .num 3 :=
  ⟨_, rfl, rfl, rfl⟩

/-- C18 as amended: the plan the `GET` handler takes from `dequerylize` (line
470 of `lib/Model.js`, with the defaults `limit=25`, `offset=0`) has
`limit = 25` when the parameter `limit` is absent or when its text, after
white space and one sign, does not go on with a decimal digit; when it does,
the plan carries the integer those digits denote, with the sign (up to
`2^53`), whatever follows the digits; the same for `offset` with the default
0; and `dequerylize` does return a plan when the map holds no other key than
these two. -/
theorem pagination_defaults (query : List (Str × Str)) (cat : List Field)
    (hkeys : (query.map Prod.fst).Nodup) :
    (∀ out, (dequerylize query cat).out = .ok out →
      (getParam "limit".toList query = none → (handlerPlan out).limit = .num 25) ∧
      (∀ t : IntText, t.wellFormed = true → getParam "limit".toList query = some t.text →
        (t.digits = [] → (handlerPlan out).limit = .num 25) ∧
        (t.digits ≠ [] → digitsVal t.digits ≤ 9007199254740992 →
          (handlerPlan out).limit = .num t.value)) ∧
      (getParam "offset".toList query = none → (handlerPlan out).offset = .num 0) ∧
      (∀ t : IntText, t.wellFormed = true → getParam "offset".toList query = some t.text →
        (t.digits = [] → (handlerPlan out).offset = .num 0) ∧
        (t.digits ≠ [] → digitsVal t.digits ≤ 9007199254740992 →
          (handlerPlan out).offset = .num t.value))) ∧
    ((∀ p ∈ query, p.1 = "limit".toList ∨ p.1 = "offset".toList) →
      ∃ out, (dequerylize query cat).out = .ok out) := by
  refine ⟨?_, dequerylize_paging_only query cat⟩
  intro out h
  obtain ⟨st, c, hl, e1, e2, _, _⟩ := dequerylize_out query cat out h
  obtain ⟨a1, a2⟩ := dequerylizeLoop_paging_absent query _ st c hl
  obtain ⟨p1, p2⟩ := dequerylizeLoop_paging_present query _ st c hkeys hl
  have hinit1 : (dequerylizeInit query cat).limit = none := rfl
  have hinit2 : (dequerylizeInit query cat).offset = none := rfl
  refine ⟨?_, ?_, ?_, ?_⟩
  · intro hn
    simp only [handlerPlan, e1, a1 hn, hinit1, Option.getD]
  · intro t hwf hv
    obtain ⟨t1, t2⟩ := parseIntOrUndefined_text t hwf
    refine ⟨?_, ?_⟩
    · intro hd
      simp only [handlerPlan, e1, p1 _ hv, t1 hd, Option.getD]
    · intro hd hb
      simp only [handlerPlan, e1, p1 _ hv, t2 hd hb, Option.getD]
  · intro hn
    simp only [handlerPlan, e2, a2 hn, hinit2, Option.getD]
  · intro t hwf hv
    obtain ⟨t1, t2⟩ := parseIntOrUndefined_text t hwf
    refine ⟨?_, ?_⟩
    · intro hd
      simp only [handlerPlan, e2, p2 _ hv, t1 hd, Option.getD]
    · intro hd hb
      simp only [handlerPlan, e2, p2 _ hv, t2 hd hb, Option.getD]

/-- C18 as amended, on the empty parameter map of the specification (limit
25, offset 0) and on `limit= -5`, `offset=+12abc` (limit -5, offset 12) and
`limit=abc`, `offset=-` (limit 25, offset 0). -/
theorem pagination_defaults_witness :
    (∃ out, (dequerylize [] people).out = .ok out ∧
      (handlerPlan out).limit = .num 25 ∧ (handlerPlan out).offset = .num 0) ∧
    (∃ out, (dequerylize (params [("limit", " -5"), ("offset", "+12abc")]) people).out
        = .ok out ∧
      (handlerPlan out).limit = .num (-5) ∧ (handlerPlan out).offset = .num 12) ∧
    (∃ out, (dequerylize (params [("limit", "abc"), ("offset", "-")]) people).out = .ok out ∧
      (handlerPlan out).limit = .num 25 ∧ (handlerPlan out).offset = .num 0) := by
  refine ⟨?_, ?_, ?_⟩
  · obtain ⟨out, h⟩ := (pagination_defaults [] people (by simp)).2 (by simp)
    have hs := (pagination_defaults [] people (by simp)).1 out h
    exact ⟨out, h, hs.1 rfl, hs.2.2.1 rfl⟩
  · obtain ⟨out, h⟩ :=
      (pagination_defaults (params [("limit", " -5"), ("offset", "+12abc")]) people
        (by decide)).2 (by decide)
    have hs := (pagination_defaults (params [("limit", " -5"), ("offset", "+12abc")]) people
      (by decide)).1 out h
    exact ⟨out, h,
      (hs.2.1 ⟨" ".toList, some '-', "5".toList, []⟩ (by decide) rfl).2 (by decide) (by decide),
      (hs.2.2.2 ⟨[], some '+', "12".toList, "abc".toList⟩ (by decide) rfl).2 (by decide)
        (by decide)⟩
  · obtain ⟨out, h⟩ :=
      (pagination_defaults (params [("limit", "abc"), ("offset", "-")]) people
        (by decide)).2 (by decide)
    have hs := (pagination_defaults (params [("limit", "abc"), ("offset", "-")]) people
      (by decide)).1 out h
    exact ⟨out, h,
      (hs.2.1 ⟨[], none, [], "abc".toList⟩ (by decide) rfl).1 rfl,
      (hs.2.2.2 ⟨[], some '-', [], []⟩ (by decide) rfl).1 rfl⟩

/-- C19 (what the code does): when the map has the parameters `expand` and
`fields`, the flag `expand` of the returned object is the flag `genFields`
gives for the `fields` expression, whatever the parameter `expand` is: line 32
overwrites the value line 24 took from the parameter. -/
theorem expand_overwritten (cat : List Field) (e expr : Str) (out : DqOut)
    (h : (dequerylize [("expand".toList, e), ("fields".toList, expr)] cat).out = .ok out) :
    ∃ r, (genFields expr cat).out = .ok r ∧ out.expand = r.expand := by
  obtain ⟨st, c, hl, _, _, he, _⟩ := dequerylize_out _ cat out h
  have h1 : dequerylizeStep (dequerylizeInit [("expand".toList, e), ("fields".toList, expr)] cat)
      "expand".toList e
        = (.ok (dequerylizeInit [("expand".toList, e), ("fields".toList, expr)] cat), cat) := rfl
  simp only [dequerylizeLoop, h1] at hl
  have h2 : ∀ st0 : DState, dequerylizeStep st0 "fields".toList expr
      = (match (genFields expr st0.cat).out with
         | .error err => (.error err, (genFields expr st0.cat).catalog)
         | .ok r =>
           (.ok { st0 with
                  cat := (genFields expr st0.cat).catalog
                  fields := some r.fields
                  expand := r.expand }, (genFields expr st0.cat).catalog)) := fun _ => rfl
  rw [h2] at hl
  have hcat : (dequerylizeInit [("expand".toList, e), ("fields".toList, expr)] cat).cat = cat :=
    rfl
  rw [hcat] at hl
  cases hg : (genFields expr cat).out with
  | error err => simp [hg] at hl
  | ok r =>
    simp only [hg, Prod.mk.injEq, Except.ok.injEq] at hl
    refine ⟨r, rfl, ?_⟩
    rw [he, ← hl.1]

/-- C19 on `expand=true`, `fields=name`: on a catalog with a field of alias
`expand` the returned flag is false, and on a catalog without one the call
throws a `TypeError`, the key `expand` being no banned key of
`genSequelizeQuery`. -/
theorem expand_overwritten_witness :
    (∃ r, (genFields "name".toList expandable).out = .ok r ∧ false = r.expand) ∧
      (dequerylize (params [("expand", "true"), ("fields", "name")]) people).out
        = .error .typeError :=
  ⟨expand_overwritten expandable "true".toList "name".toList _ rfl, rfl⟩

/-- C20 (what the code does): `genFields` on `contact(*,email)` and on
`contact(*email)` changes the catalog: after `*` the variable `objfield` is the
children list of `contact` itself, and the following `push` appends to it
(`undefined` and `email` in the first case, `email` in the second); the same
through `dequerylize`. -/
theorem wildcard_mutates_catalog :
    (genFields "contact(*,email)".toList contacts).catalog
        = [leafField "id_col" "id" "integer",
           .mk "contact_col".toList "contact".toList "object".toList none
             (some [some (leafField "email_col" "email" "string"),
                    some (leafField "phone_col" "phone" "string"),
                    none,
                    some (leafField "email_col" "email" "string")]),
           leafField "name_col" "name" "string"] ∧
      (genFields "contact(*email)".toList contacts).catalog
        = [leafField "id_col" "id" "integer",
           .mk "contact_col".toList "contact".toList "object".toList none
             (some [some (leafField "email_col" "email" "string"),
                    some (leafField "phone_col" "phone" "string"),
                    some (leafField "email_col" "email" "string")]),
           leafField "name_col" "name" "string"] ∧
      (dequerylize (params [("fields", "contact(*email)")]) contacts).catalog
        = [leafField "id_col" "id" "integer",
           .mk "contact_col".toList "contact".toList "object".toList none
             (some [some (leafField "email_col" "email" "string"),
                    some (leafField "phone_col" "phone" "string"),
                    some (leafField "email_col" "email" "string")]),
           leafField "name_col" "name" "string"] ∧
      (genFields "contact(*email)".toList contacts).catalog ≠ contacts :=
  ⟨rfl, rfl, rfl, fun h =>
    absurd (congrArg (fun c => ((c.get? 1).bind Field.fields).map List.length) h) (by decide)⟩

/-- C21 (what the code does): two calls of `dequerylize` in succession with
the same parameter map and the same catalog object do not give equal plans.
With `fields=contact(*,email)` the first call returns a plan and leaves the
children list of `contact` with an `undefined` entry (the `push` after `*`
goes to the list of the catalog); the second call, on the catalog as the
first call left it, throws a `TypeError` at the lookup of line 197. With
`fields=contact(*email)` both calls return, the children list of the
projection holding three entries when the first call returns and four when
the second does. -/
theorem second_call_differs :
    (dequerylize (params [("fields", "contact(*,email)")]) contacts).out =
        .ok ⟨.and [], true, false,
          [.obj "contact_col".toList "contact".toList none
            (some [some (leafField "email_col" "email" "string"),
              some (leafField "phone_col" "phone" "string"), none,
              some (leafField "email_col" "email" "string")])], none, none, none⟩ ∧
      (dequerylize (params [("fields", "contact(*,email)")])
        (dequerylize (params [("fields", "contact(*,email)")]) contacts).catalog).out
          = .error .typeError ∧
      (dequerylize (params [("fields", "contact(*email)")]) contacts).out =
        .ok ⟨.and [], true, false,
          [.obj "contact_col".toList "contact".toList none
            (some [some (leafField "email_col" "email" "string"),
              some (leafField "phone_col" "phone" "string"),
              some (leafField "email_col" "email" "string")])], none, none, none⟩ ∧
      (dequerylize (params [("fields", "contact(*email)")])
        (dequerylize (params [("fields", "contact(*email)")]) contacts).catalog).out =
        .ok ⟨.and [], true, false,
          [.obj "contact_col".toList "contact".toList none
            (some [some (leafField "email_col" "email" "string"),
              some (leafField "phone_col" "phone" "string"),
              some (leafField "email_col" "email" "string"),
              some (leafField "email_col" "email" "string")])], none, none, none⟩ :=
  ⟨rfl, rfl, rfl, rfl⟩

/-- C22 (what the code does): `registerModel` returns the connection id but
does not register the model when the connection does not exist yet. With an
id that names no connection nothing is created: the id is returned and
`getModels` of it throws a `TypeError`. With no id a connection is created
under the fresh id, which is returned, but `setConnection` stores the built
object as the property `connection` of a new record whose `Models` is empty:
`getModels` of the returned id is the empty object. -/
theorem register_model_not_created (reg : Catalog.Registry) (fresh id : Str)
    (model : Catalog.Model) (conn : Option Nat)
    (hid : id ≠ []) (hnew : (Catalog.getConnection reg id).1 = .undefined)
    (hfresh : fresh ≠ "__proto__".toList) :
    ((Catalog.registerModel reg fresh model (some id) conn).1 = .ok id ∧
      (Catalog.getModels (Catalog.registerModel reg fresh model (some id) conn).2 id).1
        = .error .typeError) ∧
    ((Catalog.registerModel reg fresh model none conn).1 = .ok fresh ∧
      (Catalog.getModels (Catalog.registerModel reg fresh model none conn).2 fresh).1
        = .ok (some [])) := by
  have hcond : ((some id).isSome && (some id) != some []) = true := by
    cases id with
    | nil => exact absurd rfl hid
    | cons x xs => rfl
  have hnew1 : Catalog.getProp (reg.connections.getD []) id = .undefined := hnew
  have hreg : Catalog.registerModel reg fresh model (some id) conn =
      (.ok id, ⟨some (reg.connections.getD [])⟩) := by
    unfold Catalog.registerModel
    rw [if_pos hcond]
    show (match (Catalog.getProp (reg.connections.getD []) id) with
      | .own c => _
      | .inherited _ => _
      | .undefined => _) = _
    rw [hnew1]
    rfl
  refine ⟨?_, rfl, ?_⟩
  · rw [hreg]
    exact ⟨rfl, Catalog.getModels_undefined _ _ hnew1⟩
  · have hget : (Catalog.getConnection
        (Catalog.registerModel reg fresh model none conn).2 fresh).1 =
        .own ⟨fresh, .built fresh conn [(model.name, model)], [], []⟩ :=
      Catalog.getProp_putProp fresh _ (reg.connections.getD []) hfresh
    exact Catalog.getModels_own _ _ _ hget

/-- C22 on the registry with no connection, the model `User`, the id `main`
and the fresh id `f81d4fae`: both calls return their id, `getModels("main")`
throws and `getModels("f81d4fae")` is empty. -/
theorem register_model_not_created_witness :
    ((Catalog.registerModel ⟨none⟩ "f81d4fae".toList Catalog.userModel
        (some "main".toList) (some 0)).1 = .ok "main".toList ∧
      (Catalog.getModels (Catalog.registerModel ⟨none⟩ "f81d4fae".toList Catalog.userModel
        (some "main".toList) (some 0)).2 "main".toList).1 = .error .typeError) ∧
    ((Catalog.registerModel ⟨none⟩ "f81d4fae".toList Catalog.userModel none (some 0)).1
        = .ok "f81d4fae".toList ∧
      (Catalog.getModels (Catalog.registerModel ⟨none⟩ "f81d4fae".toList Catalog.userModel
        none (some 0)).2 "f81d4fae".toList).1 = .ok (some [])) :=
  register_model_not_created ⟨none⟩ "f81d4fae".toList "main".toList Catalog.userModel (some 0)
    (by decide) rfl (by decide)

/-- C23 (what the code does): in grouped mode, a non-reserved key without a
group tag `and` / `or` (a plain key `alias`, or a key `alias(g,op)` with `g`
outside `and`, `or`; the alias free of `(`, `g` free of `,` `(` `)`) added to
a parameter map that is in grouped mode without it: when its alias resolves
to a field neither numeric nor temporal, `genSequelizeQuery` gives for the
map with the key what it gives for the map without it, and the step of the
loop on that key returns the accumulators unchanged; when its alias resolves
to a numeric field (or to a temporal field, the value being other than
`null`) and the map without the key returns a filter, the map with the key
throws a `ReferenceError`: the literal of `opMap` is built for every column
before the tag is looked at. -/
theorem untagged_key_in_grouped_mode (fields : List Field) (q1 q2 : List (Str × Str))
    (u : FreeKey) (v : Str) (exclusive : Bool)
    (hu : u.wellFormed = true) (hb : banned.contains u.key = false)
    (hpm : powerMode (q1 ++ q2) = true) :
    (plainAs u.al fields = true →
      genSequelizeQuery (q1 ++ (u.key, v) :: q2) fields exclusive
          = genSequelizeQuery (q1 ++ q2) fields exclusive ∧
        ∀ st, queryStep fields true st u.key v = .ok st) ∧
    (∀ f n, findAs u.al fields = some f → f.unbound v = true →
      genSequelizeQuery (q1 ++ q2) fields exclusive = .ok n →
      genSequelizeQuery (q1 ++ (u.key, v) :: q2) fields exclusive
        = .error .referenceError) := by
  obtain ⟨al, tag⟩ := u
  have hparts : (deconstruct (FreeKey.key ⟨al, tag⟩)).column = al ∧
      (deconstruct (FreeKey.key ⟨al, tag⟩)).condition ≠ some "and".toList ∧
      (deconstruct (FreeKey.key ⟨al, tag⟩)).condition ≠ some "or".toList := by
    cases tag with
    | none =>
      have hal : '(' ∉ al := by simpa [FreeKey.wellFormed] using hu
      have hk : FreeKey.key ⟨al, none⟩ = al := rfl
      rw [hk, deconstruct_plain al hal]
      refine ⟨rfl, ?_, ?_⟩ <;> intro e <;> cases e
    | some t =>
      obtain ⟨g, op⟩ := t
      simp only [FreeKey.wellFormed, Bool.and_eq_true, Bool.not_eq_true', bne_iff_ne, ne_eq]
        at hu
      obtain ⟨hal, ⟨⟨⟨⟨hg1, hg2⟩, hg3⟩, hand⟩, hor⟩⟩ := hu
      have hal1 : '(' ∉ al := by simpa using hal
      have hc1 : ',' ∉ g := by simpa using hg1
      have hc2 : '(' ∉ g := by simpa using hg2
      have hc3 : ')' ∉ g := by simpa using hg3
      obtain ⟨e1, e2⟩ := deconstruct_tagged al g (op ++ [')']) hal1 hc1 hc2 hc3
      have hk : FreeKey.key ⟨al, some (g, op)⟩ = al ++ '(' :: (g ++ ',' :: (op ++ [')'])) :=
        rfl
      rw [hk, e1, e2]
      exact ⟨rfl, fun e => hand (Option.some.inj e), fun e => hor (Option.some.inj e)⟩
  obtain ⟨p1, p2, p3⟩ := hparts
  refine ⟨?_, ?_⟩
  · intro hf
    have hf1 : plainAs (deconstruct (FreeKey.key ⟨al, tag⟩)).column fields = true := by
      rw [p1]
      exact hf
    exact ⟨genSequelizeQuery_untagged fields q1 q2 _ v exclusive hf1 p2 p3 hpm,
      fun st => queryStep_untagged fields st _ v hf1 p2 p3⟩
  · intro f n hf hn hret
    have hf1 : findAs (deconstruct (FreeKey.key ⟨al, tag⟩)).column fields = some f := by
      rw [p1]
      exact hf
    exact genSequelizeQuery_unbound fields q1 q2 _ v exclusive f n hb hf1 hn hpm hret

/-- C23 on `city(or,>)=18`: with the plain key `name=bob` or the key
`name(any,eq)=bob` after it the filter is the one of `city(or,>)=18` alone;
with the plain key `age=5` on the integer field `age` after it, the call
throws, where `city(or,>)=18` alone returns a filter. -/
theorem untagged_key_in_grouped_mode_witness :
    (genSequelizeQuery (params [("city(or,>)", "18"), ("name", "bob")]) people false
        = genSequelizeQuery (params [("city(or,>)", "18")]) people false ∧
      ∀ st, queryStep people true st "name".toList "bob".toList = .ok st) ∧
    (genSequelizeQuery (params [("city(or,>)", "18"), ("name(any,eq)", "bob")]) people false
        = genSequelizeQuery (params [("city(or,>)", "18")]) people false ∧
      ∀ st, queryStep people true st "name(any,eq)".toList "bob".toList = .ok st) ∧
    genSequelizeQuery (params [("city(or,>)", "18")]) people false
      = .ok (.or [.cmp "city_col".toList (.op .gt (.val (.str "18".toList)))]) ∧
    genSequelizeQuery (params [("city(or,>)", "18"), ("age", "5")]) people false
      = .error .referenceError :=
  ⟨(untagged_key_in_grouped_mode people (params [("city(or,>)", "18")]) []
      ⟨"name".toList, none⟩ "bob".toList false rfl rfl rfl).1 rfl,
    (untagged_key_in_grouped_mode people (params [("city(or,>)", "18")]) []
      ⟨"name".toList, some ("any".toList, "eq".toList)⟩ "bob".toList false rfl rfl rfl).1 rfl,
    rfl,
    (untagged_key_in_grouped_mode people (params [("city(or,>)", "18")]) []
      ⟨"age".toList, none⟩ "5".toList false rfl rfl rfl).2
      (leafField "age_col" "age" "integer") _ rfl rfl rfl⟩

end Dequerylize
